import Mathlib

/-!
# Verification of the sequential-decomposition graph engine

Shallow embedding of `pyomo/network/decomposition.py`
(`SequentialDecomposition`): the directed-multigraph model, the
Tarjan-style SCC collection, the SCC calculation order, the breadth-first
tree orderer, the tear selectors, the convergence drivers
(`solve_tear_direct`, `solve_tear_wegstein`), the error computation
`compute_err`, the per-run cache discipline of `run`, and the
variable-fixing discipline of `run_order`.

Conventions of the embedding:

* Graph nodes are their indexes `0 .. n-1` (the source's `idx_to_node` /
  `node_to_idx` bijections are the identity on this representation, since
  node iteration order is the enumeration order that assigns indexes).
* Edges are identified by their stable integer index, i.e. the position in
  `MDiGraph.edges`.  A networkx edge triple `(src, dst, key)` is in
  bijection with its index, so adjacency entries `(neighbor, key)` of the
  source are carried here as `(neighbor, edge index)`.
* `out_edges v` / `in_edges v` iterate edges in index order.  For graphs
  without parallel edges (all graphs evaluated concretely below) this is
  exactly the networkx iteration order; networkx groups parallel edges by
  neighbor first, which none of the claims depend on.
* Numeric values are rationals: the floating-point `NaN`/`Inf` special
  cases of the source are translated to the explicit case splits the
  source's fix-ups implement (noted at each site).
* Python exceptions are `Except String`; recursion that Python performs on
  the native stack is fueled, with the fuel proved (or chosen) sufficient.
-/

/-- A directed multigraph with nodes `0 .. n-1`; an edge is a
`(src, dest)` pair and its index is its position in `edges`
(the networkx key of a parallel edge is subsumed by the index). -/
structure MDiGraph where
  n : Nat
  edges : List (Nat × Nat)

namespace SeqDecomp

/-- Well-formed graph: every edge endpoint is a node index. -/
def MDiGraph.WF (G : MDiGraph) : Prop :=
  ∀ e ∈ G.edges, e.1 < G.n ∧ e.2 < G.n

/-- `G.out_edges v`: indexed out-edges of `v` in edge-index order,
as `(index, (src, dest))` pairs — `G.out_edges(node, keys=True)`. -/
def MDiGraph.outEdgesOf (G : MDiGraph) (v : Nat) : List (Nat × (Nat × Nat)) :=
  G.edges.enum.filter (fun p => p.2.1 = v)

/-- `G.in_edges v`: indexed in-edges of `v` in edge-index order. -/
def MDiGraph.inEdgesOf (G : MDiGraph) (v : Nat) : List (Nat × (Nat × Nat)) :=
  G.edges.enum.filter (fun p => p.2.2 = v)

/-!
## `compute_err` (decomposition.py lines 648-668)

`diff = svals - dvals`; `"abs"` returns `diff`; `"rel"` returns
`diff / svals` where numpy produces `NaN` for `0/0` (fixed up to `0`) and
`±Inf` for `diff/0` with `diff ≠ 0` (fixed up to `diff`).  Over exact
arithmetic those two fix-ups are precisely the `s = 0` case split below.
The initial guard raises `ValueError` for any other `tol_type`.
-/

/-- One entry of the `"rel"` error: `(s - d) / s`, with the source's
`isnan` fix-up (`0/0 ↦ 0`) and `isinf` fix-up (`x/0 ↦ x`). -/
def relErrEntry (s d : ℚ) : ℚ :=
  let diff := s - d
  if s = 0 then (if diff = 0 then 0 else diff) else diff / s

/-- Embeds `compute_err(svals, dvals, tol_type)`. -/
def compute_err (svals dvals : List ℚ) (tol_type : String) :
    Except String (List ℚ) :=
  if tol_type ≠ "abs" ∧ tol_type ≠ "rel" then
    .error "Invalid tol_type"
  else
    let diff := List.zipWith (fun s d => s - d) svals dvals
    if tol_type = "abs" then .ok diff
    else .ok (List.zipWith relErrEntry svals dvals)

/-!
## Adjacency lists (decomposition.py lines 1586-1659)

`adj_lists(G, excludeEdges, nodes, multi)`.  The embedding splits the two
values of the `multi` flag into two functions.  `i2n` is the supplied
`nodes` list (or `idx_to_node(G) = [0, …, n-1]`), and `n2i` maps a node to
its position in that list.
-/

/-- Position of `v` in the `nodes` list, the source's `n2i[v]`. -/
def n2iOf (nodesL : List Nat) (v : Nat) : Nat :=
  nodesL.findIdx (fun w => w = v)

/-- One row of the successor adjacency list (`multi=False`): neighbors of
`v` in out-edge order, collapsed per neighbor via the `seen` set, keeping
only neighbors inside `nodes` reached by a non-excluded edge. -/
def adjRowOut (G : MDiGraph) (exclude : List Nat) (nodesL : List Nat) (v : Nat) :
    List Nat :=
  ((MDiGraph.outEdgesOf G v).foldl
    (fun (p : List Nat × List Nat) e =>
      let suc := e.2.2
      if suc ∈ p.1 then p
      else if suc ∈ nodesL ∧ e.1 ∉ exclude then (suc :: p.1, p.2 ++ [n2iOf nodesL suc])
      else p)
    ([], [])).2

/-- One row of the reverse adjacency list (`multi=False`). -/
def adjRowIn (G : MDiGraph) (exclude : List Nat) (nodesL : List Nat) (v : Nat) :
    List Nat :=
  ((MDiGraph.inEdgesOf G v).foldl
    (fun (p : List Nat × List Nat) e =>
      let pre := e.2.1
      if pre ∈ p.1 then p
      else if pre ∈ nodesL ∧ e.1 ∉ exclude then (pre :: p.1, p.2 ++ [n2iOf nodesL pre])
      else p)
    ([], [])).2

/-- Embeds `adj_lists(G, excludeEdges, nodes, multi=False)`: the index map
`i2n` together with the successor and predecessor adjacency lists. -/
def adj_lists (G : MDiGraph) (excludeEdges : Option (List Nat))
    (nodes : Option (List Nat)) :
    List Nat × List (List Nat) × List (List Nat) :=
  let exclude := excludeEdges.getD []
  let nodesL := nodes.getD (List.range G.n)
  (nodesL, nodesL.map (adjRowOut G exclude nodesL),
    nodesL.map (adjRowIn G exclude nodesL))

/-- One row of the successor adjacency list with `multi=True` over all
nodes: entries are `(neighbor index, edge index)`, one per parallel edge
(the networkx key is carried as the edge index, see the module header). -/
def adjRowOutMulti (G : MDiGraph) (v : Nat) : List (Nat × Nat) :=
  (MDiGraph.outEdgesOf G v).map (fun e => (e.2.2, e.1))

/-- Embeds the `adj_lists(G, multi=True)` call of `all_cycles` (no
excluded edges, all nodes, so `i2n` is the identity). -/
def adj_lists_multi (G : MDiGraph) : List (List (Nat × Nat)) :=
  (List.range G.n).map (adjRowOutMulti G)

/-!
## `sub_graph_edges` (decomposition.py lines 1460-1488)
-/

/-- Embeds `sub_graph_edges(G, nodes)`: `(e, ie, oe)` — edge indexes with
both ends in `nodes`, coming in from outside, and going out. -/
def sub_graph_edges (G : MDiGraph) (nodes : List Nat) :
    List Nat × List Nat × List Nat :=
  G.edges.enum.foldl
    (fun (acc : List Nat × List Nat × List Nat) p =>
      let (i, (src, dest)) := p
      if src ∈ nodes then
        if dest ∈ nodes then (acc.1 ++ [i], acc.2.1, acc.2.2)
        else (acc.1, acc.2.1, acc.2.2 ++ [i])
      else if dest ∈ nodes then (acc.1, acc.2.1 ++ [i], acc.2.2)
      else acc)
    ([], [], [])

/-!
## Tarjan SCC collection (decomposition.py lines 1024-1081)

The recursive sub-function `sc` is embedded with explicit state and fuel;
the fuel models the native call stack and is proved sufficient whenever it
is at least the number of unvisited nodes (`sc_no_fuel_out` below).  Note
the source numbers nodes by recursion depth (`ndepth[v] = depth` with a
local `depth`), not by a global counter.
-/

/-- State of the Tarjan traversal: node stack (head = top), `ndepth` and
`back` arrays (`none` = unvisited), accumulated components. -/
structure SccSt where
  stk : List Nat
  ndepth : List (Option Nat)
  back : List (Option Nat)
  comps : List (List Nat)

/-- `min` on the optional depth values; both arguments are `some` at every
use (the source's `min(back[w], back[v])` would fail on `None`). -/
def minOpt : Option Nat → Option Nat → Option Nat
  | some a, some b => some (min a b)
  | none, b => b
  | a, none => a

/-- The pop loop at the end of `sc`: pop the stack down to and including
`v`, returning the popped component (in pop order) and the rest. -/
def popComp (v : Nat) : List Nat → List Nat × List Nat
  | [] => ([], [])
  | w :: rest =>
    if w = v then ([w], rest)
    else
      let (c, r) := popComp v rest
      (w :: c, r)

mutual

/-- Embeds the recursive `sc(v, stk, depth, strngComps)`: mark `v` with the
current recursion depth, push it, process its successors, and pop a
component if `back[v] == ndepth[v]`.  Fuel is consumed by every mutual
step (call or successor-list step) so the recursion is structural; a fuel
of `1 + number of unvisited nodes + their total out-degree` is sufficient
(`sc_no_fuel_out` below), and the callers supply at least that. -/
def sc (adj : List (List Nat)) : Nat → Nat → Nat → SccSt → SccSt
  | 0, _, _, st => st
  | fuel + 1, v, depth, st =>
    let st1 : SccSt :=
      { st with
        ndepth := st.ndepth.set v (some depth)
        back := st.back.set v (some depth)
        stk := v :: st.stk }
    let st2 := scGo adj fuel (adj.getD v []) v depth st1
    if st2.back.getD v none = st2.ndepth.getD v none then
      let pr := popComp v st2.stk
      { st2 with stk := pr.2, comps := st2.comps ++ [pr.1] }
    else st2
termination_by structural fuel _ _ _ => fuel

/-- The `for w in adj[v]` loop of `sc`: recurse on unvisited successors,
min the `back` value against successors still on the stack. -/
def scGo (adj : List (List Nat)) : Nat → List Nat → Nat → Nat → SccSt → SccSt
  | _, [], _, _, st => st
  | 0, _ :: _, _, _, st => st
  | fuel + 1, w :: ws, v, depth, st =>
    let st' :=
      match st.ndepth.getD w none with
      | none =>
        let stw := sc adj fuel w (depth + 1) st
        { stw with
          back := stw.back.set v (minOpt (stw.back.getD w none) (stw.back.getD v none)) }
      | some _ =>
        if w ∈ st.stk then
          { st with
            back := st.back.set v (minOpt (st.back.getD w none) (st.back.getD v none)) }
        else st
    scGo adj fuel ws v depth st'
termination_by structural fuel _ _ _ _ => fuel

end

/-- Fuel sufficient for any `sc` run over `adj`. -/
def scFuel (adj : List (List Nat)) (nn : Nat) : Nat :=
  nn + (adj.map List.length).sum + 2

/-- The `for v in range(len(i2n))` driver loop of `scc_collect`: run `sc`
from every still-unvisited node. -/
def sccMain (adj : List (List Nat)) (nn : Nat) : SccSt :=
  (List.range nn).foldl
    (fun st v =>
      if st.ndepth.getD v none = none then sc adj (scFuel adj nn) v 0 st else st)
    ⟨[], List.replicate nn none, List.replicate nn none, []⟩

/-- Remaining Tarjan work in a state: one unit per unvisited node plus one
per successor of an unvisited node; bounds the fuel `sc` can consume. -/
def scWeight (adj : List (List Nat)) (nn : Nat) (st : SccSt) : Nat :=
  Finset.sum ((Finset.range nn).filter (fun u => st.ndepth.getD u none = none))
    (fun u => 1 + (adj.getD u []).length)

/-- Invariant of the Tarjan traversal state: array lengths, each visited
node on the stack or in exactly one component, nothing else anywhere. -/
structure ScInv (nn : Nat) (st : SccSt) : Prop where
  hnl : st.ndepth.length = nn
  hbl : st.back.length = nn
  hnd : (st.comps.flatten ++ st.stk).Nodup
  hiff : ∀ u, st.ndepth.getD u none ≠ none ↔ (u ∈ st.stk ∨ u ∈ st.comps.flatten)

/-- Postcondition of one `sc` call on an unvisited `v` (see `sc_scGo_spec`). -/
structure ScPost (adj : List (List Nat)) (nn v depth : Nat) (st st2 : SccSt) :
    Prop where
  inv : ScInv nn st2
  hstk : ∃ ext, st2.stk = ext ++ st.stk
  hcomps : ∃ pre, st2.comps = st.comps ++ pre
  ndepthPres : ∀ u, st.ndepth.getD u none ≠ none →
    st2.ndepth.getD u none = st.ndepth.getD u none
  ndepthV : st2.ndepth.getD v none = some depth
  backPres : ∀ u, st.ndepth.getD u none ≠ none →
    st2.back.getD u none = st.back.getD u none
  wt : scWeight adj nn st2 + 1 + (adj.getD v []).length ≤ scWeight adj nn st
  pop0 : depth = 0 → st2.stk = st.stk

/-- Postcondition of the `scGo` successor loop of a visited `v`. -/
structure GoPost (adj : List (List Nat)) (nn v : Nat) (st st2 : SccSt) :
    Prop where
  inv : ScInv nn st2
  hstk : ∃ ext, st2.stk = ext ++ st.stk
  hcomps : ∃ pre, st2.comps = st.comps ++ pre
  ndepthPres : ∀ u, st.ndepth.getD u none ≠ none →
    st2.ndepth.getD u none = st.ndepth.getD u none
  backPres : ∀ u, st.ndepth.getD u none ≠ none → u ≠ v →
    st2.back.getD u none = st.back.getD u none
  backV0 : st.back.getD v none = some 0 → st2.back.getD v none = some 0
  wt : scWeight adj nn st2 ≤ scWeight adj nn st

/-!
## `tree_order` (decomposition.py lines 1159-1259)

The breadth-first layered orderer.  Its `while` loop is fueled with
`2 * len(adj) + 2`: every non-final iteration places at least one node,
a node can be placed at most twice (once as a supplied root without
`ndepth`, once as a candidate, a third visit raises), so the loop runs at
most `2n + 1` times.  The marking loop for explicit roots is fueled with
`len(adj) + 2`: it does not terminate in the source when a cycle is
reachable from the roots (`lst` never empties), which the embedding
reports as the distinguished error `"mark loop"`.

`checknodes` and the per-row predecessor sets are kept as canonical
ascending lists; CPython iterates small-int sets in an order the language
does not fix, and no placement decision depends on it (each round reads
only the previous level, `mark`, and its own row).
-/

/-- Canonical ascending representative of a set of node indexes `< nn`. -/
def canonSet (nn : Nat) (l : List Nat) : List Nat :=
  (List.range nn).filter (fun i => i ∈ l)

/-- The `for i in checknodes` candidate loop of one `tree_order` round.
State: working reverse-adjacency, `ndepth`, nodes placed this round
(`lst`), `delSet`, `checkUpdate`.  A candidate that already has a depth
raises the source's `RuntimeError`. -/
def tree_cands (adj : List (List Nat)) (mark : List Bool) (prevLev : List Nat)
    (depth : Nat) :
    List Nat →
    (List (List Nat) × List (Option Nat) × List Nat × List Nat × List Nat) →
    Except String (List (List Nat) × List (Option Nat) × List Nat × List Nat × List Nat)
  | [], acc => .ok acc
  | ci :: rest, (adjR, ndepth, lstN, delS, chkU) =>
    if ndepth.getD ci none ≠ none then
      .error "Function tree_order does not work with cycles"
    else
      -- remSet: ancestors placed in the previous level or outside the mark
      let row := (adjR.getD ci []).filter
        (fun j => ¬(j ∈ prevLev ∨ mark.getD j true = false))
      let adjR' := adjR.set ci row
      if row = [] then
        tree_cands adj mark prevLev depth rest
          (adjR', ndepth.set ci (some depth), lstN ++ [ci], delS ++ [ci],
            chkU ++ adj.getD ci [])
      else
        tree_cands adj mark prevLev depth rest (adjR', ndepth, lstN, delS, chkU)

/-- The `while len(lst) > 0` loop of `tree_order`. -/
def tree_order_loop (adj : List (List Nat)) (mark : List Bool) :
    Nat → List (List Nat) → List (Option Nat) → List (List Nat) → List Nat →
    List Nat → Except String (List (List Nat))
  | 0, _, _, _, _, _ => .error "fuel"
  | fuel + 1, adjR, ndepth, order, checknodes, lst =>
    if lst = [] then .ok order
    else
      let order' := order ++ [lst]
      match tree_cands adj mark lst order'.length checknodes
          (adjR, ndepth, [], [], []) with
      | .error e => .error e
      | .ok (adjR', ndepth', lst', delS, chkU) =>
        let checknodes' :=
          canonSet adj.length ((checknodes.filter (fun i => i ∉ delS)) ++ chkU)
        tree_order_loop adj mark fuel adjR' ndepth' order' checknodes' lst'

/-- The root-descendant marking loop (`while len(lst) > 0` over `mark`),
fueled; the source loops forever when a cycle is reachable from the
supplied roots, reported here as `"mark loop"`. -/
def tree_mark_loop (adj : List (List Nat)) :
    Nat → List Nat → List Bool → Except String (List Bool)
  | 0, lst, mk => if lst = [] then .ok mk else .error "mark loop"
  | fuel + 1, lst, mk =>
    if lst = [] then .ok mk
    else
      let mk' := lst.foldl (fun m i => m.set i true) mk
      let lst2 := lst.foldl (fun acc i => acc ++ adj.getD i []) []
      tree_mark_loop adj fuel (canonSet adj.length lst2) mk'

/-- Embeds `tree_order(adj, adjR, roots)`. -/
def tree_order (adj adjR0 : List (List Nat)) (roots? : Option (List Nat)) :
    Except String (List (List Nat)) :=
  let nn := adj.length
  -- adjR = deepcopy, each row turned into a set
  let adjR := adjR0.map List.dedup
  let rm : Except String (List Nat × List Bool) :=
    match roots? with
    | none =>
      -- roots are the nodes that appear in no successor list; all marked
      .ok ((List.range nn).filter (fun i => ¬ adj.any (fun sucs => i ∈ sucs)),
        List.replicate nn true)
    | some rs =>
      match tree_mark_loop adj (nn + 2) rs (List.replicate nn false) with
      | .error e => .error e
      | .ok mk => .ok (rs, mk)
  match rm with
  | .error e => .error e
  | .ok (roots, mark) =>
    let checknodes0 :=
      canonSet nn (roots.foldl (fun acc i => acc ++ adj.getD i []) [])
    tree_order_loop adj mark (2 * nn + 2) adjR
      (List.replicate nn none) [] checknodes0 roots

/-!
## `scc_calculation_order` (decomposition.py lines 1083-1125)

Builds an adjacency over SCC indexes and feeds it to `tree_order` with no
roots.  The nested `for j / for ine / for oute` loops with the `done` flag
record, for each SCC `i`, only the first SCC `j` (in ascending index
order) that has an out-edge matching one of `i`'s in-edges: the first
match appends `j → i` and the two `if done: break` statements leave the
`ine` and `j` loops, so the remaining predecessors of `i` are dropped.
-/

/-- First `j < cnt` whose out-edges intersect `iei` (the `done`-flag break
structure of the source's nested loops). -/
def firstMatchScc (oe : List (List Nat)) (iei : List Nat) (cnt : Nat) : Option Nat :=
  (List.range cnt).find? (fun j => iei.any (fun ine => (oe.getD j []).contains ine))

/-- Embeds `scc_calculation_order(sccNodes, ie, oe)`. -/
def scc_calculation_order (sccNodes : List (List Nat)) (ie oe : List (List Nat)) :
    Except String (List (List Nat)) :=
  let cnt := sccNodes.length
  let adjP :=
    (List.range cnt).foldl
      (fun (p : List (List Nat) × List (List Nat)) i =>
        match firstMatchScc oe (ie.getD i []) cnt with
        | some j => (p.1.set j (p.1.getD j [] ++ [i]), p.2.set i (p.2.getD i [] ++ [j]))
        | none => p)
      (List.replicate cnt [], List.replicate cnt [])
  tree_order adjP.1 adjP.2 none

/-!
## `scc_collect` (decomposition.py lines 1024-1081, driver part)
-/

/-- Embeds `scc_collect(G, excludeEdges)`: returns
`(sccNodes, sccEdges, sccOrder, outEdges)`; the `Except` carries the
`tree_order` error through `scc_calculation_order`. -/
def scc_collect (G : MDiGraph) (excludeEdges : Option (List Nat)) :
    Except String
      (List (List Nat) × List (List Nat) × List (List Nat) × List (List Nat)) :=
  let al := adj_lists G excludeEdges none
  let i2n := al.1
  let adj := al.2.1
  let stF := sccMain adj i2n.length
  -- nodes = None here, so i2n is the identity on 0 .. n-1
  let sccNodes := stF.comps.map (fun comp => comp.map (fun w => i2n.getD w 0))
  let trip := sccNodes.map (fun nset => sub_graph_edges G nset)
  let sccEdges := trip.map (fun t => t.1)
  let inEdges := trip.map (fun t => t.2.1)
  let outEdges := trip.map (fun t => t.2.2)
  match scc_calculation_order sccNodes inEdges outEdges with
  | .error e => .error e
  | .ok sccOrder => .ok (sccNodes, sccEdges, sccOrder, outEdges)

/-- Embeds `check_tear_set(G, tset)`. -/
def check_tear_set (G : MDiGraph) (tset : List Nat) : Except String Bool :=
  match scc_collect G (some tset) with
  | .error e => .error e
  | .ok r => .ok (r.1.all (fun nodes => nodes.length ≤ 1))

/-!
## Convergence drivers (decomposition.py lines 869-1022)

`solve_tear_direct` and `solve_tear_wegstein` are parameterized by an
abstract plant: the Pyomo model state is an opaque type `S` and the
operations the drivers perform on it (`run_order`, `tear_diff_direct`,
`pass_tear_direct`, `pass_tear_wegstein`, `generate_gofx`,
`generate_first_x`, `pass_edges`) are supplied functions.  The drivers
additionally emit an event trace recording each `run_order` call (with its
`ignore` argument) and each `logger.warning`, so that iteration counts are
observable.

`numpy.max(numpy.abs(err))` is `maxAbsQ`: for a nonempty vector the fold
below equals the numpy value because every `|x| ≥ 0`; numpy raises on an
empty vector (a tear arc whose source port has no variables), which the
embedding does not model — the theorems that mention convergence carry a
nonemptiness hypothesis for the plant where it matters.
-/

/-- Abstract plant state and driver operations (see section header). -/
structure TearPlant (S : Type) where
  runOrderS : List Nat → S → S
  tearDiffS : S → List ℚ × List ℚ
  passTearDirectS : S → S
  passTearWegsteinS : List ℚ → S → S
  gofxS : S → List ℚ
  firstXS : S → List ℚ
  passEdgesS : S → S

/-- Observable driver events: a `run_order` call with its `ignore` list,
or a `logger.warning`. -/
inductive DriverEvent
  | runOrderCall (ignore : List Nat)
  | warn (msg : String)
deriving DecidableEq

/-- `numpy.max(numpy.abs(l))` for nonempty `l` (see section header). -/
def maxAbsQ (l : List ℚ) : ℚ :=
  l.foldr (fun x m => max |x| m) 0

/-- Number of `run_order` calls in a trace. -/
def countRunOrder (evs : List DriverEvent) : Nat :=
  (evs.filter (fun e => match e with | .runOrderCall _ => true | _ => false)).length

/-- The `while True` loop of `solve_tear_direct` (lines 897-917);
`itercount` is the source's counter, recursion is on `iterLim - itercount`
exactly as the `itercount >= iterLim` guard bounds it. -/
def solve_tear_direct_loop {S : Type} (P : TearPlant S) (tears outEdges : List Nat)
    (iterLim : Nat) (tol : ℚ) (tol_type : String) (s : S) (itercount : Nat)
    (hist : List (List ℚ)) (evs : List DriverEvent) :
    Except String (List (List ℚ) × S × List DriverEvent) :=
  let sd := P.tearDiffS s
  match compute_err sd.1 sd.2 tol_type with
  | .error e => .error e
  | .ok err =>
    let hist' := hist ++ [err]
    if maxAbsQ err < tol then
      -- converged: break, then pass outEdges downstream and return
      .ok (hist', P.passEdgesS s, evs)
    else if iterLim ≤ itercount then
      .ok (hist', s, evs ++ [.warn "Direct failed to converge"])
    else
      let s1 := P.passTearDirectS s
      let s2 := P.runOrderS (tears ++ outEdges) s1
      solve_tear_direct_loop P tears outEdges iterLim tol tol_type s2
        (itercount + 1) hist' (evs ++ [.runOrderCall (tears ++ outEdges)])
termination_by iterLim - itercount
decreasing_by simp_wf; omega

/-- Embeds `solve_tear_direct(G, order, function, tears, outEdges, iterLim,
tol, tol_type, report_diffs)`; an empty tear list runs the order once with
`ignore = tears` and returns the empty history. -/
def solve_tear_direct {S : Type} (P : TearPlant S) (tears outEdges : List Nat)
    (iterLim : Nat) (tol : ℚ) (tol_type : String) (s : S) :
    Except String (List (List ℚ) × S × List DriverEvent) :=
  if tears = [] then
    .ok ([], P.runOrderS tears s, [.runOrderCall tears])
  else
    solve_tear_direct_loop P tears outEdges iterLim tol tol_type s 0 [] []

/-- Elementwise Wegstein slope `(gofx - gofx_prev) / (x - x_prev)`: numpy
produces `NaN` (`0/0`) or `±Inf` (`y/0`) exactly when the denominator is
`0`, and the source zeroes both out (`slope[isnan] = 0`,
`slope[isinf] = 0`). -/
def wegSlope (gofx gofx_prev x x_prev : List ℚ) : List ℚ :=
  List.zipWith (fun gd xd => if xd = 0 then 0 else gd / xd)
    (List.zipWith (fun a b => a - b) gofx gofx_prev)
    (List.zipWith (fun a b => a - b) x x_prev)

/-- Elementwise acceleration `slope / (slope - 1)` followed by the two
clamps `accel[accel < accel_min] = accel_min`,
`accel[accel > accel_max] = accel_max`.  At `slope = 1` the float division
yields `+Inf` (numerator `1`, denominator `+0`), which the upper clamp
then maps to `accel_max`. -/
def wegAccel (accel_min accel_max : ℚ) (slope : ℚ) : ℚ :=
  if slope = 1 then accel_max
  else
    let a := slope / (slope - 1)
    let a1 := if a < accel_min then accel_min else a
    if accel_max < a1 then accel_max else a1

/-- The `while True` loop of `solve_tear_wegstein` (lines 978-1016);
`itercount` is incremented at the top of each round, and the
`itercount > iterLim` guard bounds the recursion. -/
def solve_tear_wegstein_loop {S : Type} (P : TearPlant S) (tears outEdges : List Nat)
    (iterLim : Nat) (tol : ℚ) (tol_type : String) (accel_min accel_max : ℚ)
    (s : S) (x x_prev gofx_prev : List ℚ) (itercount : Nat)
    (hist : List (List ℚ)) (evs : List DriverEvent) :
    Except String (List (List ℚ) × S × List DriverEvent) :=
  let itc := itercount + 1
  let s1 := P.runOrderS (tears ++ outEdges) s
  let evs1 := evs ++ [.runOrderCall (tears ++ outEdges)]
  let gofx := P.gofxS s1
  match compute_err gofx x tol_type with
  | .error e => .error e
  | .ok err =>
    let hist' := hist ++ [err]
    if maxAbsQ err < tol then
      -- converged: break, then pass outEdges downstream and return
      .ok (hist', P.passEdgesS s1, evs1)
    else if iterLim < itc then
      .ok (hist', s1, evs1 ++ [.warn "Wegstein failed to converge"])
    else
      let slope := wegSlope gofx gofx_prev x x_prev
      let accel := slope.map (wegAccel accel_min accel_max)
      let x_prev' := x
      let gofx_prev' := gofx
      let x' := List.zipWith (fun u w => u + w)
          (List.zipWith (fun a p => a * p) accel x_prev')
          (List.zipWith (fun a g => (1 - a) * g) accel gofx_prev')
      let s2 := P.passTearWegsteinS x' s1
      solve_tear_wegstein_loop P tears outEdges iterLim tol tol_type
        accel_min accel_max s2 x' x_prev' gofx_prev' itc hist' evs1
termination_by iterLim + 1 - itercount
decreasing_by simp_wf; omega

/-- Embeds `solve_tear_wegstein(...)`: empty tears run the order once;
otherwise the initial error is recorded, an initial direct step
`x = gofx` is pushed, and the loop runs. -/
def solve_tear_wegstein {S : Type} (P : TearPlant S) (tears outEdges : List Nat)
    (iterLim : Nat) (tol : ℚ) (tol_type : String) (accel_min accel_max : ℚ)
    (s : S) : Except String (List (List ℚ) × S × List DriverEvent) :=
  if tears = [] then
    .ok ([], P.runOrderS tears s, [.runOrderCall tears])
  else
    let gofx := P.gofxS s
    let x := P.firstXS s
    match compute_err gofx x tol_type with
    | .error e => .error e
    | .ok err =>
      let hist := [err]
      if maxAbsQ err < tol then
        .ok (hist, s, [])
      else
        let s1 := P.passTearWegsteinS gofx s
        solve_tear_wegstein_loop P tears outEdges iterLim tol tol_type
          accel_min accel_max s1 gofx x gofx 0 hist []

/-!
## `calculation_order` (decomposition.py lines 1127-1157) and the
tear-convergence loop of `run` (lines 244-274)

`run`'s tear phase collects the SCCs of the *whole* graph, then walks
`sccOrder` level by level, and for *every* SCC index builds a calculation
order restricted to that SCC's nodes, filters the tear set down to the
SCC's internal edges, and dispatches the chosen tear method.  The
embedding records the `(sccIndex, tears)` pair of every dispatch; the
numeric work of the dispatched method is the abstract-plant model above.
-/

/-- Embeds `calculation_order(G, roots, nodes)`: adjacency over the node
subset with the tear set excluded, ordered by `tree_order`, indexes mapped
back through `i2n`. -/
def calculation_order (G : MDiGraph) (tset : List Nat) (roots? : Option (List Nat))
    (nodes : Option (List Nat)) : Except String (List (List Nat)) :=
  let al := adj_lists G (some tset) nodes
  -- node_to_idx is the identity on this representation, so supplied roots
  -- are already indexes
  match tree_order al.2.1 al.2.2 roots? with
  | .error e => .error e
  | .ok orderIndex =>
    .ok (orderIndex.map (fun lev => lev.map (fun j => al.1.getD j 0)))

/-- The `for sccIndex in lev` body of `run`: build the SCC-internal order,
filter the tears, and dispatch (`tear_method` must be `"Direct"` or
`"Wegstein"`, anything else raises `ValueError`). -/
def runSccLevel (G : MDiGraph) (tset : List Nat) (sccNodes sccEdges : List (List Nat))
    (tear_method : String) :
    List Nat → List (Nat × List Nat) → Except String (List (Nat × List Nat))
  | [], acc => .ok acc
  | sccIndex :: rest, acc =>
    match calculation_order G tset none (some (sccNodes.getD sccIndex [])) with
    | .error e => .error e
    | .ok _order =>
      let tears := tset.filter (fun ei => ei ∈ sccEdges.getD sccIndex [])
      if tear_method = "Direct" ∨ tear_method = "Wegstein" then
        runSccLevel G tset sccNodes sccEdges tear_method rest (acc ++ [(sccIndex, tears)])
      else .error "Invalid tear_method"

/-- The `for lev in sccOrder` loop of `run`. -/
def runSccLevels (G : MDiGraph) (tset : List Nat) (sccNodes sccEdges : List (List Nat))
    (tear_method : String) :
    List (List Nat) → List (Nat × List Nat) → Except String (List (Nat × List Nat))
  | [], acc => .ok acc
  | lev :: levs, acc =>
    match runSccLevel G tset sccNodes sccEdges tear_method lev acc with
    | .error e => .error e
    | .ok acc' => runSccLevels G tset sccNodes sccEdges tear_method levs acc'

/-- Trace of the tear-convergence phase of `run` (entered when
`solve_tears` is set and the tear set is nonempty): the list of
`(sccIndex, tears)` dispatches in execution order. -/
def runSccInvocations (G : MDiGraph) (tset : List Nat) (tear_method : String) :
    Except String (List (Nat × List Nat)) :=
  match scc_collect G none with
  | .error e => .error e
  | .ok (sccNodes, sccEdges, sccOrder, _outEdges) =>
    runSccLevels G tset sccNodes sccEdges tear_method sccOrder []

/-!
## The per-run cache of `run` (decomposition.py lines 206-283, 781-858)

The driver memoizes pure derivations of `G` in `self.cache` through
`cacher`.  The automaton below tracks exactly the *keys* present in the
cache (values are irrelevant to the claims) through the call sequence of
`run`; each `<helper>K` function is the cache effect of the corresponding
source helper, in call order.  Exits are distinguished: normal completion,
the early `return` when `solve_tears` is off or the tear set is empty, and
the `ValueError` raises for invalid option values.
-/

/-- The memoized keys of `self.cache`, in insertion order. -/
abbrev CacheSt := List String

/-- How `run` exits in the cache automaton. -/
inductive RunExitKind
  | normal
  | early
  | raised
deriving DecidableEq

/-- `cacher(key, fcn, ...)`: insert the key after the miss computes. -/
def cacherK (key : String) (c : CacheSt) : CacheSt :=
  if key ∈ c then c else c ++ [key]

/-- Cache effect of `adj_lists`: `idx_to_edge` on a non-`None`
`excludeEdges`, `idx_to_node` on a `None` node list. -/
def adj_listsK (excludeGiven nodesGiven : Bool) (c : CacheSt) : CacheSt :=
  let c := if excludeGiven then cacherK "idx_to_edge" c else c
  if nodesGiven then c else cacherK "idx_to_node" c

/-- Cache effect of `all_cycles`: `adj_lists(G, multi=True)` then
`edge_to_idx`. -/
def all_cyclesK (c : CacheSt) : CacheSt :=
  cacherK "edge_to_idx" (adj_listsK false false c)

/-- Cache effect of `scc_collect`: `adj_lists`, then `sub_graph_edges`
(hence `idx_to_edge`) for each of the at least one SCC of a nonempty
graph. -/
def scc_collectK (excludeGiven : Bool) (c : CacheSt) : CacheSt :=
  cacherK "idx_to_edge" (adj_listsK excludeGiven false c)

/-- Cache effect of `tear_set(G)` (lines 788-815): the `cacher` wrapper
around the option lookup / selector dispatch; an invalid
`select_tear_method` raises out of the miss function with nothing of the
miss inserted. -/
def tear_setK (tear_set_given : Bool) (select_tear_method : String) (c : CacheSt) :
    Except String CacheSt :=
  if "tear_set" ∈ c then .ok c
  else if tear_set_given then
    -- arc_to_edge, edge_to_idx, check_tear_set -> scc_collect(G, res),
    -- then self.cache[key] = res inside fcn and again via cacher
    .ok (cacherK "tear_set"
      (scc_collectK true (cacherK "edge_to_idx" (cacherK "arc_to_edge" c))))
  else if select_tear_method = "mip" then
    -- select_tear_mip -> select_tear_mip_model -> all_cycles
    .ok (cacherK "tear_set" (all_cyclesK c))
  else if select_tear_method = "heuristic" then
    -- tear_upper_bound -> idx_to_edge, cycle_edge_matrix -> all_cycles
    .ok (cacherK "tear_set" (all_cyclesK (cacherK "idx_to_edge" c)))
  else .error "Invalid select_tear_method"

/-- Cache effect of `calculation_order`: `tear_set` (already cached at
every call site inside `run`), then `adj_lists` with the tear set
excluded. -/
def calculation_orderK (tear_set_given : Bool) (select_tear_method : String)
    (nodesGiven : Bool) (c : CacheSt) : Except String CacheSt :=
  match tear_setK tear_set_given select_tear_method c with
  | .error e => .error e
  | .ok c1 => .ok (adj_listsK true nodesGiven c1)

/-- Cache effect of `run_order`: `fixed_inputs`, `edge_to_idx`, and
`arc_to_edge` for each destination arc encountered (`hasDests` says some
unit has an outgoing arc). -/
def run_orderK (hasDests : Bool) (c : CacheSt) : CacheSt :=
  let c := cacherK "edge_to_idx" (cacherK "fixed_inputs" c)
  if hasDests then cacherK "arc_to_edge" c else c

/-- Cache effect of one dispatched tear method (either scheme): the inner
`run_order`, `tear_diff`/`pass_tear`/`pass_edges` (`idx_to_edge`), and
`pass_values` (`fixed_inputs`, `arc_to_edge` not needed — `pass_values`
itself touches no cache; `pass_tear_*` and `pass_edges` use
`idx_to_edge` and `fixed_inputs`). -/
def solve_tearK (hasDests : Bool) (c : CacheSt) : CacheSt :=
  cacherK "idx_to_edge" (run_orderK hasDests c)

/-- Options of `run` relevant to the cache automaton. -/
structure RunOpts where
  tear_set_given : Bool
  select_tear_method : String
  run_first_pass : Bool
  solve_tears : Bool
  tear_method : String

/-- The tear-convergence loop of `run` as a cache automaton:
`numInvocations` SCC dispatches, each checking `tear_method`. -/
def runTearLoopK (opts : RunOpts) (hasDests : Bool) :
    Nat → CacheSt → Except String CacheSt
  | 0, c => .ok c
  | k + 1, c =>
    match calculation_orderK opts.tear_set_given opts.select_tear_method true c with
    | .error e => .error e
    | .ok c1 =>
      if opts.tear_method = "Direct" ∨ opts.tear_method = "Wegstein" then
        runTearLoopK opts hasDests k (solve_tearK hasDests c1)
      else .error "Invalid tear_method"

/-- Cache effect of the optional first pass of `run`:
`calculation_order(G)` then `run_order`. -/
def run_firstPassK (opts : RunOpts) (hasDests : Bool) (c1 : CacheSt) :
    Except String CacheSt :=
  if opts.run_first_pass then
    match calculation_orderK opts.tear_set_given opts.select_tear_method false c1 with
    | .error e => .error e
    | .ok cx => .ok (run_orderK hasDests cx)
  else .ok c1

/-- The cache automaton of `run(model, function)` (lines 206-283):
`self.cache.clear()` on entry (so the incoming cache `_c0` is dropped),
`tear_set`, the optional first pass, the early return, the SCC loop, and
`self.cache.clear()` before the normal return.  `tsetEmpty` abstracts
`len(tset) == 0`, `numInvocations` the number of SCC dispatches. -/
def run_cache (opts : RunOpts) (tsetEmpty hasDests : Bool) (numInvocations : Nat)
    (_c0 : CacheSt) : RunExitKind × CacheSt :=
  match tear_setK opts.tear_set_given opts.select_tear_method [] with
  | .error _ => (.raised, [])
  | .ok c1 =>
    match run_firstPassK opts hasDests c1 with
    | .error _ => (.raised, c1)
    | .ok c2 =>
      if ¬opts.solve_tears ∨ tsetEmpty then (.early, c2)
      else
        match runTearLoopK opts hasDests numInvocations (scc_collectK false c2) with
        | .error _ => (.raised, scc_collectK false c2)
        | .ok _c4 => (.normal, [])

/-!
## Variable fixing in `run_order` (decomposition.py lines 285-337,
339-383, 426-484)

The abstract scenario below captures what `run_order` does to variables:
per unit, the load phase (`load_values` / `check_value_fix`) fixes each
still-free inlet variable or raises the missing-value error, the user
`function` runs (it may raise), the unit's ledger entry (`fixed_inputs`)
is freed and cleared, and then per outlet port the free outlet variables
are transiently fixed and each destination arc's `pass_values` fixes some
variables into the destination unit's ledger entry, or raises
(overdetermined / underdetermined / inequality).  There is no
`try`/`finally` anywhere on this path: an error propagates with the state
exactly as it was.
-/

/-- One `pass_values(arc, fixed_inputs)` call: variables fixed by the
solved constraints (recorded in the destination unit's ledger entry), then
optionally a raising constraint. -/
structure PassAction where
  destUnit : Nat
  fixesVars : List Nat
  fails : Bool

/-- One outlet port of a unit: the free outlet variables transiently
fixed around passing, and the destination arcs. -/
structure OutPort where
  outVars : List Nat
  passes : List PassAction

/-- Scenario of one unit: load actions (`some v` fixes `v`, `none` is the
missing-value raise), whether `function(unit)` returns, outlet ports. -/
structure UnitSpec where
  loads : List (Option Nat)
  funcOk : Bool
  ports : List OutPort

/-- Driver fixing state: all currently driver-fixed variables, and the
`fixed_inputs` ledger mapping a unit to its fixed input variables. -/
structure FixSt where
  fixedVars : List Nat
  ledger : List (Nat × List Nat)
deriving DecidableEq

/-- Ledger entry of a unit (`fixed_inputs[unit]`, defaulting to the empty
set that `run_order`/`pass_values` create on demand). -/
def FixSt.entry (st : FixSt) (u : Nat) : List Nat :=
  match st.ledger.find? (fun p => p.1 = u) with
  | some p => p.2
  | none => []

/-- Replace (or create) the ledger entry of `u`. -/
def FixSt.setEntry (st : FixSt) (u : Nat) (vs : List Nat) : FixSt :=
  if st.ledger.any (fun p => p.1 = u) then
    { st with ledger := st.ledger.map (fun p => if p.1 = u then (u, vs) else p) }
  else { st with ledger := st.ledger ++ [(u, vs)] }

/-- `var.fix()`: mark a variable driver-fixed. -/
def FixSt.fixVar (st : FixSt) (v : Nat) : FixSt :=
  if v ∈ st.fixedVars then st else { st with fixedVars := st.fixedVars ++ [v] }

/-- `var.free()`: release a variable. -/
def FixSt.freeVar (st : FixSt) (v : Nat) : FixSt :=
  { st with fixedVars := st.fixedVars.filter (fun w => w ≠ v) }

/-- The load phase of a unit: fix each loadable input into the unit's
ledger entry, raise on a missing value. -/
def load_phase (u : Nat) : List (Option Nat) → FixSt → Option String × FixSt
  | [], st => (none, st)
  | none :: _, st =>
    (some "Encountered a free inlet variable with no value", st)
  | some v :: rest, st =>
    load_phase u rest ((st.fixVar v).setEntry u (st.entry u ++ [v]))

/-- One `pass_values` call: fix the solved variables into the destination
ledger entry, then raise if a bad constraint follows. -/
def pass_one (a : PassAction) (st : FixSt) : Option String × FixSt :=
  let st1 := a.fixesVars.foldl
    (fun s v => (s.fixVar v).setEntry a.destUnit (s.entry a.destUnit ++ [v])) st
  if a.fails then (some "pass_values raised", st1) else (none, st1)

/-- The destination-arc loop of one port. -/
def pass_loop : List PassAction → FixSt → Option String × FixSt
  | [], st => (none, st)
  | a :: rest, st =>
    match pass_one a st with
    | (some e, st1) => (some e, st1)
    | (none, st1) => pass_loop rest st1

/-- One outlet port: transiently fix the free outlet variables, pass each
destination arc, then free the outlet variables (skipped entirely when an
arc raises — there is no `finally`). -/
def port_phase (p : OutPort) (st : FixSt) : Option String × FixSt :=
  let st1 := p.outVars.foldl (fun s v => s.fixVar v) st
  match pass_loop p.passes st1 with
  | (some e, st2) => (some e, st2)
  | (none, st2) => (none, p.outVars.foldl (fun s v => s.freeVar v) st2)

/-- The port loop of a unit. -/
def ports_phase : List OutPort → FixSt → Option String × FixSt
  | [], st => (none, st)
  | p :: rest, st =>
    match port_phase p st with
    | (some e, st1) => (some e, st1)
    | (none, st1) => ports_phase rest st1

/-- Processing of one unit inside `run_order`: load, call `function`,
free the ledger entry, pass the outlet ports. -/
def process_unit (spec : UnitSpec) (u : Nat) (st : FixSt) : Option String × FixSt :=
  match load_phase u spec.loads st with
  | (some e, st1) => (some e, st1)
  | (none, st1) =>
    if ¬spec.funcOk then (some "function raised", st1)
    else
      -- free the inputs that were fixed, clear the ledger entry
      let st2 := (st1.entry u).foldl (fun s v => s.freeVar v) st1
      let st3 := st2.setEntry u []
      ports_phase spec.ports st3

/-- The unit loop of `run_order` over one level. -/
def run_order_level (specs : Nat → UnitSpec) : List Nat → FixSt → Option String × FixSt
  | [], st => (none, st)
  | u :: rest, st =>
    match process_unit (specs u) u st with
    | (some e, st1) => (some e, st1)
    | (none, st1) => run_order_level specs rest st1

/-- Embeds the fixing behavior of `run_order(G, order, function, ignore)`:
process every level in order; an error propagates immediately with the
state it was raised in. -/
def run_order_fix (specs : Nat → UnitSpec) : List (List Nat) → FixSt → Option String × FixSt
  | [], st => (none, st)
  | lev :: levs, st =>
    match run_order_level specs lev st with
    | (some e, st1) => (some e, st1)
    | (none, st1) => run_order_fix specs levs st1

/-!
## `tear_upper_bound` (decomposition.py lines 1421-1458)

DFS from every unvisited node recording recursion depths; every edge to an
already-visited successor of strictly smaller depth is a back edge and
goes into the tear set.  The recursive `cyc` is fueled like `sc`.
-/

/-- State of the `tear_upper_bound` DFS. -/
structure TubSt where
  depths : List (Option Nat)
  parents : List (Option Nat)
  tearSet : List Nat

mutual

/-- Embeds the recursive `cyc(node, depth)`; fueled like `sc`. -/
def cycT (G : MDiGraph) : Nat → Nat → Nat → TubSt → TubSt
  | 0, _, _, st => st
  | fuel + 1, node, depth, st =>
    let st1 := { st with depths := st.depths.set node (some depth) }
    cycTGo G fuel (MDiGraph.outEdgesOf G node) node depth st1
termination_by structural fuel _ _ _ => fuel

/-- The `for edge in G.out_edges(node, keys=True)` loop of `cyc`. -/
def cycTGo (G : MDiGraph) : Nat → List (Nat × (Nat × Nat)) → Nat → Nat → TubSt → TubSt
  | _, [], _, _, st => st
  | 0, _ :: _, _, _, st => st
  | fuel + 1, e :: rest, node, depth, st =>
    let suc := e.2.2
    let st' :=
      match st.depths.getD suc none with
      | none =>
        cycT G fuel suc (depth + 1) { st with parents := st.parents.set suc (some node) }
      | some dsuc =>
        if dsuc < (st.depths.getD node none).getD 0 then
          -- found a back edge, add it (by index) to the tear set
          { st with tearSet := st.tearSet ++ [e.1] }
        else st
    cycTGo G fuel rest node depth st'
termination_by structural fuel _ _ _ _ => fuel

end

/-- Fuel sufficient for any `cyc` run over `G` (one unit per call or
out-edge step, as for `sc`). -/
def tubFuel (G : MDiGraph) : Nat :=
  G.n + G.edges.length + 2

/-- Embeds `tear_upper_bound(G)`. -/
def tear_upper_bound (G : MDiGraph) : List Nat :=
  let st0 : TubSt := ⟨List.replicate G.n none, List.replicate G.n none, []⟩
  ((List.range G.n).foldl
    (fun st node =>
      if st.depths.getD node none = none then cycT G (tubFuel G) node 0 st else st)
    st0).tearSet

/-!
## `all_cycles` (decomposition.py lines 1506-1584)

Tarjan's 1973 elementary-circuit enumeration.  `pointStack` keeps Python's
append order (head = bottom); `markStack` is kept head = top.  The
adjacency is the `multi=True` list and is mutated in place by the pruning
`adj[v].remove((si, key))`; the loop iterates over the snapshot `sucs`
taken before the mutations, as the source does.
-/

/-- State of the cycle enumeration. -/
structure CycSt where
  adj : List (List (Nat × Nat))
  pointStack : List (Nat × Option Nat)
  markStack : List Nat
  mark : List Bool
  cycles : List (List (Nat × Option Nat))

/-- The unmark loop at the end of `backtrack`: pop the mark stack down to
and including `v`, unmarking every popped node. -/
def popMark (v : Nat) : List Nat → List Bool → List Nat × List Bool
  | [], mark => ([], mark)
  | u :: rest, mark =>
    if u = v then (rest, mark.set v false)
    else popMark v rest (mark.set u false)

mutual

/-- Embeds the recursive `backtrack(v, pre_key)`: push `(v, pre_key)`,
mark `v`, scan the successor snapshot, then unmark the subtree when a
cycle was found and pop the point stack. -/
def backtrack (G : MDiGraph) (ni : Nat) : Nat → Nat → Option Nat → CycSt → Bool × CycSt
  | 0, _, _, st => (false, st)
  | fuel + 1, v, preKey, st =>
    let st1 : CycSt :=
      { st with
        pointStack := st.pointStack ++ [(v, preKey)]
        mark := st.mark.set v true
        markStack := v :: st.markStack }
    let sucs := st1.adj.getD v []
    let fs := backtrackGo G ni fuel sucs v st1
    let st2 := fs.2
    let st3 :=
      if fs.1 then
        let pm := popMark v st2.markStack st2.mark
        { st2 with markStack := pm.1, mark := pm.2 }
      else st2
    (fs.1, { st3 with pointStack := st3.pointStack.dropLast })
termination_by structural fuel _ _ _ => fuel

/-- The `for si, key in sucs` loop of `backtrack`. -/
def backtrackGo (G : MDiGraph) (ni : Nat) :
    Nat → List (Nat × Nat) → Nat → CycSt → Bool × CycSt
  | _, [], _, st => (false, st)
  | 0, _ :: _, _, st => (false, st)
  | fuel + 1, (si, key) :: rest, v, st =>
    let r1 : Bool × CycSt :=
      if si < ni then
        (false, { st with adj := st.adj.set v ((st.adj.getD v []).erase (si, key)) })
      else if si = ni then
        -- a cycle back to the start: record it with the closing edge
        (true, { st with cycles := st.cycles ++ [st.pointStack ++ [(si, some key)]] })
      else if ¬(st.mark.getD si false) then backtrack G ni fuel si (some key) st
      else (false, st)
    let r2 := backtrackGo G ni fuel rest v r1.2
    (r1.1 || r2.1, r2.2)
termination_by structural fuel _ _ _ => fuel

end

/-- Fuel sufficient for any `backtrack` run over `G`: the recursion depth
is bounded by the (distinct, marked) nodes on the point stack plus the
successor-list steps along that one path. -/
def cycFuel (G : MDiGraph) : Nat :=
  G.n + G.edges.length + 2

/-- Embeds `all_cycles(G)`: each cycle as its node list and as its edge
index list including the closing edge (the networkx key of an adjacency
entry is carried as the edge index, see the module header). -/
def all_cycles (G : MDiGraph) : List (List Nat) × List (List Nat) :=
  let st0 : CycSt := ⟨adj_lists_multi G, [], [], List.replicate G.n false, []⟩
  let stF := (List.range G.n).foldl
    (fun st ni =>
      let r := backtrack G ni (cycFuel G) ni none st
      -- drain the mark stack before the next start node
      { r.2 with
        mark := r.2.markStack.foldl (fun m i => m.set i false) r.2.mark
        markStack := [] })
    st0
  let cycleNodes := stF.cycles.map (fun cyc => (cyc.map Prod.fst).dropLast)
  let cycleEdges := stF.cycles.map (fun cyc => (cyc.drop 1).map (fun p => p.2.getD 0))
  (cycleNodes, cycleEdges)

/-- One driver step of `all_cycles` (the loop body over start nodes),
as a named function for the loop invariant. -/
def cycStep (G : MDiGraph) (st : CycSt) (ni : Nat) : CycSt :=
  let r := backtrack G ni (cycFuel G) ni none st
  { r.2 with
    mark := r.2.markStack.foldl (fun m i => m.set i false) r.2.mark
    markStack := [] }

/-!
## Specification vocabulary for `all_cycles`

`EscTo G s S v` — a walk from `v` closing back to the start node `s`
whose intermediate nodes are `> s` and avoid `S`; the negation is
Tarjan's blocking invariant for marked off-stack nodes.  `Arm G s S v q`
— a SIMPLE such walk recorded with its edge keys, matching the tail the
algorithm appends to the point stack.  `CanonCycle G es` — an elementary
cycle as an edge-index list in the canonical rotation the algorithm
emits: starting at the cycle's minimal node.
-/

/-- A closing walk from `v` to the start `s` over the original
multi-adjacency, intermediate nodes `> s` and outside `S`. -/
inductive EscTo (G : MDiGraph) (s : Nat) (S : List Nat) : Nat → Prop where
  | close (v k : Nat) (hedge : (s, k) ∈ adjRowOutMulti G v) : EscTo G s S v
  | step (v w k : Nat) (hedge : (w, k) ∈ adjRowOutMulti G v) (hgt : s < w)
      (hnS : w ∉ S) (h : EscTo G s S w) : EscTo G s S v

/-- A simple closing walk from `v` to `s`, listed as `(next node, edge
key)` steps; the tail additionally avoids each node as it is passed. -/
inductive Arm (G : MDiGraph) (s : Nat) : List Nat → Nat → List (Nat × Nat) → Prop
    where
  | close (S : List Nat) (v k : Nat) (hedge : (s, k) ∈ adjRowOutMulti G v) :
      Arm G s S v [(s, k)]
  | step (S : List Nat) (v w k : Nat) (q : List (Nat × Nat))
      (hedge : (w, k) ∈ adjRowOutMulti G v) (hgt : s < w) (hnS : w ∉ S)
      (h : Arm G s (w :: S) w q) : Arm G s S v ((w, k) :: q)

/-- The arm as the algorithm stores it on the point stack. -/
def armE (q : List (Nat × Nat)) : List (Nat × Option Nat) :=
  q.map (fun e => (e.1, some e.2))

/-- Invariant of the cycle-enumeration state while start node `ni` is
being processed: the working adjacency is the original minus some edges
into nodes `< ni`, marks mirror the mark stack, point-stack nodes are
marked, and every marked off-stack node is soundly blocked. -/
structure CInv (G : MDiGraph) (ni : Nat) (st : CycSt) : Prop where
  adjsub : ∀ v p, p ∈ st.adj.getD v [] → p ∈ adjRowOutMulti G v
  adjret : ∀ v p, p ∈ adjRowOutMulti G v → ni ≤ p.1 → p ∈ st.adj.getD v []
  adjnd : ∀ v, (st.adj.getD v []).Nodup
  marklen : st.mark.length = G.n
  markiff : ∀ u, st.mark.getD u false = true ↔ u ∈ st.markStack
  msnd : st.markStack.Nodup
  mslt : ∀ u ∈ st.markStack, u < G.n
  stacksub : ∀ u ∈ st.pointStack.map Prod.fst, u ∈ st.markStack
  blocked : ∀ u, st.mark.getD u false = true → u ∉ st.pointStack.map Prod.fst →
    ¬ EscTo G ni (st.pointStack.map Prod.fst) u

/-- Depth potential of the enumeration: nodes not yet on the point stack,
one unit each plus one per original successor; bounds the fuel any single
call chain can consume. -/
def cycPot (G : MDiGraph) (S : List Nat) : Nat :=
  Finset.sum ((Finset.range G.n).filter (fun u => u ∉ S))
    (fun u => 1 + (adjRowOutMulti G u).length)

/-- An elementary cycle of the multigraph as an edge-index list, in the
canonical rotation starting at its minimal node: indexes in range,
consecutive edges chained, the last edge closing back to the first
source, sources pairwise distinct, and the first source minimal. -/
def CanonCycle (G : MDiGraph) (es : List Nat) : Prop :=
  es ≠ [] ∧
  (∀ e ∈ es, e < G.edges.length) ∧
  (∀ i, i + 1 < es.length →
    (G.edges.getD (es.getD i 0) (0, 0)).2 = (G.edges.getD (es.getD (i + 1) 0) (0, 0)).1) ∧
  (G.edges.getD (es.getD (es.length - 1) 0) (0, 0)).2 =
    (G.edges.getD (es.getD 0 0) (0, 0)).1 ∧
  (es.map (fun e => (G.edges.getD e (0, 0)).1)).Nodup ∧
  (∀ e ∈ es, (G.edges.getD (es.getD 0 0) (0, 0)).1 ≤ (G.edges.getD e (0, 0)).1)

/-- Postcondition of one `backtrack(v, preKey)` activation (`sc`-style):
the invariant survives, the point stack is restored, the recorded cycles
grow exactly by distinct stack-prefixed simple arms (soundness), EVERY
simple arm from `v` is recorded (completeness), and the marks either
restore exactly (a cycle was found) or grow by a block of blocked nodes
whose forward edges are all dead ends (no cycle was found). -/
structure CycBtPost (G : MDiGraph) (ni v : Nat) (preKey : Option Nat)
    (st : CycSt) (res : Bool × CycSt) : Prop where
  inv : CInv G ni res.2
  pstk : res.2.pointStack = st.pointStack
  cyc : ∃ new, res.2.cycles = st.cycles ++ new ∧ new.Nodup ∧
    ∀ c ∈ new, ∃ q, Arm G ni (st.pointStack.map Prod.fst ++ [v]) v q ∧
      c = st.pointStack ++ (v, preKey) :: armE q
  complete : ∀ q, Arm G ni (st.pointStack.map Prod.fst ++ [v]) v q →
    (st.pointStack ++ (v, preKey) :: armE q) ∈ res.2.cycles
  restore : res.1 = true →
    (∀ u, res.2.mark.getD u false = st.mark.getD u false) ∧
    res.2.markStack = st.markStack
  blockedNew : res.1 = false →
    ∃ A, res.2.markStack = A ++ st.markStack ∧ v ∈ A ∧
      (∀ a ∈ A, st.mark.getD a false = false) ∧
      (∀ u, res.2.mark.getD u false = true ↔
        st.mark.getD u false = true ∨ u ∈ A) ∧
      (∀ a ∈ A, (∀ k, (ni, k) ∈ adjRowOutMulti G a → False) ∧
        ∀ p ∈ adjRowOutMulti G a, ni < p.1 → res.2.mark.getD p.1 false = true)

/-- Postcondition of the `for si, key in sucs` loop over the remaining
snapshot entries `ws`. -/
structure CycGoPost (G : MDiGraph) (ni v : Nat) (ws : List (Nat × Nat))
    (st : CycSt) (res : Bool × CycSt) : Prop where
  inv : CInv G ni res.2
  pstk : res.2.pointStack = st.pointStack
  cyc : ∃ new, res.2.cycles = st.cycles ++ new ∧ new.Nodup ∧
    ∀ c ∈ new, ∃ e qt, e ∈ ws ∧
      Arm G ni (st.pointStack.map Prod.fst) v (e :: qt) ∧
      c = st.pointStack ++ armE (e :: qt)
  complete : ∀ e qt, e ∈ ws → Arm G ni (st.pointStack.map Prod.fst) v (e :: qt) →
    (st.pointStack ++ armE (e :: qt)) ∈ res.2.cycles
  marks : ∃ A, res.2.markStack = A ++ st.markStack ∧
    (∀ a ∈ A, st.mark.getD a false = false) ∧
    (∀ u, res.2.mark.getD u false = true ↔
      st.mark.getD u false = true ∨ u ∈ A) ∧
    (res.1 = false →
      (∀ a ∈ A, (∀ k, (ni, k) ∈ adjRowOutMulti G a → False) ∧
        ∀ p ∈ adjRowOutMulti G a, ni < p.1 → res.2.mark.getD p.1 false = true) ∧
      (∀ e ∈ ws, (e.1 = ni → False) ∧
        (ni < e.1 → res.2.mark.getD e.1 false = true)))

/-- Invariant of the `all_cycles` driver between start nodes: marks are
drained, both stacks empty, and the working adjacency holds every
original edge into a node `≥ ni`. -/
structure CycDInv (G : MDiGraph) (ni : Nat) (st : CycSt) : Prop where
  adjsub : ∀ v p, p ∈ st.adj.getD v [] → p ∈ adjRowOutMulti G v
  adjret : ∀ v p, p ∈ adjRowOutMulti G v → ni ≤ p.1 → p ∈ st.adj.getD v []
  adjnd : ∀ v, (st.adj.getD v []).Nodup
  marklen : st.mark.length = G.n
  allfalse : ∀ u, st.mark.getD u false = false
  ms : st.markStack = []
  ps : st.pointStack = []

/-!
## `cycle_edge_matrix` and `select_tear_heuristic`
(decomposition.py lines 1273-1419, 1490-1504)
-/

/-- Embeds `cycle_edge_matrix(G)`: the 0/1 cycle-edge incidence rows, the
cycle node lists, and the cycle edge lists. -/
def cycle_edge_matrix (G : MDiGraph) :
    List (List Nat) × List (List Nat) × List (List Nat) :=
  let cc := all_cycles G
  let ceMat := cc.2.map
    (fun ecyc => (List.range G.edges.length).map (fun e => if e ∈ ecyc then 1 else 0))
  (ceMat, cc.1, cc.2)

/-- `numpy.dot` of two 0/1 rows. -/
def natDot (a b : List Nat) : Nat :=
  (List.zipWith (fun x y => x * y) a b).sum

/-- `numpy.dot(A, y)`. -/
def vecAy (A : List (List Nat)) (y : List Nat) : List Nat :=
  A.map (fun row => natDot row y)

/-- `max` of a list of naturals (`max(Ay)`; rows nonempty at use). -/
def maxList (l : List Nat) : Nat :=
  l.foldr max 0

/-- `min` of a list of naturals (`min(Ay)`; rows nonempty at use, the
default is irrelevant there). -/
def minList : List Nat → Nat
  | [] => 0
  | x :: xs => xs.foldl min x

/-- Branch-and-bound state of `select_tear_heuristic`: the two-level
upper bound `(max cycle tears, total tears)` and the recorded tear sets
`(y, max(Ay), sum(y))`. -/
structure SearSt where
  upperBound : Nat × Nat
  ySet : List (List Nat × Nat × Nat)

mutual

/-- Embeds the recursive `sear(depth, prevY)`; fuel is the recursion
depth bound (the cycle index strictly increases on every nested call, so
`nr + 1` suffices). -/
def sear (A : List (List Nat)) (cycleEdges : List (List Nat)) (nr : Nat) :
    Nat → Nat → List Nat → SearSt → SearSt
  | 0, _, _, st => st
  | fuel + 1, depth, prevY, st =>
    searEdges A cycleEdges nr fuel (cycleEdges.getD depth []) depth prevY st
termination_by structural fuel _ _ _ => fuel

/-- The `for i in range(len(cycleEdges[depth]))` loop of `sear`. -/
def searEdges (A : List (List Nat)) (cycleEdges : List (List Nat)) (nr : Nat) :
    Nat → List Nat → Nat → List Nat → SearSt → SearSt
  | _, [], _, _, st => st
  | 0, _ :: _, _, _, st => st
  | fuel + 1, e :: es, depth, prevY, st =>
    let y := prevY.set e 1
    let Ay := vecAy A y
    let maxAy := maxList Ay
    let sumY := y.sum
    let st' :=
      if st.upperBound.1 < maxAy then st
      else if maxAy = st.upperBound.1 ∧ st.upperBound.2 < sumY then st
      else if 0 < minList Ay then
        let ub :=
          if maxAy < st.upperBound.1 then (maxAy, sumY)
          else if sumY < st.upperBound.2 then (st.upperBound.1, sumY)
          else st.upperBound
        { upperBound := ub, ySet := st.ySet ++ [(y, maxAy, sumY)] }
      else
        searJs A cycleEdges nr fuel
          (List.range' (depth + 1) (nr - (depth + 1))) Ay y st
    searEdges A cycleEdges nr fuel es depth prevY st'
termination_by structural fuel _ _ _ _ => fuel

/-- The `for j in range(depth + 1, nr)` loop of `sear`. -/
def searJs (A : List (List Nat)) (cycleEdges : List (List Nat)) (nr : Nat) :
    Nat → List Nat → List Nat → List Nat → SearSt → SearSt
  | _, [], _, _, st => st
  | 0, _ :: _, _, _, st => st
  | fuel + 1, j :: js, Ay, y, st =>
    let st' := if Ay.getD j 1 = 0 then sear A cycleEdges nr fuel j y st else st
    searJs A cycleEdges nr fuel js Ay y st'
termination_by structural fuel _ _ _ _ => fuel

end

/-- Keep the first occurrence of each distinct `y` vector (the source's
pairwise duplicate screen deletes every later equal vector). -/
def dedupYSet (l : List (List Nat × Nat × Nat)) : List (List Nat × Nat × Nat) :=
  l.foldl (fun acc t => if acc.any (fun a => a.1 = t.1) then acc else acc ++ [t]) []

/-- Embeds `select_tear_heuristic(G)`: `(es, max cycle tears, total
tears)`.  With no cycles the source returns `[[[]], 0, 0]`. -/
def select_tear_heuristic (G : MDiGraph) : List (List Nat) × Nat × Nat :=
  let tearUB := tear_upper_bound G
  let cem := cycle_edge_matrix G
  let A := cem.1
  let cycleEdges := cem.2.2
  let nr := A.length
  if nr = 0 then ([[]], 0, 0)
  else
    let nE := G.edges.length
    let y_init := tearUB.foldl (fun y j => y.set j 1) (List.replicate nE 0)
    let Ay_init := vecAy A y_init
    let st0 : SearSt := ⟨(maxList Ay_init, y_init.sum), []⟩
    let stF := sear A cycleEdges nr (nr * (nE + nr + 2) + 2) 0 (List.replicate nE 0) st0
    let ub := stF.upperBound
    let screened := stF.ySet.filter
      (fun t => ¬(ub.1 < t.2.1 ∨ (t.2.1 = ub.1 ∧ ub.2 < t.2.2)))
    let deduped := dedupYSet screened
    let es := deduped.map
      (fun t => (List.range t.1.length).filter (fun i => t.1.getD i 0 = 1))
    (es, ub.1, ub.2)

/-!
## `select_tear_mip` (decomposition.py lines 576-646)

The model built by `select_tear_mip_model` has one binary `y_e` per edge,
an auxiliary `mct`, and per enumerated cycle the constraints
`sum_{e in c} y_e >= 1` and `mct >= sum_{e in c} y_e`.  The external
solver is out of scope; the embedding captures feasibility of a returned
assignment and the rounding `tset = [i for i in range(E) if y_i == 1]`.
-/

/-- The `cycle_sum` expressions of the MIP model. -/
def mip_cycle_sums (G : MDiGraph) (y : List ℚ) : List ℚ :=
  (all_cycles G).2.map (fun ecyc => (ecyc.map (fun e => y.getD e 0)).sum)

/-- Feasibility of an assignment for the model of
`select_tear_mip_model(G)`. -/
def MipFeasible (G : MDiGraph) (y : List ℚ) (mct : ℚ) : Prop :=
  y.length = G.edges.length ∧
  (∀ v ∈ y, v = 0 ∨ v = 1) ∧
  ∀ s ∈ mip_cycle_sums G y, 1 ≤ s ∧ s ≤ mct

/-- The tear set `select_tear_mip` collects from a solved model: every
edge whose binary is `1`. -/
def select_tear_mip_result (y : List ℚ) : List Nat :=
  (List.range y.length).filter (fun i => y.getD i 0 = 1)
/-!
## Claim-level predicates

Mathematical reachability (independent of the algorithms above) and the
formalized claim statements.
-/

/-- One step along a non-excluded edge of `G`. -/
def EdgeStep (G : MDiGraph) (T : List Nat) (u v : Nat) : Prop :=
  ∃ i, i < G.edges.length ∧ i ∉ T ∧ G.edges.getD i (0, 0) = (u, v)

/-- Reachability in `G - T`. -/
def ReachEx (G : MDiGraph) (T : List Nat) : Nat → Nat → Prop :=
  Relation.ReflTransGen (EdgeStep G T)

/-- `G - T` has only strongly connected components of size 1: mutually
reachable nodes coincide. -/
def AllSccTrivial (G : MDiGraph) (T : List Nat) : Prop :=
  ∀ u v, ReachEx G T u v → ReachEx G T v u → u = v

/-- One step of an integer adjacency list. -/
def AdjStep (adj : List (List Nat)) (u v : Nat) : Prop :=
  v ∈ adj.getD u []

/-- Reachability of an integer adjacency list. -/
def AdjReach (adj : List (List Nat)) : Nat → Nat → Prop :=
  Relation.ReflTransGen (AdjStep adj)

/-- `v` lies on a (directed) cycle of the adjacency list. -/
def OnCycle (adj : List (List Nat)) (v : Nat) : Prop :=
  ∃ w, AdjStep adj v w ∧ AdjReach adj w v

/-- The level of `sccOrder` in which `x` first appears. -/
def levelOf (order : List (List Nat)) (x : Nat) : Option Nat :=
  order.findIdx? (fun lev => lev.contains x)

/-- `j` appears in a strictly earlier level of `order` than `i` (both must
appear). -/
def levelEarlier (order : List (List Nat)) (j i : Nat) : Bool :=
  match levelOf order j, levelOf order i with
  | some lj, some li => lj < li
  | _, _ => false

/-- Every node of `G` lies in exactly one returned SCC. -/
def SccPartition (G : MDiGraph) (sccNodes : List (List Nat)) : Prop :=
  ∀ v, v < G.n → sccNodes.flatten.count v = 1

/-- `sccOrder` respects the condensation: an edge of `G` from SCC `j` into
a different SCC `i` forces `j` into a strictly earlier level. -/
def SccOrderRespects (G : MDiGraph) (sccNodes sccOrder : List (List Nat)) : Prop :=
  ∀ i, i < sccNodes.length → ∀ j, j < sccNodes.length → i ≠ j →
    (∃ e ∈ G.edges, e.1 ∈ sccNodes.getD j [] ∧ e.2 ∈ sccNodes.getD i []) →
    levelEarlier sccOrder j i = true

/-- Claim C2 as stated: `scc_collect` partitions the nodes and its
`sccOrder` respects the condensation. -/
def ClaimC2 (G : MDiGraph) : Prop :=
  ∃ r, scc_collect G none = .ok r ∧
    SccPartition G r.1 ∧ SccOrderRespects G r.1 r.2.2.1

/-- Claim C3 as stated: the tear-phase dispatches are exactly the SCCs of
size `> 1`, in `sccOrder` order, with the tears filtered to the SCC. -/
def ClaimC3 (G : MDiGraph) (tset : List Nat) (method : String) : Prop :=
  ∃ r invs, scc_collect G none = .ok r ∧
    runSccInvocations G tset method = .ok invs ∧
    invs =
      (r.2.2.1.flatten.filter (fun i => 1 < (r.1.getD i []).length)).map
        (fun i => (i, tset.filter (fun ei => ei ∈ r.2.1.getD i [])))

/-- Claim C6 as stated (for the `roots=None` form `run` uses): a cycle in
the adjacency forces `tree_order` to raise. -/
def ClaimC6 : Prop :=
  ∀ adj adjR : List (List Nat), (∃ v, OnCycle adj v) →
    ∃ e, tree_order adj adjR none = .error e

/-- All variable lists a pass action of the scenario can fix. -/
def UnitSpec.passList (spec : UnitSpec) : List PassAction :=
  (spec.ports.map OutPort.passes).flatten

/-- Claim C4 as stated: an erroring `run_order` leaves no variable fixed. -/
def ClaimC4 : Prop :=
  ∀ (specs : Nat → UnitSpec) (order : List (List Nat)),
    (run_order_fix specs order ⟨[], []⟩).1.isSome →
    (run_order_fix specs order ⟨[], []⟩).2.fixedVars = []

/-- Claim C5 as stated: the cache is empty on every exit of `run`. -/
def ClaimC5 : Prop :=
  ∀ (opts : RunOpts) (tsetEmpty hasDests : Bool) (k : Nat) (c0 : CacheSt),
    (run_cache opts tsetEmpty hasDests k c0).2 = []

/-- Claim C1 as stated, for one graph: the DFS upper bound is a valid tear
set, the heuristic returns a first tear set and it is valid, and the MIP
rounding of any feasible solution is valid. -/
def ClaimC1 (G : MDiGraph) : Prop :=
  AllSccTrivial G (tear_upper_bound G) ∧
  ((select_tear_heuristic G).1 ≠ [] ∧
    AllSccTrivial G ((select_tear_heuristic G).1.headD [])) ∧
  (∀ y mct, MipFeasible G y mct → AllSccTrivial G (select_tear_mip_result y))

/-!
# Theorems

Each claim of the specification is settled below; helper lemmas precede
the claim theorems they serve.
-/

theorem compute_err_abs (svals dvals : List ℚ) :
    compute_err svals dvals "abs" = .ok (List.zipWith (fun s d => s - d) svals dvals) := by
  simp [compute_err]

theorem compute_err_rel (svals dvals : List ℚ) :
    compute_err svals dvals "rel" = .ok (List.zipWith relErrEntry svals dvals) := by
  simp [compute_err]

/-- C8: for equal-length vectors, `"abs"` is elementwise `s - d`, `"rel"`
is elementwise `(s-d)/s` except that `s = 0, s-d = 0` yields `0` and
`s = 0, s-d ≠ 0` yields `s-d`; over the exact arithmetic of the embedding
no NaN/Inf can appear (all results are rationals built by the case
split). -/
theorem compute_err_spec (svals dvals : List ℚ)
    (hlen : svals.length = dvals.length) :
    (∃ a, compute_err svals dvals "abs" = .ok a ∧ a.length = svals.length ∧
      ∀ i : Nat, i < svals.length →
        a.getD i 0 = svals.getD i 0 - dvals.getD i 0) ∧
    (∃ r, compute_err svals dvals "rel" = .ok r ∧ r.length = svals.length ∧
      ∀ i : Nat, i < svals.length →
        (svals.getD i 0 = 0 → svals.getD i 0 - dvals.getD i 0 = 0 →
          r.getD i 0 = 0) ∧
        (svals.getD i 0 = 0 → svals.getD i 0 - dvals.getD i 0 ≠ 0 →
          r.getD i 0 = svals.getD i 0 - dvals.getD i 0) ∧
        (svals.getD i 0 ≠ 0 →
          r.getD i 0 = (svals.getD i 0 - dvals.getD i 0) / svals.getD i 0)) := by
  have hz : (List.zipWith (fun s d => s - d) svals dvals).length = svals.length := by
    simp [hlen]
  have hr : (List.zipWith relErrEntry svals dvals).length = svals.length := by
    simp [hlen]
  constructor
  · refine ⟨_, compute_err_abs svals dvals, hz, ?_⟩
    intro i hi
    have hia : i < (List.zipWith (fun s d => s - d) svals dvals).length := by omega
    have hid : i < dvals.length := by omega
    rw [List.getD_eq_getElem _ _ hia, List.getD_eq_getElem _ _ hi,
      List.getD_eq_getElem _ _ hid, List.getElem_zipWith]
  · refine ⟨_, compute_err_rel svals dvals, hr, ?_⟩
    intro i hi
    have hia : i < (List.zipWith relErrEntry svals dvals).length := by omega
    have hid : i < dvals.length := by omega
    rw [List.getD_eq_getElem _ _ hia, List.getD_eq_getElem _ _ hi,
      List.getD_eq_getElem _ _ hid, List.getElem_zipWith]
    refine ⟨?_, ?_, ?_⟩
    · intro hs hd
      have hd0 : dvals[i] = 0 := by
        rw [hs] at hd; linarith
      simp [relErrEntry, hs, hd0]
    · intro hs hd
      have hd0 : dvals[i] ≠ 0 := by
        intro h0; exact hd (by rw [hs, h0]; ring)
      simp [relErrEntry, hs, hd0]
    · intro hs
      simp [relErrEntry, hs]

/-- Witness for `compute_err_spec` at `s = [1, 0, 0, 4]`,
`d = [3, 0, -2, 2]`. -/
theorem compute_err_spec_witness :
    ([(1:ℚ), 0, 0, 4].length = [(3:ℚ), 0, -2, 2].length) ∧
    ((∃ a, compute_err [(1:ℚ), 0, 0, 4] [(3:ℚ), 0, -2, 2] "abs" = .ok a ∧
      a.length = [(1:ℚ), 0, 0, 4].length ∧
      ∀ i : Nat, i < [(1:ℚ), 0, 0, 4].length →
        a.getD i 0 = [(1:ℚ), 0, 0, 4].getD i 0 - [(3:ℚ), 0, -2, 2].getD i 0) ∧
    (∃ r, compute_err [(1:ℚ), 0, 0, 4] [(3:ℚ), 0, -2, 2] "rel" = .ok r ∧
      r.length = [(1:ℚ), 0, 0, 4].length ∧
      ∀ i : Nat, i < [(1:ℚ), 0, 0, 4].length →
        ([(1:ℚ), 0, 0, 4].getD i 0 = 0 →
          [(1:ℚ), 0, 0, 4].getD i 0 - [(3:ℚ), 0, -2, 2].getD i 0 = 0 →
          r.getD i 0 = 0) ∧
        ([(1:ℚ), 0, 0, 4].getD i 0 = 0 →
          [(1:ℚ), 0, 0, 4].getD i 0 - [(3:ℚ), 0, -2, 2].getD i 0 ≠ 0 →
          r.getD i 0 = [(1:ℚ), 0, 0, 4].getD i 0 - [(3:ℚ), 0, -2, 2].getD i 0) ∧
        ([(1:ℚ), 0, 0, 4].getD i 0 ≠ 0 →
          r.getD i 0 =
            ([(1:ℚ), 0, 0, 4].getD i 0 - [(3:ℚ), 0, -2, 2].getD i 0) /
              [(1:ℚ), 0, 0, 4].getD i 0))) :=
  ⟨rfl, compute_err_spec [(1:ℚ), 0, 0, 4] [(3:ℚ), 0, -2, 2] rfl⟩


/-!
## Concrete counterexamples

* C2 — on `G = ⟨5, [(0,1),(2,3),(3,4),(4,1)]⟩` Tarjan returns the SCCs
  `[[1],[0],[4],[3],[2]]` and `sccOrder = [[1,4],[0,3],[2]]`.  Edge
  `(4,1)` runs from SCC `2` (level 2) into SCC `0` (level 1): the
  `done`-flag break in `scc_calculation_order` recorded only the first
  predecessor (SCC `1`, via edge `(0,1)`) of SCC `0` and dropped this one,
  so the order does not respect the condensation.
* C3 — on `G = ⟨3, [(0,1),(1,0),(1,2)]⟩` with `T = [0]` the tear loop
  dispatches `[(1,[0]), (0,[])]`: the singleton SCC `{2}` (index 0) is
  dispatched too (with empty tears), though its size is 1.
* C6 — `tree_order [[1],[0]] [[1],[0]] none` returns `ok []` although the
  two nodes form a cycle: with no roots, cycle nodes are silently omitted
  and no error is raised.
* C4 — a unit whose second destination arc raises after the first arc
  fixed variable `7` (and with outlet variable `5` transiently fixed)
  leaves `fixedVars = [5,7]` when `run_order` propagates the error.
* C5 — with `solve_tears = False`, `run` takes the early return without
  clearing the cache, which still holds the `tear_set` memoization.
* C1 — on `G = ⟨3, [(0,0),(0,1),(1,0),(1,2)]⟩` (a self-loop plus a
  2-cycle) `tear_upper_bound` never tears the self-loop (its depth test is
  strict), so the branch-and-bound starts from the unachievable bound
  `(1,1)` and prunes every full cover: `select_tear_heuristic` returns
  `([], 1, 1)` — no tear set at all (the source call site
  `select_tear_heuristic(G)[0][0]` raises `IndexError`).
-/

/-- C2 counterexample: `scc_collect`'s order does not respect the
condensation on the recorded graph above. -/
theorem scc_collect_claim_counterexample :
    ¬ ClaimC2 ⟨5, [(0, 1), (2, 3), (3, 4), (4, 1)]⟩ := by
  rintro ⟨r, hr, _, ho⟩
  rw [show scc_collect ⟨5, [(0, 1), (2, 3), (3, 4), (4, 1)]⟩ none =
      .ok ([[1], [0], [4], [3], [2]], [[], [], [], [], []], [[1, 4], [0, 3], [2]],
        [[], [0], [3], [2], [1]]) from rfl] at hr
  cases hr
  have hv := ho 0 (by decide) 2 (by decide) (by decide)
    ⟨(4, 1), by decide, by decide, by decide⟩
  exact absurd hv (by decide)

/-- C3 counterexample: the tear loop dispatches the singleton SCC as
well. -/
theorem run_scc_claim_counterexample :
    ¬ ClaimC3 ⟨3, [(0, 1), (1, 0), (1, 2)]⟩ [0] "Direct" := by
  rintro ⟨r, invs, hr, hi, heq⟩
  rw [show scc_collect ⟨3, [(0, 1), (1, 0), (1, 2)]⟩ none =
      .ok ([[2], [1, 0]], [[], [0, 1]], [[1], [0]], [[], [2]]) from rfl] at hr
  rw [show runSccInvocations ⟨3, [(0, 1), (1, 0), (1, 2)]⟩ [0] "Direct" =
      .ok [(1, [0]), (0, [])] from rfl] at hi
  cases hr
  cases hi
  revert heq
  decide

/-- C6 counterexample: a cyclic adjacency with `roots=None` returns an
ordering (`ok []`) instead of raising. -/
theorem tree_order_claim_counterexample : ¬ ClaimC6 := by
  intro h
  obtain ⟨e, he⟩ := h [[1], [0]] [[1], [0]]
    ⟨0, 1, by simp [AdjStep], Relation.ReflTransGen.single (by simp [AdjStep])⟩
  rw [show tree_order [[1], [0]] [[1], [0]] none = .ok [] from rfl] at he
  cases he

/-- C4 counterexample: an erroring `run_order` leaves variables `5` and
`7` fixed. -/
theorem run_order_release_counterexample : ¬ ClaimC4 := by
  intro h
  have h2 := h (fun _ => ⟨[], true, [⟨[5], [⟨1, [7], false⟩, ⟨2, [], true⟩]⟩]⟩)
    [[0]] (by decide)
  revert h2
  decide

/-- C5 counterexample: the early return of `run` leaves the cache
nonempty. -/
theorem run_cache_claim_counterexample : ¬ ClaimC5 := by
  intro h
  have h2 := h ⟨false, "mip", true, false, "Direct"⟩ false true 0 []
  revert h2
  decide

/-- C1 counterexample: on the self-loop graph the heuristic returns no
tear set at all (`es = []`), so no valid first tear set exists. -/
theorem tear_selector_claim_counterexample :
    ¬ ClaimC1 ⟨3, [(0, 0), (0, 1), (1, 0), (1, 2)]⟩ := by
  rintro ⟨_, ⟨hne, _⟩, _⟩
  exact hne (by decide)

/-!
## C10 — empty tear list short-circuit
-/

/-- C10: with an empty tears list each driver makes exactly one
`run_order` call (with `ignore = tears`), returns the empty history,
computes no error vector (the history records every computed one) and
emits no warning. -/
theorem solve_tear_empty_tears {S : Type} (P : TearPlant S) (outEdges : List Nat)
    (iterLim : Nat) (tol : ℚ) (tol_type : String) (accel_min accel_max : ℚ) (s : S) :
    solve_tear_direct P [] outEdges iterLim tol tol_type s =
      .ok ([], P.runOrderS [] s, [.runOrderCall []]) ∧
    solve_tear_wegstein P [] outEdges iterLim tol tol_type accel_min accel_max s =
      .ok ([], P.runOrderS [] s, [.runOrderCall []]) :=
  ⟨rfl, rfl⟩

/-!
## C9 — iteration caps and non-fatal exhaustion
-/

theorem compute_err_isOk (a b : List ℚ) {tt : String}
    (htt : tt = "abs" ∨ tt = "rel") : ∃ l, compute_err a b tt = .ok l := by
  rcases htt with h | h <;> subst h <;> simp [compute_err]

theorem countRunOrder_append (a b : List DriverEvent) :
    countRunOrder (a ++ b) = countRunOrder a + countRunOrder b := by
  simp [countRunOrder, List.filter_append]

/-- The Direct loop always returns `ok`, adds at most `iterLim - itercount`
`run_order` calls, and ends converged or warned. -/
theorem solve_tear_direct_loop_ok {S : Type} (P : TearPlant S)
    (tears outEdges : List Nat) (iterLim : Nat) (tol : ℚ) (tol_type : String)
    (htt : tol_type = "abs" ∨ tol_type = "rel") :
    ∀ k s itercount hist evs, iterLim - itercount ≤ k →
      ∃ h s' evs',
        solve_tear_direct_loop P tears outEdges iterLim tol tol_type s itercount
            hist evs = .ok (h, s', evs') ∧
        countRunOrder evs' ≤ countRunOrder evs + (iterLim - itercount) ∧
        ((∃ m, DriverEvent.warn m ∈ evs') ∨
          (h ≠ [] ∧ maxAbsQ (h.getLastD []) < tol)) := by
  intro k
  induction k with
  | zero =>
    intro s itercount hist evs hk
    obtain ⟨err, herr⟩ := compute_err_isOk (P.tearDiffS s).1 (P.tearDiffS s).2 htt
    by_cases hc : maxAbsQ err < tol
    · refine ⟨hist ++ [err], P.passEdgesS s, evs, ?_, by omega,
        Or.inr ⟨by simp, by simpa using hc⟩⟩
      rw [solve_tear_direct_loop, herr]
      simp [hc]
    · have hcap : iterLim ≤ itercount := by omega
      refine ⟨hist ++ [err], s, evs ++ [.warn "Direct failed to converge"], ?_, ?_,
        Or.inl ⟨"Direct failed to converge", by simp⟩⟩
      · rw [solve_tear_direct_loop, herr]
        simp [hc, hcap]
      · rw [countRunOrder_append]
        have : countRunOrder [DriverEvent.warn "Direct failed to converge"] = 0 := by
          simp [countRunOrder]
        omega
  | succ k ih =>
    intro s itercount hist evs hk
    obtain ⟨err, herr⟩ := compute_err_isOk (P.tearDiffS s).1 (P.tearDiffS s).2 htt
    by_cases hc : maxAbsQ err < tol
    · refine ⟨hist ++ [err], P.passEdgesS s, evs, ?_, by omega,
        Or.inr ⟨by simp, by simpa using hc⟩⟩
      rw [solve_tear_direct_loop, herr]
      simp [hc]
    · by_cases hcap : iterLim ≤ itercount
      · refine ⟨hist ++ [err], s, evs ++ [.warn "Direct failed to converge"], ?_, ?_,
          Or.inl ⟨"Direct failed to converge", by simp⟩⟩
        · rw [solve_tear_direct_loop, herr]
          simp [hc, hcap]
        · rw [countRunOrder_append]
          have : countRunOrder [DriverEvent.warn "Direct failed to converge"] = 0 := by
            simp [countRunOrder]
          omega
      · obtain ⟨h, s', evs', hloop, hcount, hconv⟩ :=
          ih (P.runOrderS (tears ++ outEdges) (P.passTearDirectS s)) (itercount + 1)
            (hist ++ [err]) (evs ++ [.runOrderCall (tears ++ outEdges)]) (by omega)
        refine ⟨h, s', evs', ?_, ?_, hconv⟩
        · rw [solve_tear_direct_loop, herr]
          simp only [hc, if_false, hcap, if_false]
          exact hloop
        · rw [countRunOrder_append] at hcount
          have : countRunOrder [DriverEvent.runOrderCall (tears ++ outEdges)] = 1 := by
            simp [countRunOrder]
          omega

/-- The Wegstein loop always returns `ok`, adds at most
`iterLim + 1 - itercount` `run_order` calls, and ends converged or
warned. -/
theorem solve_tear_wegstein_loop_ok {S : Type} (P : TearPlant S)
    (tears outEdges : List Nat) (iterLim : Nat) (tol : ℚ) (tol_type : String)
    (accel_min accel_max : ℚ)
    (htt : tol_type = "abs" ∨ tol_type = "rel") :
    ∀ k s x x_prev gofx_prev itercount hist evs, iterLim + 1 - itercount ≤ k →
      ∃ h s' evs',
        solve_tear_wegstein_loop P tears outEdges iterLim tol tol_type accel_min
            accel_max s x x_prev gofx_prev itercount hist evs = .ok (h, s', evs') ∧
        countRunOrder evs' ≤ countRunOrder evs + (iterLim - itercount) + 1 ∧
        ((∃ m, DriverEvent.warn m ∈ evs') ∨
          (h ≠ [] ∧ maxAbsQ (h.getLastD []) < tol)) := by
  intro k
  induction k with
  | zero =>
    intro s x x_prev gofx_prev itercount hist evs hk
    obtain ⟨err, herr⟩ :=
      compute_err_isOk (P.gofxS (P.runOrderS (tears ++ outEdges) s)) x htt
    have h1 : countRunOrder [DriverEvent.runOrderCall (tears ++ outEdges)] = 1 := by
      simp [countRunOrder]
    by_cases hc : maxAbsQ err < tol
    · refine ⟨hist ++ [err], P.passEdgesS (P.runOrderS (tears ++ outEdges) s),
        evs ++ [.runOrderCall (tears ++ outEdges)], ?_, ?_,
        Or.inr ⟨by simp, by simpa using hc⟩⟩
      · rw [solve_tear_wegstein_loop, herr]
        simp [hc]
      · rw [countRunOrder_append]
        omega
    · have hcap : iterLim < itercount + 1 := by omega
      refine ⟨hist ++ [err], P.runOrderS (tears ++ outEdges) s,
        evs ++ [.runOrderCall (tears ++ outEdges)] ++
          [.warn "Wegstein failed to converge"], ?_, ?_,
        Or.inl ⟨"Wegstein failed to converge", by simp⟩⟩
      · rw [solve_tear_wegstein_loop, herr]
        simp [hc, hcap]
      · rw [countRunOrder_append, countRunOrder_append]
        have h2 : countRunOrder [DriverEvent.warn "Wegstein failed to converge"] = 0 := by
          simp [countRunOrder]
        omega
  | succ k ih =>
    intro s x x_prev gofx_prev itercount hist evs hk
    obtain ⟨err, herr⟩ :=
      compute_err_isOk (P.gofxS (P.runOrderS (tears ++ outEdges) s)) x htt
    have h1 : countRunOrder [DriverEvent.runOrderCall (tears ++ outEdges)] = 1 := by
      simp [countRunOrder]
    by_cases hc : maxAbsQ err < tol
    · refine ⟨hist ++ [err], P.passEdgesS (P.runOrderS (tears ++ outEdges) s),
        evs ++ [.runOrderCall (tears ++ outEdges)], ?_, ?_,
        Or.inr ⟨by simp, by simpa using hc⟩⟩
      · rw [solve_tear_wegstein_loop, herr]
        simp [hc]
      · rw [countRunOrder_append]
        omega
    · by_cases hcap : iterLim < itercount + 1
      · refine ⟨hist ++ [err], P.runOrderS (tears ++ outEdges) s,
          evs ++ [.runOrderCall (tears ++ outEdges)] ++
            [.warn "Wegstein failed to converge"], ?_, ?_,
        Or.inl ⟨"Wegstein failed to converge", by simp⟩⟩
        · rw [solve_tear_wegstein_loop, herr]
          simp [hc, hcap]
        · rw [countRunOrder_append, countRunOrder_append]
          have h2 : countRunOrder [DriverEvent.warn "Wegstein failed to converge"] = 0 := by
            simp [countRunOrder]
          omega
      · obtain ⟨h, s', evs', hloop, hcount, hconv⟩ :=
          ih _ _ _ _ (itercount + 1) (hist ++ [err])
            (evs ++ [.runOrderCall (tears ++ outEdges)]) (by omega)
        refine ⟨h, s', evs', ?_, ?_, hconv⟩
        · rw [solve_tear_wegstein_loop, herr]
          simp only [hc, if_false, hcap, if_false]
          exact hloop
        · rw [countRunOrder_append] at hcount
          omega

/-- C9: both drivers terminate with an `ok` result for every input
(`tol_type` valid, cap at least 1): the number of `run_order` calls is at
most `iterLim` for Direct and `iterLim + 1` for Wegstein, and whenever the
tolerance was not reached within the cap the warning event is in the trace
while the history is still returned normally — no error is raised for
non-convergence. -/
theorem solve_tear_iteration_cap {S : Type} (P : TearPlant S)
    (tears outEdges : List Nat) (iterLim : Nat) (tol : ℚ) (tol_type : String)
    (accel_min accel_max : ℚ) (s : S)
    (htt : tol_type = "abs" ∨ tol_type = "rel") (hil : 1 ≤ iterLim) :
    (∃ hist s' evs,
      solve_tear_direct P tears outEdges iterLim tol tol_type s =
        .ok (hist, s', evs) ∧
      countRunOrder evs ≤ iterLim ∧
      (tears = [] ∨ (∃ m, DriverEvent.warn m ∈ evs) ∨
        (hist ≠ [] ∧ maxAbsQ (hist.getLastD []) < tol))) ∧
    (∃ hist s' evs,
      solve_tear_wegstein P tears outEdges iterLim tol tol_type accel_min
          accel_max s = .ok (hist, s', evs) ∧
      countRunOrder evs ≤ iterLim + 1 ∧
      (tears = [] ∨ (∃ m, DriverEvent.warn m ∈ evs) ∨
        (hist ≠ [] ∧ maxAbsQ (hist.getLastD []) < tol))) := by
  constructor
  · by_cases ht : tears = []
    · subst ht
      exact ⟨_, _, _, rfl, by simpa [countRunOrder] using hil, Or.inl rfl⟩
    · obtain ⟨h, s', evs', hloop, hcount, hconv⟩ :=
        solve_tear_direct_loop_ok P tears outEdges iterLim tol tol_type htt
          iterLim s 0 [] [] (by omega)
      refine ⟨h, s', evs', ?_, ?_, Or.inr (hconv.imp id id)⟩
      · simp only [solve_tear_direct, ht, if_false]
        exact hloop
      · have hz : countRunOrder ([] : List DriverEvent) = 0 := by
          simp [countRunOrder]
        omega
  · by_cases ht : tears = []
    · subst ht
      refine ⟨_, _, _, rfl, ?_, Or.inl rfl⟩
      have hz : countRunOrder [DriverEvent.runOrderCall []] = 1 := by
        simp [countRunOrder]
      omega
    · obtain ⟨err, herr⟩ := compute_err_isOk (P.gofxS s) (P.firstXS s) htt
      by_cases hc : maxAbsQ err < tol
      · refine ⟨[err], s, [], ?_, by simp [countRunOrder], Or.inr (Or.inr ?_)⟩
        · simp only [solve_tear_wegstein, ht, if_false]
          rw [herr]
          simp [hc]
        · exact ⟨by simp, by simpa using hc⟩
      · obtain ⟨h, s', evs', hloop, hcount, hconv⟩ :=
          solve_tear_wegstein_loop_ok P tears outEdges iterLim tol tol_type
            accel_min accel_max htt (iterLim + 1)
            (P.passTearWegsteinS (P.gofxS s) s) (P.gofxS s) (P.firstXS s)
            (P.gofxS s) 0 [err] [] (by omega)
        refine ⟨h, s', evs', ?_, ?_, Or.inr (hconv.imp id id)⟩
        · simp only [solve_tear_wegstein, ht, if_false]
          rw [herr]
          simp only [hc, if_false]
          exact hloop
        · have hz : countRunOrder ([] : List DriverEvent) = 0 := by
            simp [countRunOrder]
          omega

/-- Witness for `solve_tear_iteration_cap`: the trivial one-variable plant
with `tears = [0]`, `iterLim = 1`, `tol_type = "abs"`. -/
theorem solve_tear_iteration_cap_witness :
    (("abs" = "abs" ∨ "abs" = "rel") ∧ 1 ≤ 1) ∧
    ((∃ hist s' evs,
      solve_tear_direct
          (⟨fun _ s => s, fun _ => ([1], [0]), id, fun _ s => s, fun _ => [1],
            fun _ => [0], id⟩ : TearPlant Unit) [0] [] 1 (1/2) "abs" () =
        .ok (hist, s', evs) ∧
      countRunOrder evs ≤ 1 ∧
      ([0] = ([] : List Nat) ∨ (∃ m, DriverEvent.warn m ∈ evs) ∨
        (hist ≠ [] ∧ maxAbsQ (hist.getLastD []) < 1/2))) ∧
    (∃ hist s' evs,
      solve_tear_wegstein
          (⟨fun _ s => s, fun _ => ([1], [0]), id, fun _ s => s, fun _ => [1],
            fun _ => [0], id⟩ : TearPlant Unit) [0] [] 1 (1/2) "abs" (-5) 0 () =
        .ok (hist, s', evs) ∧
      countRunOrder evs ≤ 1 + 1 ∧
      ([0] = ([] : List Nat) ∨ (∃ m, DriverEvent.warn m ∈ evs) ∨
        (hist ≠ [] ∧ maxAbsQ (hist.getLastD []) < 1/2)))) :=
  ⟨⟨Or.inl rfl, le_refl 1⟩,
    solve_tear_iteration_cap _ [0] [] 1 (1/2) "abs" (-5) 0 () (Or.inl rfl)
      (le_refl 1)⟩

/-!
## C3 (amended) — the tear loop dispatches every SCC in `sccOrder`
-/

theorem runSccLevel_ok (G : MDiGraph) (tset : List Nat)
    (sccNodes sccEdges : List (List Nat)) (m : String) :
    ∀ (lev : List Nat) (acc out : List (Nat × List Nat)),
      runSccLevel G tset sccNodes sccEdges m lev acc = .ok out →
      out = acc ++ lev.map
        (fun i => (i, tset.filter (fun ei => ei ∈ sccEdges.getD i []))) := by
  intro lev
  induction lev with
  | nil =>
    intro acc out h
    simp only [runSccLevel] at h
    cases h
    simp
  | cons i rest ih =>
    intro acc out h
    simp only [runSccLevel] at h
    cases hco : calculation_order G tset none (some (sccNodes.getD i [])) with
    | error e => rw [hco] at h; cases h
    | ok o =>
      rw [hco] at h
      by_cases hm : m = "Direct" ∨ m = "Wegstein"
      · simp only [hm, if_true] at h
        have := ih _ _ h
        simp [this]
      · simp only [hm, if_false] at h
        cases h

theorem runSccLevels_ok (G : MDiGraph) (tset : List Nat)
    (sccNodes sccEdges : List (List Nat)) (m : String) :
    ∀ (levs : List (List Nat)) (acc out : List (Nat × List Nat)),
      runSccLevels G tset sccNodes sccEdges m levs acc = .ok out →
      out = acc ++ levs.flatten.map
        (fun i => (i, tset.filter (fun ei => ei ∈ sccEdges.getD i []))) := by
  intro levs
  induction levs with
  | nil =>
    intro acc out h
    simp only [runSccLevels] at h
    cases h
    simp
  | cons lev levs ih =>
    intro acc out h
    simp only [runSccLevels] at h
    cases hlev : runSccLevel G tset sccNodes sccEdges m lev acc with
    | error e => rw [hlev] at h; cases h
    | ok acc' =>
      rw [hlev] at h
      have h1 := runSccLevel_ok G tset sccNodes sccEdges m lev acc acc' hlev
      have h2 := ih _ _ h
      simp [h2, h1]

/-- C3 (amended): whenever the tear-convergence phase of `run` completes,
its dispatches are exactly the SCC indexes of `sccOrder`, level by level
in order — every SCC, singletons included — each receiving
`tears = T ∩ sccEdges[scc]` in the order of `T`. -/
theorem runSccInvocations_all_sccs (G : MDiGraph) (tset : List Nat) (method : String)
    (r : List (List Nat) × List (List Nat) × List (List Nat) × List (List Nat))
    (invs : List (Nat × List Nat))
    (hscc : scc_collect G none = .ok r)
    (hinv : runSccInvocations G tset method = .ok invs) :
    invs = r.2.2.1.flatten.map
      (fun i => (i, tset.filter (fun ei => ei ∈ r.2.1.getD i []))) := by
  unfold runSccInvocations at hinv
  rw [hscc] at hinv
  simpa using runSccLevels_ok G tset r.1 r.2.1 method r.2.2.1 [] invs hinv

/-- Witness for `runSccInvocations_all_sccs` on the C3 counterexample
graph: both SCCs are dispatched, the singleton with empty tears. -/
theorem runSccInvocations_all_sccs_witness :
    scc_collect ⟨3, [(0, 1), (1, 0), (1, 2)]⟩ none =
      .ok ([[2], [1, 0]], [[], [0, 1]], [[1], [0]], [[], [2]]) ∧
    runSccInvocations ⟨3, [(0, 1), (1, 0), (1, 2)]⟩ [0] "Direct" =
      .ok [(1, [0]), (0, [])] ∧
    [(1, [0]), (0, [])] =
      ([[1], [0]] : List (List Nat)).flatten.map
        (fun i => (i, [0].filter (fun ei =>
          ei ∈ ([[], [0, 1]] : List (List Nat)).getD i []))) :=
  ⟨rfl, rfl,
    runSccInvocations_all_sccs ⟨3, [(0, 1), (1, 0), (1, 2)]⟩ [0] "Direct"
      ([[2], [1, 0]], [[], [0, 1]], [[1], [0]], [[], [2]]) [(1, [0]), (0, [])]
      rfl rfl⟩

/-!
## C5 (amended) — cache discipline of `run`
-/

theorem cacherK_mem_self (key : String) (c : CacheSt) : key ∈ cacherK key c := by
  unfold cacherK
  split
  · assumption
  · simp

theorem cacherK_mono {x : String} (key : String) {c : CacheSt} (h : x ∈ c) :
    x ∈ cacherK key c := by
  unfold cacherK
  split
  · exact h
  · exact List.mem_append_left _ h

theorem adj_listsK_mono {x : String} (eg ng : Bool) {c : CacheSt} (h : x ∈ c) :
    x ∈ adj_listsK eg ng c := by
  unfold adj_listsK
  cases eg <;> cases ng <;> simp only [if_true, if_false] <;>
    first
      | exact h
      | exact cacherK_mono _ h
      | exact cacherK_mono _ (cacherK_mono _ h)

theorem run_orderK_mono {x : String} (hd : Bool) {c : CacheSt} (h : x ∈ c) :
    x ∈ run_orderK hd c := by
  unfold run_orderK
  cases hd <;> simp only [if_true, if_false] <;>
    first
      | exact cacherK_mono _ (cacherK_mono _ h)
      | exact cacherK_mono _ (cacherK_mono _ (cacherK_mono _ h))

theorem scc_collectK_mono {x : String} (eg : Bool) {c : CacheSt} (h : x ∈ c) :
    x ∈ scc_collectK eg c := by
  unfold scc_collectK
  exact cacherK_mono _ (adj_listsK_mono _ _ h)

theorem tear_setK_mem {g : Bool} {m : String} {c c' : CacheSt}
    (h : tear_setK g m c = .ok c') : "tear_set" ∈ c' := by
  unfold tear_setK at h
  by_cases h0 : "tear_set" ∈ c
  · simp only [h0, if_true] at h
    cases h
    exact h0
  · simp only [h0, if_false] at h
    by_cases hg : g = true
    · subst hg
      simp only [if_true] at h
      cases h
      exact cacherK_mem_self _ _
    · have hg' : g = false := by simpa using hg
      subst hg'
      simp only [Bool.false_eq_true, if_false] at h
      by_cases hm : m = "mip"
      · simp only [hm, if_true] at h
        cases h
        exact cacherK_mem_self _ _
      · simp only [hm, if_false] at h
        by_cases hh : m = "heuristic"
        · simp only [hh, if_true] at h
          cases h
          exact cacherK_mem_self _ _
        · simp only [hh, if_false] at h
          cases h

theorem tear_setK_mono {x : String} {g : Bool} {m : String} {c c' : CacheSt}
    (h : tear_setK g m c = .ok c') (hx : x ∈ c) : x ∈ c' := by
  unfold tear_setK at h
  by_cases h0 : "tear_set" ∈ c
  · simp only [h0, if_true] at h
    cases h
    exact hx
  · simp only [h0, if_false] at h
    by_cases hg : g = true
    · subst hg
      simp only [if_true] at h
      cases h
      exact cacherK_mono _ (scc_collectK_mono _ (cacherK_mono _ (cacherK_mono _ hx)))
    · have hg' : g = false := by simpa using hg
      subst hg'
      simp only [Bool.false_eq_true, if_false] at h
      by_cases hm : m = "mip"
      · simp only [hm, if_true] at h
        cases h
        exact cacherK_mono _ (cacherK_mono _ (adj_listsK_mono _ _ hx))
      · simp only [hm, if_false] at h
        by_cases hh : m = "heuristic"
        · simp only [hh, if_true] at h
          cases h
          exact cacherK_mono _ (cacherK_mono _ (adj_listsK_mono _ _ (cacherK_mono _ hx)))
        · simp only [hh, if_false] at h
          cases h

theorem calculation_orderK_mono {x : String} {g : Bool} {m : String} {ng : Bool}
    {c c' : CacheSt} (h : calculation_orderK g m ng c = .ok c') (hx : x ∈ c) :
    x ∈ c' := by
  unfold calculation_orderK at h
  cases ht : tear_setK g m c with
  | error e => rw [ht] at h; cases h
  | ok c1 =>
    rw [ht] at h
    cases h
    exact adj_listsK_mono _ _ (tear_setK_mono ht hx)

/-- C5 (amended): the cache is cleared at the start of every `run` (the
result never depends on the incoming cache); on normal completion of the
tear-solving path it is empty again; on the early return taken when
`solve_tears` is off or the tear set is empty it still holds the
`tear_set` memoization (it is cleared only by the next `run`); and on an
error exit raised after the tear-set computation succeeded, the cache is
likewise not cleared and still holds the `tear_set` memoization. -/
theorem run_cache_amended :
    (∀ (opts : RunOpts) (te hd : Bool) (k : Nat) (c0 c0' : CacheSt),
      run_cache opts te hd k c0 = run_cache opts te hd k c0') ∧
    (∀ (opts : RunOpts) (te hd : Bool) (k : Nat) (c0 : CacheSt),
      (run_cache opts te hd k c0).1 = .normal → (run_cache opts te hd k c0).2 = []) ∧
    (∀ (opts : RunOpts) (te hd : Bool) (k : Nat) (c0 : CacheSt),
      (run_cache opts te hd k c0).1 = .early →
        "tear_set" ∈ (run_cache opts te hd k c0).2) ∧
    (∀ (opts : RunOpts) (te hd : Bool) (k : Nat) (c0 c1 : CacheSt),
      tear_setK opts.tear_set_given opts.select_tear_method [] = .ok c1 →
      (run_cache opts te hd k c0).1 = .raised →
        "tear_set" ∈ (run_cache opts te hd k c0).2) := by
  refine ⟨fun _ _ _ _ _ _ => rfl, ?_, ?_, ?_⟩
  · intro opts te hd k c0
    unfold run_cache
    cases ht : tear_setK opts.tear_set_given opts.select_tear_method [] with
    | error e => intro h; cases h
    | ok c1 =>
      dsimp only
      cases hfp : run_firstPassK opts hd c1 with
      | error e => intro h; cases h
      | ok c2 =>
        dsimp only
        by_cases he : ¬opts.solve_tears ∨ te = true
        · simp only [he, if_true]
          intro h; cases h
        · simp only [he, if_false]
          cases hloop : runTearLoopK opts hd k (scc_collectK false c2) with
          | error e => intro h; cases h
          | ok c4 => intro _; rfl
  · intro opts te hd k c0
    unfold run_cache
    cases ht : tear_setK opts.tear_set_given opts.select_tear_method [] with
    | error e => intro h; cases h
    | ok c1 =>
      dsimp only
      have hc1 : "tear_set" ∈ c1 := tear_setK_mem ht
      cases hfp : run_firstPassK opts hd c1 with
      | error e => intro h; cases h
      | ok c2 =>
        dsimp only
        have hc2 : "tear_set" ∈ c2 := by
          unfold run_firstPassK at hfp
          by_cases hp : opts.run_first_pass
          · simp only [hp, if_true] at hfp
            cases hco : calculation_orderK opts.tear_set_given
                opts.select_tear_method false c1 with
            | error e => rw [hco] at hfp; cases hfp
            | ok cx =>
              rw [hco] at hfp
              cases hfp
              exact run_orderK_mono _ (calculation_orderK_mono hco hc1)
          · simp only [hp, if_false] at hfp
            cases hfp
            exact hc1
        by_cases he : ¬opts.solve_tears ∨ te = true
        · simp only [he, if_true]
          intro _
          exact hc2
        · simp only [he, if_false]
          cases hloop : runTearLoopK opts hd k (scc_collectK false c2) with
          | error e => intro h; cases h
          | ok c4 => intro h; cases h
  · intro opts te hd k c0 c1 hok
    unfold run_cache
    cases ht : tear_setK opts.tear_set_given opts.select_tear_method [] with
    | error e =>
      rw [ht] at hok
      cases hok
    | ok c1' =>
      dsimp only
      have hc1 : "tear_set" ∈ c1' := tear_setK_mem ht
      cases hfp : run_firstPassK opts hd c1' with
      | error e =>
        intro _
        exact hc1
      | ok c2 =>
        dsimp only
        have hc2 : "tear_set" ∈ c2 := by
          unfold run_firstPassK at hfp
          by_cases hp : opts.run_first_pass
          · simp only [hp, if_true] at hfp
            cases hco : calculation_orderK opts.tear_set_given
                opts.select_tear_method false c1' with
            | error e => rw [hco] at hfp; cases hfp
            | ok cx =>
              rw [hco] at hfp
              cases hfp
              exact run_orderK_mono _ (calculation_orderK_mono hco hc1)
          · simp only [hp, if_false] at hfp
            cases hfp
            exact hc1
        by_cases he : ¬opts.solve_tears ∨ te = true
        · simp only [he, if_true]
          intro h
          cases h
        · simp only [he, if_false]
          cases hloop : runTearLoopK opts hd k (scc_collectK false c2) with
          | error e =>
            intro _
            exact scc_collectK_mono _ hc2
          | ok c4 =>
            intro h
            cases h

/-- Witness for `run_cache_amended`: a normal completion ends with an
empty cache, an early return keeps `tear_set` cached, and an error raised
in the tear loop after the tear set was computed keeps `tear_set`
cached. -/
theorem run_cache_amended_witness :
    ((run_cache ⟨false, "mip", true, true, "Direct"⟩ false true 1 ["x"]).1 =
        .normal ∧
      (run_cache ⟨false, "mip", true, true, "Direct"⟩ false true 1 ["x"]).2 = []) ∧
    ((run_cache ⟨false, "mip", true, false, "Direct"⟩ false true 0 []).1 =
        .early ∧
      "tear_set" ∈ (run_cache ⟨false, "mip", true, false, "Direct"⟩ false true 0 []).2) ∧
    (tear_setK false "mip" [] = .ok ["idx_to_node", "edge_to_idx", "tear_set"] ∧
      (run_cache ⟨false, "mip", false, true, "bogus"⟩ false true 1 []).1 = .raised ∧
      "tear_set" ∈ (run_cache ⟨false, "mip", false, true, "bogus"⟩ false true 1 []).2) :=
  ⟨⟨by decide, run_cache_amended.2.1 _ _ _ _ _ (by decide)⟩,
    ⟨by decide, run_cache_amended.2.2.1 _ _ _ _ _ (by decide)⟩,
    ⟨rfl, by decide,
      run_cache_amended.2.2.2 ⟨false, "mip", false, true, "bogus"⟩ false true 1 []
        ["idx_to_node", "edge_to_idx", "tear_set"] rfl (by decide)⟩⟩

/-!
## C4 (amended) — fixing discipline of `run_order`
-/

theorem fixVar_ledger (s : FixSt) (v : Nat) : (s.fixVar v).ledger = s.ledger := by
  unfold FixSt.fixVar
  split <;> rfl

theorem freeVar_ledger (s : FixSt) (v : Nat) : (s.freeVar v).ledger = s.ledger := rfl

theorem setEntry_fixedVars (s : FixSt) (u : Nat) (vs : List Nat) :
    (s.setEntry u vs).fixedVars = s.fixedVars := by
  unfold FixSt.setEntry
  split <;> rfl

theorem fixVar_mono {s : FixSt} {x : Nat} (h : x ∈ s.fixedVars) (v : Nat) :
    x ∈ (s.fixVar v).fixedVars := by
  unfold FixSt.fixVar
  split
  · exact h
  · exact List.mem_append_left _ h

theorem fixVar_mem_self (s : FixSt) (v : Nat) : v ∈ (s.fixVar v).fixedVars := by
  unfold FixSt.fixVar
  split
  · assumption
  · simp

theorem pass_one_mono {a : PassAction} {st : FixSt} {x : Nat}
    (h : x ∈ st.fixedVars) : x ∈ (pass_one a st).2.fixedVars := by
  unfold pass_one
  have key : ∀ (l : List Nat) (s : FixSt), x ∈ s.fixedVars →
      x ∈ (l.foldl (fun s v =>
        (s.fixVar v).setEntry a.destUnit (s.entry a.destUnit ++ [v])) s).fixedVars := by
    intro l
    induction l with
    | nil => intro s hs; exact hs
    | cons v vs ih =>
      intro s hs
      apply ih
      rw [setEntry_fixedVars]
      exact fixVar_mono hs v
  split <;> exact key _ _ h

theorem pass_loop_mono :
    ∀ (l : List PassAction) (st : FixSt) (x : Nat), x ∈ st.fixedVars →
      x ∈ (pass_loop l st).2.fixedVars := by
  intro l
  induction l with
  | nil => intro st x h; exact h
  | cons a rest ih =>
    intro st x h
    unfold pass_loop
    cases hp : pass_one a st with
    | mk e st1 =>
      have h1 : x ∈ st1.fixedVars := by
        have h2 : x ∈ (pass_one a st).2.fixedVars := pass_one_mono h
        rw [hp] at h2
        exact h2
      cases e with
      | none => simpa using ih st1 x h1
      | some msg => simpa using h1

theorem ports_entry_preserved (u : Nat) :
    ∀ (ports : List OutPort) (st : FixSt),
      (∀ p ∈ ports, ∀ a ∈ p.passes, a.destUnit ≠ u) →
      (ports_phase ports st).1 = none →
      (ports_phase ports st).2.entry u = st.entry u := by
  have entry_fixVar : ∀ (s : FixSt) (v : Nat), (s.fixVar v).entry u = s.entry u := by
    intro s v
    unfold FixSt.entry
    rw [fixVar_ledger]
  have entry_freeVar : ∀ (s : FixSt) (v : Nat), (s.freeVar v).entry u = s.entry u := by
    intro s v
    unfold FixSt.entry
    rw [freeVar_ledger]
  have entry_foldl_fix : ∀ (l : List Nat) (s : FixSt),
      (l.foldl (fun s v => s.fixVar v) s).entry u = s.entry u := by
    intro l
    induction l with
    | nil => intro s; rfl
    | cons v vs ih => intro s; rw [List.foldl_cons, ih, entry_fixVar]
  have entry_foldl_free : ∀ (l : List Nat) (s : FixSt),
      (l.foldl (fun s v => s.freeVar v) s).entry u = s.entry u := by
    intro l
    induction l with
    | nil => intro s; rfl
    | cons v vs ih => intro s; rw [List.foldl_cons, ih, entry_freeVar]
  have entry_setEntry_ne : ∀ (s : FixSt) (w : Nat) (vs : List Nat), w ≠ u →
      (s.setEntry w vs).entry u = s.entry u := by
    intro s w vs hw
    have hfind : (s.setEntry w vs).ledger.find? (fun p => p.1 = u) =
        s.ledger.find? (fun p => p.1 = u) := by
      unfold FixSt.setEntry
      split
      · simp only
        induction s.ledger with
        | nil => rfl
        | cons q qs ihq =>
          simp only [List.map_cons, List.find?_cons]
          by_cases hq : q.1 = w
          · simp only [hq, if_true]
            have h1 : (decide (((w, vs) : Nat × List Nat).1 = u)) = false := by
              simp [hw]
            have h2 : (decide (q.1 = u)) = false := by simp [hq, hw]
            simp only [h1, h2, ihq]
          · simp only [hq, if_false]
            by_cases hqu : q.1 = u
            · simp [hqu]
            · have h2 : (decide (q.1 = u)) = false := by simp [hqu]
              simp only [h2, ihq]
      · simp only
        rw [List.find?_append]
        cases hf : s.ledger.find? (fun p => p.1 = u) with
        | some q => rfl
        | none =>
          have h1 : (decide (((w, vs) : Nat × List Nat).1 = u)) = false := by
            simp [hw]
          simp only [Option.none_or, List.find?_cons, h1]
          rfl
    unfold FixSt.entry
    rw [hfind]
  have entry_pass_one : ∀ (a : PassAction) (s : FixSt), a.destUnit ≠ u →
      (pass_one a s).2.entry u = s.entry u := by
    intro a s ha
    unfold pass_one
    have key : ∀ (l : List Nat) (s : FixSt),
        (l.foldl (fun s v =>
          (s.fixVar v).setEntry a.destUnit (s.entry a.destUnit ++ [v])) s).entry u =
        s.entry u := by
      intro l
      induction l with
      | nil => intro s; rfl
      | cons v vs ih =>
        intro s
        rw [List.foldl_cons, ih, entry_setEntry_ne _ _ _ ha, entry_fixVar]
    split <;> exact key _ _
  have entry_pass_loop : ∀ (l : List PassAction) (s : FixSt),
      (∀ a ∈ l, a.destUnit ≠ u) →
      (pass_loop l s).2.entry u = s.entry u := by
    intro l
    induction l with
    | nil => intro s _; rfl
    | cons a rest ih =>
      intro s hl
      unfold pass_loop
      cases hp : pass_one a s with
      | mk e st1 =>
        have h1 : st1.entry u = s.entry u := by
          have := entry_pass_one a s (hl a (by simp))
          rw [hp] at this
          exact this
        cases e with
        | none =>
          simp only [hp]
          rw [ih st1 (fun a ha => hl a (by simp [ha])), h1]
        | some msg =>
          simp only [hp]
          exact h1
  intro ports
  induction ports with
  | nil => intro st _ _; rfl
  | cons p rest ih =>
    intro st hp hok
    unfold ports_phase at hok ⊢
    cases hpp : port_phase p st with
    | mk e st1 =>
      simp only [hpp] at hok ⊢
      cases e with
      | some msg => exact Option.noConfusion hok
      | none =>
        replace hok : (ports_phase rest st1).1 = none := hok
        have h1 : st1.entry u = st.entry u := by
          have hpo : (port_phase p st).2.entry u = st.entry u := by
            unfold port_phase
            cases hpl : pass_loop p.passes
                (p.outVars.foldl (fun s v => s.fixVar v) st) with
            | mk e2 st2 =>
              simp only [hpl]
              have h2 : st2.entry u = st.entry u := by
                have := entry_pass_loop p.passes
                  (p.outVars.foldl (fun s v => s.fixVar v) st)
                  (fun a ha => hp p (by simp) a ha)
                rw [hpl] at this
                rw [this, entry_foldl_fix]
              cases e2 with
              | some m2 => exact h2
              | none =>
                show (List.foldl (fun s v => s.freeVar v) st2 p.outVars).entry u =
                  st.entry u
                rw [entry_foldl_free, h2]
          rw [hpp] at hpo
          exact hpo
        show (ports_phase rest st1).2.entry u = st.entry u
        rw [ih st1 (fun q hq => hp q (by simp [hq])) hok, h1]

theorem setEntry_entry_self (s : FixSt) (u : Nat) (vs : List Nat) :
    (s.setEntry u vs).entry u = vs := by
  have hmap : ∀ (l : List (Nat × List Nat)), (∃ q ∈ l, q.1 = u) →
      (l.map (fun p => if p.1 = u then (u, vs) else p)).find?
        (fun p => p.1 = u) = some (u, vs) := by
    intro l
    induction l with
    | nil => rintro ⟨q, hq, _⟩; cases hq
    | cons a as ih =>
      rintro ⟨q, hq, hqu⟩
      simp only [List.map_cons, List.find?_cons]
      by_cases ha : a.1 = u
      · simp [ha]
      · simp only [ha, if_false]
        have had : (decide False) = false := rfl
        rw [had]
        refine ih ⟨q, ?_, hqu⟩
        rcases List.mem_cons.mp hq with h1 | h1
        · subst h1
          exact absurd hqu ha
        · exact h1
  have hfind : (s.setEntry u vs).ledger.find? (fun p => p.1 = u) = some (u, vs) := by
    unfold FixSt.setEntry
    split
    · next h =>
      simp only
      rw [List.any_eq_true] at h
      obtain ⟨q, hq, hqu⟩ := h
      exact hmap s.ledger ⟨q, hq, by simpa using hqu⟩
    · next h =>
      simp only
      rw [List.find?_append]
      have hnone : s.ledger.find? (fun p => p.1 = u) = none := by
        rw [List.find?_eq_none]
        intro q hq
        intro hqd
        exact absurd (List.any_eq_true.mpr ⟨q, hq, hqd⟩) h
      rw [hnone]
      simp [List.find?]
  unfold FixSt.entry
  rw [hfind]

theorem foldl_fixVar_mono (l : List Nat) (st : FixSt) (x : Nat)
    (h : x ∈ st.fixedVars) :
    x ∈ (l.foldl (fun s w => s.fixVar w) st).fixedVars := by
  induction l generalizing st with
  | nil => exact h
  | cons w ws ih =>
    rw [List.foldl_cons]
    exact ih _ (fixVar_mono h w)

theorem foldl_fixVar_mem (l : List Nat) (st : FixSt) (v : Nat) (hv : v ∈ l) :
    v ∈ (l.foldl (fun s w => s.fixVar w) st).fixedVars := by
  induction l generalizing st with
  | nil => cases hv
  | cons w ws ih =>
    rw [List.foldl_cons]
    rcases List.mem_cons.mp hv with h | h
    · subst h
      exact foldl_fixVar_mono ws _ v (fixVar_mem_self st v)
    · exact ih _ h

/-- C4 (amended): `run_order` performs no unwinding.  (1) passing values
never releases a variable; (2) when a `pass_values` raises, the
transiently fixed outlet variables of the port are still fixed in the
propagated state (no `finally` releases them); (3) on the normal path the
unit's ledger entry is freed and cleared right after its `function`
returns: after a successful unit step the entry is empty again (provided
no arc of the unit loops back into the unit itself). -/
theorem run_order_release_amended :
    (∀ (l : List PassAction) (st : FixSt) (x : Nat),
      x ∈ st.fixedVars → x ∈ (pass_loop l st).2.fixedVars) ∧
    (∀ (p : OutPort) (st : FixSt) (e : String),
      (port_phase p st).1 = some e →
      ∀ v ∈ p.outVars, v ∈ (port_phase p st).2.fixedVars) ∧
    (∀ (spec : UnitSpec) (u : Nat) (st : FixSt),
      (process_unit spec u st).1 = none →
      (∀ p ∈ spec.ports, ∀ a ∈ p.passes, a.destUnit ≠ u) →
      (process_unit spec u st).2.entry u = []) := by
  refine ⟨pass_loop_mono, ?_, ?_⟩
  · intro p st e he v hv
    unfold port_phase at he ⊢
    cases hpl : pass_loop p.passes (p.outVars.foldl (fun s v => s.fixVar v) st) with
    | mk e2 st2 =>
      simp only [hpl] at he ⊢
      have hfix : v ∈ (p.outVars.foldl (fun s v => s.fixVar v) st).fixedVars :=
        foldl_fixVar_mem p.outVars st v hv
      have h2 : v ∈ st2.fixedVars := by
        have := pass_loop_mono p.passes
          (p.outVars.foldl (fun s v => s.fixVar v) st) v hfix
        rw [hpl] at this
        exact this
      cases e2 with
      | none => exact Option.noConfusion he
      | some m =>
        show v ∈ st2.fixedVars
        exact h2
  · intro spec u st hok hnp
    unfold process_unit at hok ⊢
    cases hl : load_phase u spec.loads st with
    | mk e st1 =>
      rw [hl] at hok
      cases e with
      | some m => simp at hok
      | none =>
        simp only at hok ⊢
        by_cases hf : spec.funcOk
        · simp only [hf, not_true, if_false] at hok ⊢
          have hpres := ports_entry_preserved u spec.ports
            (((st1.entry u).foldl (fun s v => s.freeVar v) st1).setEntry u [])
            hnp hok
          rw [hpres, setEntry_entry_self]
        · simp [hf] at hok

/-- Witness for `run_order_release_amended`: a raising arc keeps the
transient outlet fix, a successful unit clears its ledger entry. -/
theorem run_order_release_amended_witness :
    (3 ∈ (pass_loop [] ⟨[3], []⟩).2.fixedVars) ∧
    (5 ∈ (port_phase ⟨[5], [⟨1, [], true⟩]⟩ ⟨[], []⟩).2.fixedVars) ∧
    ((process_unit ⟨[some 3], true, []⟩ 0 ⟨[], []⟩).2.entry 0 = []) :=
  ⟨run_order_release_amended.1 [] ⟨[3], []⟩ 3 (by decide),
    run_order_release_amended.2.1 ⟨[5], [⟨1, [], true⟩]⟩ ⟨[], []⟩
      "pass_values raised" (by decide) 5 (by decide),
    run_order_release_amended.2.2 ⟨[some 3], true, []⟩ 0 ⟨[], []⟩ (by decide)
      (by decide)⟩

/-!
## `tree_order` with `roots=None`: general behavior

Shared machinery for claims C2 (amended) and C6 (amended).  With no
roots, every node is marked, roots are the nodes with no predecessor in
`adj`, and the candidate loop removes a predecessor from a working row
only when it sits in the immediately preceding level.  The lemmas below
establish: the loop never raises, the fuel `2n + 2` never runs out, every
placed node has all its (deduplicated) `adjR` predecessors in strictly
earlier levels, the placed nodes are pairwise distinct, and no node lying
on a cycle of `adj` is ever placed.
-/

theorem getD_set_self {α : Type} (l : List α) (i : Nat) (a d : α)
    (h : i < l.length) : (l.set i a).getD i d = a := by
  simp [List.getD, List.getElem?_set_self, h]

theorem getD_set_ne {α : Type} (l : List α) (i j : Nat) (a d : α)
    (h : i ≠ j) : (l.set i a).getD j d = l.getD j d := by
  simp [List.getD, List.getElem?_set_ne h]

/-- Unfolding lemma for one non-raising `tree_cands` step. -/
theorem tree_cands_cons (adj : List (List Nat)) (mark : List Bool)
    (prevLev : List Nat) (depth ci : Nat) (rest : List Nat)
    (adjR : List (List Nat)) (ndepth : List (Option Nat))
    (lstN delS chkU : List Nat) (hnd : ndepth.getD ci none = none) :
    tree_cands adj mark prevLev depth (ci :: rest) (adjR, ndepth, lstN, delS, chkU) =
      if ((adjR.getD ci []).filter
          (fun j => ¬(j ∈ prevLev ∨ mark.getD j true = false))) = [] then
        tree_cands adj mark prevLev depth rest
          (adjR.set ci ((adjR.getD ci []).filter
              (fun j => ¬(j ∈ prevLev ∨ mark.getD j true = false))),
            ndepth.set ci (some depth), lstN ++ [ci], delS ++ [ci],
            chkU ++ adj.getD ci []) else
        tree_cands adj mark prevLev depth rest
          (adjR.set ci ((adjR.getD ci []).filter
              (fun j => ¬(j ∈ prevLev ∨ mark.getD j true = false))),
            ndepth, lstN, delS, chkU) := by
  rw [tree_cands]
  rw [if_neg (not_ne_iff.mpr hnd)]

/-- Specification of one `tree_cands` round over a nodup candidate list
of unvisited nodes: no error, and the placed nodes `newP` and their
effects are characterized. -/
theorem tree_cands_spec (adj : List (List Nat)) (nn : Nat) (prevLev : List Nat)
    (depth : Nat) :
    ∀ (cands : List Nat) (adjRc : List (List Nat)) (ndepth0 : List (Option Nat))
      (lstN delS chkU : List Nat),
      cands.Nodup →
      (∀ c ∈ cands, ndepth0.getD c none = none) →
      (∀ c ∈ cands, c < nn) →
      ndepth0.length = nn →
      ∃ adjR' ndepth' newP chkAdd,
        tree_cands adj (List.replicate nn true) prevLev depth cands
            (adjRc, ndepth0, lstN, delS, chkU) =
          .ok (adjR', ndepth', lstN ++ newP, delS ++ newP, chkU ++ chkAdd) ∧
        (∀ v ∈ newP, v ∈ cands) ∧ newP.Nodup ∧
        (∀ v ∈ newP, adjR'.getD v [] = []) ∧
        (∀ i j, j ∈ adjR'.getD i [] → j ∈ adjRc.getD i []) ∧
        (∀ i j, j ∈ adjRc.getD i [] → j ∉ adjR'.getD i [] → j ∈ prevLev) ∧
        (∀ v, v ∉ newP → ndepth'.getD v none = ndepth0.getD v none) ∧
        (∀ v ∈ newP, ndepth'.getD v none ≠ none) ∧
        ndepth'.length = ndepth0.length ∧
        (∀ x ∈ chkAdd, ∃ i, i ∈ newP ∧ x ∈ adj.getD i []) ∧
        (∀ i, i ∉ cands → adjR'.getD i [] = adjRc.getD i []) := by
  intro cands
  induction cands with
  | nil =>
    intro adjRc ndepth0 lstN delS chkU _ _ _ _
    refine ⟨adjRc, ndepth0, [], [], ?_⟩
    refine ⟨by simp [tree_cands], by simp, by simp, by simp, fun i j hj => hj,
      fun i j hj hnj => absurd hj hnj, fun v _ => rfl, by simp, rfl, by simp,
      fun i _ => rfl⟩
  | cons ci rest ih =>
    intro adjRc ndepth0 lstN delS chkU hnodup hnd hlt hlen
    have hci : ndepth0.getD ci none = none := hnd ci (by simp)
    have hcilt : ci < nn := hlt ci (by simp)
    have hrnodup : rest.Nodup := (List.nodup_cons.mp hnodup).2
    have hcirest : ci ∉ rest := (List.nodup_cons.mp hnodup).1
    have hmark : ∀ j : Nat, ((List.replicate nn true).getD j true = false) = False := by
      intro j
      simp only [eq_iff_iff, iff_false]
      intro hj
      rcases Nat.lt_or_ge j nn with hjn | hjn
      · rw [List.getD_eq_getElem _ _ (by simpa using hjn)] at hj
        simp at hj
      · rw [List.getD_eq_default] at hj
        · cases hj
        · simpa using hjn
    have hrow : ((adjRc.getD ci []).filter
        (fun j => ¬(j ∈ prevLev ∨ (List.replicate nn true).getD j true = false))) =
        ((adjRc.getD ci []).filter (fun j => j ∉ prevLev)) := by
      apply List.filter_congr
      intro j _
      simp [hmark j]
    by_cases hempty : ((adjRc.getD ci []).filter (fun j => j ∉ prevLev)) = []
    · -- ci is placed
      obtain ⟨adjR', ndepth', newP, chkAdd, heq, hsub, hnp, hrow0, hshrink, hremj,
          hpres, hnew, hlen', hchk, huntouched⟩ :=
        ih (adjRc.set ci ((adjRc.getD ci []).filter (fun j => j ∉ prevLev)))
          (ndepth0.set ci (some depth)) (lstN ++ [ci]) (delS ++ [ci])
          (chkU ++ adj.getD ci []) hrnodup
          (fun c hc => by
            rw [getD_set_ne _ _ _ _ _ (fun h => hcirest (by rw [h]; exact hc))]
            exact hnd c (by simp [hc]))
          (fun c hc => hlt c (by simp [hc]))
          (by simpa using hlen)
      have hset_ci : (adjRc.set ci ((adjRc.getD ci []).filter
          (fun j => j ∉ prevLev))).getD ci [] = [] := by
        rcases Nat.lt_or_ge ci adjRc.length with hl | hl
        · rw [getD_set_self _ _ _ _ hl]
          exact hempty
        · rw [List.set_eq_of_length_le (by simpa using hl)]
          rw [List.getD_eq_default]
          simpa using hl
      refine ⟨adjR', ndepth', ci :: newP, adj.getD ci [] ++ chkAdd, ?_, ?_, ?_, ?_,
        ?_, ?_, ?_, ?_, ?_, ?_, ?_⟩
      · rw [tree_cands_cons adj _ prevLev depth ci rest adjRc ndepth0 lstN delS chkU
          hci, hrow, if_pos hempty, heq]
        simp
      · intro v hv
        rcases List.mem_cons.mp hv with h | h
        · simp [h]
        · exact List.mem_cons_of_mem _ (hsub v h)
      · rw [List.nodup_cons]
        exact ⟨fun h => hcirest (hsub ci h), hnp⟩
      · intro v hv
        rcases List.mem_cons.mp hv with h | h
        · subst h
          apply List.eq_nil_iff_forall_not_mem.mpr
          intro j hj
          have := hshrink v j hj
          rw [hset_ci] at this
          cases this
        · exact hrow0 v h
      · intro i j hj
        have h1 := hshrink i j hj
        by_cases hic : i = ci
        · subst hic
          rw [hset_ci] at h1
          cases h1
        · rw [getD_set_ne _ _ _ _ _ (fun h => hic h.symm)] at h1
          exact h1
      · intro i j hj hnj
        by_cases hic : i = ci
        · subst hic
          by_cases hjp : j ∈ prevLev
          · exact hjp
          · exfalso
            apply hnj
            have hjrow : j ∈ (adjRc.getD i []).filter (fun j => j ∉ prevLev) := by
              rw [List.mem_filter]
              exact ⟨hj, by simpa using hjp⟩
            rw [hempty] at hjrow
            cases hjrow
        · by_cases hj' : j ∈ (adjRc.set ci ((adjRc.getD ci []).filter
              (fun j => j ∉ prevLev))).getD i []
          · exact hremj i j hj' hnj
          · rw [getD_set_ne _ _ _ _ _ (fun h => hic h.symm)] at hj'
            exact absurd hj hj'
      · intro v hv
        have hvci : v ≠ ci := fun h => hv (h ▸ List.mem_cons_self ci newP)
        have hvnp : v ∉ newP := fun h => hv (List.mem_cons_of_mem _ h)
        rw [hpres v hvnp, getD_set_ne _ _ _ _ _ (fun h => hvci h.symm)]
      · intro v hv
        rcases List.mem_cons.mp hv with h | h
        · subst h
          by_cases hvn : v ∈ newP
          · exact hnew v hvn
          · rw [hpres v hvn, getD_set_self _ _ _ _ (by omega)]
            simp
        · exact hnew v h
      · simpa using hlen'
      · intro x hx
        rcases List.mem_append.mp hx with h | h
        · exact ⟨ci, List.mem_cons_self _ _, h⟩
        · obtain ⟨i, hi, hxi⟩ := hchk x h
          exact ⟨i, List.mem_cons_of_mem _ hi, hxi⟩
      · intro i hi
        have hic : i ≠ ci := fun h => hi (h ▸ List.mem_cons_self ci rest)
        have hir : i ∉ rest := fun h => hi (List.mem_cons_of_mem _ h)
        rw [huntouched i hir, getD_set_ne _ _ _ _ _ (fun h => hic h.symm)]
    · -- ci is not placed this round
      obtain ⟨adjR', ndepth', newP, chkAdd, heq, hsub, hnp, hrow0, hshrink, hremj,
          hpres, hnew, hlen', hchk, huntouched⟩ :=
        ih (adjRc.set ci ((adjRc.getD ci []).filter (fun j => j ∉ prevLev)))
          ndepth0 lstN delS chkU hrnodup
          (fun c hc => hnd c (by simp [hc]))
          (fun c hc => hlt c (by simp [hc])) hlen
      have hcilen : ci < adjRc.length := by
        by_contra hcl
        apply hempty
        have : adjRc.getD ci [] = [] := by
          rw [List.getD_eq_default]
          omega
        rw [this]
        rfl
      refine ⟨adjR', ndepth', newP, chkAdd, ?_, ?_, hnp, hrow0, ?_, ?_, hpres, hnew,
        hlen', hchk, ?_⟩
      · rw [tree_cands_cons adj _ prevLev depth ci rest adjRc ndepth0 lstN delS chkU
          hci, hrow, if_neg hempty]
        exact heq
      · intro v hv
        exact List.mem_cons_of_mem _ (hsub v hv)
      · intro i j hj
        have h1 := hshrink i j hj
        by_cases hic : i = ci
        · subst hic
          rw [getD_set_self _ _ _ _ hcilen] at h1
          exact List.mem_of_mem_filter h1
        · rw [getD_set_ne _ _ _ _ _ (fun h => hic h.symm)] at h1
          exact h1
      · intro i j hj hnj
        by_cases hic : i = ci
        · subst hic
          by_cases hjp : j ∈ prevLev
          · exact hjp
          · exfalso
            apply hnj
            have hjrow : j ∈ (adjRc.set i ((adjRc.getD i []).filter
                (fun j => j ∉ prevLev))).getD i [] := by
              rw [getD_set_self _ _ _ _ hcilen, List.mem_filter]
              exact ⟨hj, by simpa using hjp⟩
            by_cases hj2 : j ∈ adjR'.getD i []
            · exact hj2
            · exact absurd (hremj i j hjrow hj2) hjp
        · by_cases hj' : j ∈ (adjRc.set ci ((adjRc.getD ci []).filter
              (fun j => j ∉ prevLev))).getD i []
          · exact hremj i j hj' hnj
          · rw [getD_set_ne _ _ _ _ _ (fun h => hic h.symm)] at hj'
            exact absurd hj hj'
      · intro i hi
        have hic : i ≠ ci := fun h => hi (h ▸ List.mem_cons_self ci rest)
        have hir : i ∉ rest := fun h => hi (List.mem_cons_of_mem _ h)
        rw [huntouched i hir, getD_set_ne _ _ _ _ _ (fun h => hic h.symm)]

theorem mem_flatten_levels (order : List (List Nat)) (x : Nat) :
    x ∈ order.flatten ↔ ∃ l, l < order.length ∧ x ∈ order.getD l [] := by
  rw [List.mem_flatten]
  constructor
  · rintro ⟨s, hs, hx⟩
    obtain ⟨l, hl, hsl⟩ := List.getElem_of_mem hs
    refine ⟨l, hl, ?_⟩
    rw [List.getD_eq_getElem _ _ hl, hsl]
    exact hx
  · rintro ⟨l, hl, hx⟩
    refine ⟨order.getD l [], ?_, hx⟩
    rw [List.getD_eq_getElem _ _ hl]
    exact List.getElem_mem hl

theorem mem_canonSet (nn : Nat) (l : List Nat) (x : Nat) :
    x ∈ canonSet nn l ↔ x < nn ∧ x ∈ l := by
  simp [canonSet]

theorem canonSet_nodup (nn : Nat) (l : List Nat) : (canonSet nn l).Nodup :=
  (List.nodup_range nn).filter _

theorem nodup_length_le (l : List Nat) (n : Nat) (hnd : l.Nodup)
    (hlt : ∀ x ∈ l, x < n) : l.length ≤ n := by
  have h1 : l.length = l.toFinset.card := (List.toFinset_card_of_nodup hnd).symm
  rw [h1]
  have hsub : l.toFinset ⊆ Finset.range n := by
    intro x hx
    rw [Finset.mem_range]
    exact hlt x (List.mem_toFinset.mp hx)
  simpa using Finset.card_le_card hsub

/-- A node on a cycle has a predecessor that is also on a cycle. -/
theorem onCycle_pred (adj : List (List Nat)) (v : Nat) (h : OnCycle adj v) :
    ∃ u, v ∈ adj.getD u [] ∧ OnCycle adj u := by
  obtain ⟨w, hstep, hreach⟩ := h
  rcases Relation.ReflTransGen.cases_tail hreach with heq | ⟨c, hwc, hcv⟩
  · have hstep' : v ∈ adj.getD v [] := by
      rw [← heq] at hstep
      exact hstep
    exact ⟨v, hstep', v, hstep', Relation.ReflTransGen.refl⟩
  · exact ⟨c, hcv, v, hcv, Relation.ReflTransGen.head hstep hwc⟩

theorem getD_append_lt {α : Type} (l1 l2 : List α) (i : Nat) (d : α)
    (h : i < l1.length) : (l1 ++ l2).getD i d = l1.getD i d := by
  rw [List.getD_eq_getElem _ _ (by simp; omega), List.getD_eq_getElem _ _ h,
    List.getElem_append_left]

theorem getD_append_len {α : Type} (l1 : List α) (x : α) (d : α) :
    (l1 ++ [x]).getD l1.length d = x := by
  rw [List.getD_eq_getElem _ _ (by simp)]
  exact List.getElem_concat_length _ _ _ rfl _

/-- Main invariant induction for the `tree_order` round loop in the
`roots=None` configuration (every node marked): the loop never raises,
never exhausts the fuel, keeps placements pairwise distinct, places no
node that lies on a cycle, and places every `adjRD` predecessor of a
placed node in a strictly earlier level. -/
theorem tree_order_loop_spec (adj adjRD : List (List Nat))
    (Hcons : ∀ u v : Nat, v ∈ adj.getD u [] ↔ u ∈ adjRD.getD v []) :
    ∀ (fuel : Nat) (adjRc : List (List Nat)) (ndepth : List (Option Nat))
      (order : List (List Nat)) (checknodes lst : List Nat),
      (∀ i j, j ∈ adjRc.getD i [] → j ∈ adjRD.getD i []) →
      (∀ i j, j ∈ adjRD.getD i [] → j ∉ adjRc.getD i [] → j ∈ order.flatten) →
      (order.flatten ++ lst).Nodup →
      (∀ v ∈ order.flatten ++ lst, v < adj.length) →
      ndepth.length = adj.length →
      (∀ c ∈ checknodes, ndepth.getD c none = none) →
      (∀ c ∈ checknodes, c ∉ order.flatten ++ lst) →
      (∀ c ∈ checknodes, c < adj.length) →
      checknodes.Nodup →
      (∀ v, ndepth.getD v none ≠ none → v ∈ order.flatten ++ lst) →
      (∀ v ∈ order.flatten ++ lst, adjRc.getD v [] = []) →
      (∀ li, li < order.length → ∀ i ∈ order.getD li [], ∀ j ∈ adjRD.getD i [],
        ∃ lj, lj < li ∧ j ∈ order.getD lj []) →
      (∀ v ∈ order.flatten ++ lst, ¬ OnCycle adj v) →
      adj.length + 2 - order.flatten.length ≤ fuel →
      ∃ o, tree_order_loop adj (List.replicate adj.length true) fuel adjRc ndepth
          order checknodes lst = .ok o ∧
        o.flatten.Nodup ∧
        (∀ v ∈ o.flatten, v < adj.length) ∧
        (∀ v ∈ o.flatten, ¬ OnCycle adj v) ∧
        (∀ li, li < o.length → ∀ i ∈ o.getD li [], ∀ j ∈ adjRD.getD i [],
          ∃ lj, lj < li ∧ j ∈ o.getD lj []) := by
  intro fuel
  induction fuel with
  | zero =>
    intro adjRc ndepth order checknodes lst _ _ hnodup hlt _ _ _ _ _ _ _ _ _ hfuel
    exfalso
    have h2 : (order.flatten ++ lst).length ≤ adj.length :=
      nodup_length_le _ _ hnodup hlt
    rw [List.length_append] at h2
    omega
  | succ f ih =>
    intro adjRc ndepth order checknodes lst hsub hrem hnodup hlt hndlen hndnone
      hfresh hchklt hchknd hndplaced hplempty hlevels hnc hfuel
    by_cases hlst : lst = []
    · subst hlst
      refine ⟨order, ?_, ?_, ?_, ?_, hlevels⟩
      · rw [tree_order_loop]
        simp
      · simpa using hnodup
      · intro v hv
        exact hlt v (by simpa using hv)
      · intro v hv
        exact hnc v (by simpa using hv)
    · obtain ⟨adjR', ndepth', newP, chkAdd, heqc, hsubC, hnpC, hrow0, hshrink,
          hremj, hpres, hnew, hlen', hchkC, huntouched⟩ :=
        tree_cands_spec adj adj.length lst ((order ++ [lst]).length) checknodes
          adjRc ndepth [] [] [] hchknd hndnone hchklt hndlen
      simp only [List.nil_append] at heqc
      have hflat : (order ++ [lst]).flatten = order.flatten ++ lst := by simp
      have hdisj : ∀ a, a ∈ order.flatten ++ lst → a ∈ newP → False :=
        fun a ha hb => hfresh a (hsubC a hb) ha
      -- removed predecessors are placed by the end of this round
      have hrem' : ∀ i j, j ∈ adjRD.getD i [] → j ∉ adjR'.getD i [] →
          j ∈ (order ++ [lst]).flatten := by
        intro i j hD hnot
        rw [hflat]
        by_cases hc : j ∈ adjRc.getD i []
        · exact List.mem_append.mpr (Or.inr (hremj i j hc hnot))
        · exact List.mem_append.mpr (Or.inl (hrem i j hD hc))
      -- placed nodes have empty working rows after this round
      have hplempty' : ∀ v, v ∈ order.flatten ++ lst ∨ v ∈ newP →
          adjR'.getD v [] = [] := by
        intro v hv
        rcases hv with hv | hv
        · rw [huntouched v (fun hc => hfresh v hc hv)]
          exact hplempty v hv
        · exact hrow0 v hv
      -- no update candidate is already placed
      have hkey : ∀ c, c ∈ chkAdd → c ∈ order.flatten ++ lst ∨ c ∈ newP → False := by
        intro c hcA hcP
        obtain ⟨i, hiN, hci⟩ := hchkC c hcA
        have hiD : i ∈ adjRD.getD c [] := (Hcons i c).mp hci
        have hrowc : adjR'.getD c [] = [] := hplempty' c hcP
        have hiPl : i ∈ (order ++ [lst]).flatten :=
          hrem' c i hiD (by rw [hrowc]; exact List.not_mem_nil i)
        rw [hflat] at hiPl
        exact hdisj i hiPl hiN
      have hlstpos : 0 < lst.length := List.length_pos.mpr hlst
      obtain ⟨o, ho, hoNodup, hoLt, hoNc, hoLev⟩ :=
        ih adjR' ndepth' (order ++ [lst])
          (canonSet adj.length ((checknodes.filter (fun i => i ∉ newP)) ++ chkAdd))
          newP
          (fun i j hj => hsub i j (hshrink i j hj))
          (fun i j hD hn => hrem' i j hD hn)
          (by
            rw [hflat, List.nodup_append]
            refine ⟨hnodup, hnpC, fun a ha hb => hdisj a ha hb⟩)
          (by
            intro v hv
            rw [hflat, List.append_assoc] at hv
            rcases List.mem_append.mp hv with h | h
            · exact hlt v (List.mem_append.mpr (Or.inl h))
            · rcases List.mem_append.mp h with h | h
              · exact hlt v (List.mem_append.mpr (Or.inr h))
              · exact hchklt v (hsubC v h))
          (hlen'.trans hndlen)
          (by
            intro c hc
            rw [mem_canonSet] at hc
            rcases List.mem_append.mp hc.2 with h | h
            · rw [List.mem_filter] at h
              have hcn : c ∉ newP := by simpa using h.2
              rw [hpres c hcn]
              exact hndnone c h.1
            · by_contra hne
              rcases Classical.em (c ∈ newP) with hcn | hcn
              · exact hkey c h (Or.inr hcn)
              · rw [hpres c hcn] at hne
                exact hkey c h (Or.inl (hndplaced c hne)))
          (by
            intro c hc hmem
            rw [mem_canonSet] at hc
            have hmem' : c ∈ order.flatten ++ lst ∨ c ∈ newP := by
              rw [hflat, List.append_assoc] at hmem
              rcases List.mem_append.mp hmem with h | h
              · exact Or.inl (List.mem_append.mpr (Or.inl h))
              · rcases List.mem_append.mp h with h | h
                · exact Or.inl (List.mem_append.mpr (Or.inr h))
                · exact Or.inr h
            rcases List.mem_append.mp hc.2 with h | h
            · rw [List.mem_filter] at h
              rcases hmem' with h2 | h2
              · exact hfresh c h.1 h2
              · exact (by simpa using h.2 : c ∉ newP) h2
            · exact hkey c h hmem')
          (fun c hc => ((mem_canonSet _ _ c).mp hc).1)
          (canonSet_nodup _ _)
          (by
            intro v hv
            rw [hflat, List.append_assoc]
            rcases Classical.em (v ∈ newP) with hcn | hcn
            · exact List.mem_append.mpr (Or.inr (List.mem_append.mpr (Or.inr hcn)))
            · rw [hpres v hcn] at hv
              rcases List.mem_append.mp (hndplaced v hv) with h | h
              · exact List.mem_append.mpr (Or.inl h)
              · exact List.mem_append.mpr (Or.inr (List.mem_append.mpr (Or.inl h))))
          (by
            intro v hv
            apply hplempty' v
            rw [hflat, List.append_assoc] at hv
            rcases List.mem_append.mp hv with h | h
            · exact Or.inl (List.mem_append.mpr (Or.inl h))
            · rcases List.mem_append.mp h with h | h
              · exact Or.inl (List.mem_append.mpr (Or.inr h))
              · exact Or.inr h)
          (by
            intro li hli i hi j hj
            rw [List.length_append, List.length_singleton] at hli
            rcases Nat.lt_or_ge li order.length with hcase | hcase
            · rw [getD_append_lt _ _ _ _ hcase] at hi
              obtain ⟨lj, hlj, hjmem⟩ := hlevels li hcase i hi j hj
              refine ⟨lj, hlj, ?_⟩
              rw [getD_append_lt _ _ _ _ (hlj.trans hcase)]
              exact hjmem
            · have hlieq : li = order.length := by omega
              subst hlieq
              rw [getD_append_len] at hi
              have hrowi : adjRc.getD i [] = [] :=
                hplempty i (List.mem_append.mpr (Or.inr hi))
              have hjP : j ∈ order.flatten :=
                hrem i j hj (by rw [hrowi]; exact List.not_mem_nil j)
              obtain ⟨lj, hlj, hjmem⟩ := (mem_flatten_levels order j).mp hjP
              refine ⟨lj, hlj, ?_⟩
              rw [getD_append_lt _ _ _ _ hlj]
              exact hjmem)
          (by
            intro v hv
            rw [hflat, List.append_assoc] at hv
            rcases List.mem_append.mp hv with h | h
            · exact hnc v (List.mem_append.mpr (Or.inl h))
            · rcases List.mem_append.mp h with h | h
              · exact hnc v (List.mem_append.mpr (Or.inr h))
              · intro hcyc
                obtain ⟨u, hvu, hcycu⟩ := onCycle_pred adj v hcyc
                have huD : u ∈ adjRD.getD v [] := (Hcons u v).mp hvu
                have hrowv : adjR'.getD v [] = [] := hplempty' v (Or.inr h)
                have huPl : u ∈ (order ++ [lst]).flatten :=
                  hrem' v u huD (by rw [hrowv]; exact List.not_mem_nil u)
                rw [hflat] at huPl
                exact hnc u huPl hcycu)
          (by
            rw [hflat, List.length_append]
            omega)
      refine ⟨o, ?_, hoNodup, hoLt, hoNc, hoLev⟩
      rw [tree_order_loop, if_neg hlst]
      dsimp only
      rw [heqc]
      exact ho

/-- Membership in the successor-collecting fold used for the initial
`checknodes` of `tree_order`. -/
theorem mem_succ_fold (adj : List (List Nat)) :
    ∀ (rs : List Nat) (acc : List Nat) (x : Nat),
      (x ∈ rs.foldl (fun acc i => acc ++ adj.getD i []) acc ↔
        x ∈ acc ∨ ∃ r, r ∈ rs ∧ x ∈ adj.getD r []) := by
  intro rs
  induction rs with
  | nil => simp
  | cons r rest ih =>
    intro acc x
    rw [List.foldl_cons, ih]
    simp only [List.mem_append, List.mem_cons]
    constructor
    · rintro ((h | h) | ⟨r', hr', hx⟩)
      · exact Or.inl h
      · exact Or.inr ⟨r, Or.inl rfl, h⟩
      · exact Or.inr ⟨r', Or.inr hr', hx⟩
    · rintro (h | ⟨r', (rfl | hr'), hx⟩)
      · exact Or.inl (Or.inl h)
      · exact Or.inl (Or.inr hx)
      · exact Or.inr ⟨r', hr', hx⟩

/-- With `roots=None` and mutually consistent forward/reverse adjacency,
`tree_order` (decomposition.py lines 1159-1259) never raises: it returns
an order whose levels are pairwise disjoint, in which every recorded
predecessor of a placed node sits in a strictly earlier level, and which
silently omits every node that lies on a cycle. -/
theorem tree_order_none_spec (adj adjR0 : List (List Nat))
    (Hcons : ∀ u v : Nat, v ∈ adj.getD u [] ↔ u ∈ adjR0.getD v []) :
    ∃ o, tree_order adj adjR0 none = .ok o ∧
      o.flatten.Nodup ∧
      (∀ v ∈ o.flatten, v < adj.length) ∧
      (∀ v ∈ o.flatten, ¬ OnCycle adj v) ∧
      (∀ li, li < o.length → ∀ i ∈ o.getD li [], ∀ j, j ∈ adjR0.getD i [] →
        ∃ lj, lj < li ∧ j ∈ o.getD lj []) := by
  have hgetDmap : ∀ v, (adjR0.map List.dedup).getD v [] =
      List.dedup (adjR0.getD v []) := by
    intro v
    rcases Nat.lt_or_ge v adjR0.length with h | h
    · rw [List.getD_eq_getElem _ _ (by simpa using h), List.getD_eq_getElem _ _ h,
        List.getElem_map]
    · rw [List.getD_eq_default, List.getD_eq_default, List.dedup_nil]
      · exact h
      · simpa using h
  have HconsD : ∀ u v : Nat, v ∈ adj.getD u [] ↔
      u ∈ (adjR0.map List.dedup).getD v [] := by
    intro u v
    rw [hgetDmap v, List.mem_dedup]
    exact Hcons u v
  have hrootNoPred : ∀ r, r ∈ (List.range adj.length).filter
      (fun i => ¬ adj.any (fun sucs => i ∈ sucs)) → ∀ u, r ∉ adj.getD u [] := by
    intro r hr u hmem
    rw [List.mem_filter] at hr
    have hany : adj.any (fun sucs => r ∈ sucs) = true := by
      rcases Nat.lt_or_ge u adj.length with h | h
      · rw [List.getD_eq_getElem _ _ h] at hmem
        exact List.any_eq_true.mpr ⟨adj[u], List.getElem_mem h, by simpa using hmem⟩
      · rw [List.getD_eq_default] at hmem
        · cases hmem
        · exact h
    have := hr.2
    simp only [hany] at this
    simp at this
  have hndrep : ∀ c : Nat, (List.replicate adj.length (none : Option Nat)).getD c
      none = none := by
    intro c
    rcases Nat.lt_or_ge c adj.length with h | h
    · rw [List.getD_eq_getElem _ _ (by simpa using h)]
      simp
    · rw [List.getD_eq_default]
      simpa using h
  obtain ⟨o, ho, h1, hbnd, h2, h3⟩ :=
    tree_order_loop_spec adj (adjR0.map List.dedup) HconsD (2 * adj.length + 2)
      (adjR0.map List.dedup) (List.replicate adj.length none) []
      (canonSet adj.length
        (((List.range adj.length).filter
            (fun i => ¬ adj.any (fun sucs => i ∈ sucs))).foldl
          (fun acc i => acc ++ adj.getD i []) []))
      ((List.range adj.length).filter (fun i => ¬ adj.any (fun sucs => i ∈ sucs)))
      (fun i j hj => hj)
      (fun i j hD hn => absurd hD hn)
      (by simpa using (List.nodup_range adj.length).filter _)
      (by
        intro v hv
        simp only [List.flatten_nil, List.nil_append, List.mem_filter,
          List.mem_range] at hv
        exact hv.1)
      (by simp)
      (fun c _ => hndrep c)
      (by
        intro c hc hmem
        rw [mem_canonSet] at hc
        simp only [List.flatten_nil, List.nil_append] at hmem
        rcases (mem_succ_fold adj _ [] c).mp hc.2 with hfalse | ⟨r, _, hpred⟩
        · cases hfalse
        · exact hrootNoPred c hmem r hpred)
      (fun c hc => ((mem_canonSet _ _ c).mp hc).1)
      (canonSet_nodup _ _)
      (fun v hv => absurd (hndrep v) hv)
      (by
        intro v hv
        simp only [List.flatten_nil, List.nil_append] at hv
        apply List.eq_nil_iff_forall_not_mem.mpr
        intro u hu
        exact hrootNoPred v hv u ((HconsD u v).mpr hu))
      (by
        intro li hli
        simp at hli)
      (by
        intro v hv hcyc
        simp only [List.flatten_nil, List.nil_append] at hv
        obtain ⟨u, hvu, _⟩ := onCycle_pred adj v hcyc
        exact hrootNoPred v hv u hvu)
      (by
        simp only [List.flatten_nil, List.length_nil]
        omega)
  refine ⟨o, ?_, h1, hbnd, h2, ?_⟩
  · rw [tree_order]
    exact ho
  · intro li hli i hi j hj
    exact h3 li hli i hi j (by
      rw [hgetDmap i, List.mem_dedup]
      exact hj)

/-- C6 (amended): with `roots=None`, `tree_order` invoked on adjacency
lists that describe the same cyclic graph does NOT report a fatal error:
it returns an ordering normally, and every node that lies on a cycle is
silently omitted from the returned levels instead of being reported (the
source's RuntimeError can fire only in other configurations). -/
theorem tree_order_cycles_amended (adj adjR0 : List (List Nat))
    (hcons : ∀ u v : Nat, v ∈ adj.getD u [] ↔ u ∈ adjR0.getD v []) :
    ∃ o, tree_order adj adjR0 none = .ok o ∧
      ∀ v, OnCycle adj v → v ∉ o.flatten := by
  obtain ⟨o, ho, _, _, h2, _⟩ := tree_order_none_spec adj adjR0 hcons
  exact ⟨o, ho, fun v hcyc hv => h2 v hv hcyc⟩

/-- Witness for the amended C6 theorem on the 2-cycle with an extra
isolated node: `adj = [[1],[0],[]]` is its own reverse adjacency. -/
theorem tree_order_cycles_amended_witness :
    ∃ o, tree_order [[1], [0], []] [[1], [0], []] none = .ok o ∧
      ∀ v, OnCycle [[1], [0], []] v → v ∉ o.flatten := by
  apply tree_order_cycles_amended
  intro u v
  rcases u with _ | _ | _ | u <;> rcases v with _ | _ | _ | v <;>
    simp [List.getD]

/-!
## The adjacency pair built by `scc_calculation_order`

The fold over `range cnt` records, for each SCC index `i`, at most one
predecessor: the `firstMatchScc` result.  The two lists are built in
lockstep, so membership in either is characterized by `firstMatchScc`,
making the pair mutually consistent — the hypothesis `tree_order` needs.
-/

theorem getD_replicate {α : Type} (n : Nat) (a : α) (i : Nat) :
    (List.replicate n a).getD i a = a := by
  rcases Nat.lt_or_ge i n with h | h
  · rw [List.getD_eq_getElem _ _ (by simpa using h)]
    simp
  · rw [List.getD_eq_default]
    simpa using h

theorem firstMatchScc_lt (oe : List (List Nat)) (iei : List Nat) (cnt j : Nat)
    (h : firstMatchScc oe iei cnt = some j) : j < cnt := by
  have := List.mem_of_find?_eq_some h
  simpa using this

theorem scc_adj_fold_spec (ie oe : List (List Nat)) (cnt : Nat) :
    ∀ (L P : List Nat) (p : List (List Nat) × List (List Nat)),
      p.1.length = cnt → p.2.length = cnt →
      (∀ a ∈ L, a < cnt) → (∀ a ∈ L, a ∉ P) → L.Nodup →
      (∀ a b : Nat, a ∈ p.1.getD b [] ↔
        a ∈ P ∧ firstMatchScc oe (ie.getD a []) cnt = some b) →
      (∀ a b : Nat, b ∈ p.2.getD a [] ↔
        a ∈ P ∧ firstMatchScc oe (ie.getD a []) cnt = some b) →
      (L.foldl (fun (p : List (List Nat) × List (List Nat)) i =>
          match firstMatchScc oe (ie.getD i []) cnt with
          | some j => (p.1.set j (p.1.getD j [] ++ [i]),
              p.2.set i (p.2.getD i [] ++ [j]))
          | none => p) p).1.length = cnt ∧
      (L.foldl (fun (p : List (List Nat) × List (List Nat)) i =>
          match firstMatchScc oe (ie.getD i []) cnt with
          | some j => (p.1.set j (p.1.getD j [] ++ [i]),
              p.2.set i (p.2.getD i [] ++ [j]))
          | none => p) p).2.length = cnt ∧
      (∀ a b : Nat, a ∈ (L.foldl (fun (p : List (List Nat) × List (List Nat)) i =>
          match firstMatchScc oe (ie.getD i []) cnt with
          | some j => (p.1.set j (p.1.getD j [] ++ [i]),
              p.2.set i (p.2.getD i [] ++ [j]))
          | none => p) p).1.getD b [] ↔
        (a ∈ P ∨ a ∈ L) ∧ firstMatchScc oe (ie.getD a []) cnt = some b) ∧
      (∀ a b : Nat, b ∈ (L.foldl (fun (p : List (List Nat) × List (List Nat)) i =>
          match firstMatchScc oe (ie.getD i []) cnt with
          | some j => (p.1.set j (p.1.getD j [] ++ [i]),
              p.2.set i (p.2.getD i [] ++ [j]))
          | none => p) p).2.getD a [] ↔
        (a ∈ P ∨ a ∈ L) ∧ firstMatchScc oe (ie.getD a []) cnt = some b) := by
  intro L
  induction L with
  | nil =>
    intro P p h1 h2 _ _ _ m1 m2
    refine ⟨h1, h2, ?_, ?_⟩
    · intro a b
      rw [List.foldl_nil, m1 a b]
      simp
    · intro a b
      rw [List.foldl_nil, m2 a b]
      simp
  | cons i L ih =>
    intro P p h1 h2 hlt hnp hnd m1 m2
    have hilt : i < cnt := hlt i (by simp)
    have hiP : i ∉ P := hnp i (by simp)
    have hiL : i ∉ L := (List.nodup_cons.mp hnd).1
    rw [List.foldl_cons]
    cases heq : firstMatchScc oe (ie.getD i []) cnt with
    | none =>
      simp only [heq]
      have := ih (P ++ [i]) p h1 h2 (fun a ha => hlt a (by simp [ha]))
        (fun a ha hmem => by
          rcases List.mem_append.mp hmem with h | h
          · exact hnp a (by simp [ha]) h
          · have hai : a = i := by simpa using h
            subst hai
            exact hiL ha)
        (List.nodup_cons.mp hnd).2
        (fun a b => by
          rw [m1 a b]
          constructor
          · rintro ⟨ha, hb⟩
            exact ⟨List.mem_append.mpr (Or.inl ha), hb⟩
          · rintro ⟨ha, hb⟩
            rcases List.mem_append.mp ha with h | h
            · exact ⟨h, hb⟩
            · exfalso
              rw [List.mem_singleton] at h
              subst h
              rw [heq] at hb
              cases hb)
        (fun a b => by
          rw [m2 a b]
          constructor
          · rintro ⟨ha, hb⟩
            exact ⟨List.mem_append.mpr (Or.inl ha), hb⟩
          · rintro ⟨ha, hb⟩
            rcases List.mem_append.mp ha with h | h
            · exact ⟨h, hb⟩
            · exfalso
              rw [List.mem_singleton] at h
              subst h
              rw [heq] at hb
              cases hb)
      obtain ⟨k1, k2, k3, k4⟩ := this
      refine ⟨k1, k2, ?_, ?_⟩
      · intro a b
        rw [k3 a b]
        simp only [List.mem_append, List.mem_singleton, List.mem_cons]
        tauto
      · intro a b
        rw [k4 a b]
        simp only [List.mem_append, List.mem_singleton, List.mem_cons]
        tauto
    | some j =>
      simp only [heq]
      have hjlt : j < cnt := firstMatchScc_lt _ _ _ _ heq
      have hm1' : ∀ a b : Nat,
          a ∈ (p.1.set j (p.1.getD j [] ++ [i])).getD b [] ↔
            a ∈ P ++ [i] ∧ firstMatchScc oe (ie.getD a []) cnt = some b := by
        intro a b
        by_cases hbj : b = j
        · subst hbj
          rw [getD_set_self _ _ _ _ (by omega), List.mem_append, m1 a b,
            List.mem_singleton]
          constructor
          · rintro (⟨ha, hb⟩ | rfl)
            · exact ⟨List.mem_append.mpr (Or.inl ha), hb⟩
            · exact ⟨List.mem_append.mpr (Or.inr (by simp)), heq⟩
          · rintro ⟨ha, hb⟩
            rcases List.mem_append.mp ha with h | h
            · exact Or.inl ⟨h, hb⟩
            · exact Or.inr (by simpa using h)
        · rw [getD_set_ne _ _ _ _ _ (fun h => hbj h.symm), m1 a b]
          constructor
          · rintro ⟨ha, hb⟩
            exact ⟨List.mem_append.mpr (Or.inl ha), hb⟩
          · rintro ⟨ha, hb⟩
            rcases List.mem_append.mp ha with h | h
            · exact ⟨h, hb⟩
            · exfalso
              rw [List.mem_singleton] at h
              subst h
              rw [heq] at hb
              exact hbj (by simpa using hb.symm)
      have hm2' : ∀ a b : Nat,
          b ∈ (p.2.set i (p.2.getD i [] ++ [j])).getD a [] ↔
            a ∈ P ++ [i] ∧ firstMatchScc oe (ie.getD a []) cnt = some b := by
        intro a b
        by_cases hai : a = i
        · subst hai
          rw [getD_set_self _ _ _ _ (by omega), List.mem_append, m2 a b,
            List.mem_singleton]
          constructor
          · rintro (⟨ha, hb⟩ | rfl)
            · exact absurd ha hiP
            · exact ⟨List.mem_append.mpr (Or.inr (by simp)), heq⟩
          · rintro ⟨_, hb⟩
            rw [heq] at hb
            exact Or.inr (by simpa using hb.symm)
        · rw [getD_set_ne _ _ _ _ _ (fun h => hai h.symm), m2 a b]
          constructor
          · rintro ⟨ha, hb⟩
            exact ⟨List.mem_append.mpr (Or.inl ha), hb⟩
          · rintro ⟨ha, hb⟩
            rcases List.mem_append.mp ha with h | h
            · exact ⟨h, hb⟩
            · exact absurd (by simpa using h) hai
      have := ih (P ++ [i]) (p.1.set j (p.1.getD j [] ++ [i]),
          p.2.set i (p.2.getD i [] ++ [j]))
        (by simpa using h1) (by simpa using h2)
        (fun a ha => hlt a (by simp [ha]))
        (fun a ha hmem => by
          rcases List.mem_append.mp hmem with h | h
          · exact hnp a (by simp [ha]) h
          · have hai : a = i := by simpa using h
            subst hai
            exact hiL ha)
        (List.nodup_cons.mp hnd).2 hm1' hm2'
      obtain ⟨k1, k2, k3, k4⟩ := this
      refine ⟨k1, k2, ?_, ?_⟩
      · intro a b
        rw [k3 a b]
        simp only [List.mem_append, List.mem_singleton, List.mem_cons]
        tauto
      · intro a b
        rw [k4 a b]
        simp only [List.mem_append, List.mem_singleton, List.mem_cons]
        tauto

/-- `scc_calculation_order` never raises: the adjacency pair it builds is
mutually consistent, so the `roots=None` `tree_order` result applies.  The
returned level order lists each SCC index at most once, within range, and
places the recorded (`firstMatchScc`) predecessor of every listed SCC in a
strictly earlier level. -/
theorem scc_calculation_order_spec (sccNodes ie oe : List (List Nat)) :
    ∃ o, scc_calculation_order sccNodes ie oe = .ok o ∧
      o.flatten.Nodup ∧
      (∀ v ∈ o.flatten, v < sccNodes.length) ∧
      (∀ li, li < o.length → ∀ i ∈ o.getD li [], ∀ j,
        firstMatchScc oe (ie.getD i []) sccNodes.length = some j →
        ∃ lj, lj < li ∧ j ∈ o.getD lj []) := by
  obtain ⟨k1, k2, k3, k4⟩ :=
    scc_adj_fold_spec ie oe sccNodes.length (List.range sccNodes.length) []
      (List.replicate sccNodes.length [], List.replicate sccNodes.length [])
      (by simp) (by simp) (fun a ha => by simpa using ha)
      (fun a _ => List.not_mem_nil a) (List.nodup_range _)
      (fun a b => by simp [getD_replicate])
      (fun a b => by simp [getD_replicate])
  have Hcons : ∀ u v : Nat,
      v ∈ ((List.range sccNodes.length).foldl
        (fun (p : List (List Nat) × List (List Nat)) i =>
          match firstMatchScc oe (ie.getD i []) sccNodes.length with
          | some j => (p.1.set j (p.1.getD j [] ++ [i]),
              p.2.set i (p.2.getD i [] ++ [j]))
          | none => p)
        (List.replicate sccNodes.length [],
          List.replicate sccNodes.length [])).1.getD u [] ↔
      u ∈ ((List.range sccNodes.length).foldl
        (fun (p : List (List Nat) × List (List Nat)) i =>
          match firstMatchScc oe (ie.getD i []) sccNodes.length with
          | some j => (p.1.set j (p.1.getD j [] ++ [i]),
              p.2.set i (p.2.getD i [] ++ [j]))
          | none => p)
        (List.replicate sccNodes.length [],
          List.replicate sccNodes.length [])).2.getD v [] := by
    intro u v
    rw [k3 v u, k4 v u]
  obtain ⟨o, ho, hnodup, hbnd, _, hlev⟩ := tree_order_none_spec _ _ Hcons
  refine ⟨o, ?_, hnodup, ?_, ?_⟩
  · exact ho
  · intro v hv
    have := hbnd v hv
    rwa [k1] at this
  · intro li hli i hi j hfm
    have hiflat : i ∈ o.flatten := (mem_flatten_levels o i).mpr ⟨li, hli, hi⟩
    have hibnd : i < sccNodes.length := by
      have := hbnd i hiflat
      rwa [k1] at this
    exact hlev li hli i hi j ((k4 i j).mpr ⟨Or.inr (by simpa using hibnd), hfm⟩)

/-!
## Tarjan traversal: invariants and fuel sufficiency

The mutual induction below (`sc_scGo_spec`) establishes `ScPost`/`GoPost`
for every call whose fuel covers the remaining work `scWeight`; the driver
then yields that `sccMain` visits every node, ends with an empty stack,
and emits pairwise-disjoint components covering all nodes.
-/

theorem minOpt_zero (x : Option Nat) : minOpt x (some 0) = some 0 := by
  cases x <;> simp [minOpt]

theorem popComp_spec (v : Nat) :
    ∀ (ext rest : List Nat), v ∉ ext →
      popComp v (ext ++ v :: rest) = (ext ++ [v], rest) := by
  intro ext
  induction ext with
  | nil =>
    intro rest _
    simp [popComp]
  | cons w ext ih =>
    intro rest hv
    have hwv : w ≠ v := fun h => hv (h ▸ List.mem_cons_self w ext)
    have hvext : v ∉ ext := fun h => hv (List.mem_cons_of_mem _ h)
    rw [List.cons_append, popComp]
    rw [if_neg hwv, ih rest hvext]
    rfl

theorem sum_getD_length (adj : List (List Nat)) :
    (Finset.range adj.length).sum (fun u => (adj.getD u []).length) =
      (adj.map List.length).sum := by
  induction adj with
  | nil => simp
  | cons hd tl ih =>
    rw [List.length_cons, Finset.sum_range_succ']
    simp only [List.map_cons, List.sum_cons]
    have h1 : ∀ i : Nat, ((hd :: tl).getD (i + 1) []).length = (tl.getD i []).length :=
      fun i => rfl
    have h2 : ((hd :: tl).getD 0 []).length = hd.length := rfl
    rw [h2, Finset.sum_congr rfl (fun i _ => h1 i), ih]
    omega

theorem scWeight_le_total (adj : List (List Nat)) (nn : Nat) (st : SccSt) :
    scWeight adj nn st ≤ nn + (adj.map List.length).sum := by
  unfold scWeight
  have h1 : Finset.sum ((Finset.range nn).filter
      (fun u => st.ndepth.getD u none = none)) (fun u => 1 + (adj.getD u []).length) ≤
      Finset.sum (Finset.range nn) (fun u => 1 + (adj.getD u []).length) :=
    Finset.sum_le_sum_of_subset (Finset.filter_subset _ _)
  have h2 : Finset.sum (Finset.range nn) (fun u => 1 + (adj.getD u []).length) =
      nn + Finset.sum (Finset.range nn) (fun u => (adj.getD u []).length) := by
    rw [Finset.sum_add_distrib]
    simp
  have h3 : Finset.sum (Finset.range nn) (fun u => (adj.getD u []).length) ≤
      (adj.map List.length).sum := by
    have hsub : Finset.range nn ⊆ Finset.range (max nn adj.length) := by
      intro x hx
      rw [Finset.mem_range] at hx ⊢
      omega
    have h4 : Finset.sum (Finset.range nn) (fun u => (adj.getD u []).length) ≤
        Finset.sum (Finset.range (max nn adj.length))
          (fun u => (adj.getD u []).length) :=
      Finset.sum_le_sum_of_subset hsub
    have h5 : Finset.sum (Finset.range (max nn adj.length))
        (fun u => (adj.getD u []).length) =
        Finset.sum (Finset.range adj.length) (fun u => (adj.getD u []).length) := by
      symm
      apply Finset.sum_subset
      · intro x hx
        rw [Finset.mem_range] at hx ⊢
        omega
      · intro x _ hx
        rw [Finset.mem_range, Nat.not_lt] at hx
        rw [List.getD_eq_default]
        · rfl
        · exact hx
    exact h4.trans (le_of_eq (h5.trans (sum_getD_length adj)))
  omega

theorem scWeight_mono (adj : List (List Nat)) (nn : Nat) (st st' : SccSt)
    (h : ∀ u, st.ndepth.getD u none ≠ none → st'.ndepth.getD u none ≠ none) :
    scWeight adj nn st' ≤ scWeight adj nn st := by
  apply Finset.sum_le_sum_of_subset
  intro u hu
  rw [Finset.mem_filter] at hu ⊢
  refine ⟨hu.1, ?_⟩
  by_contra hne
  exact absurd (h u hne) (by simpa using hu.2)

theorem vis_lt (nn : Nat) (st : SccSt) (hInv : ScInv nn st) (v : Nat)
    (h : st.ndepth.getD v none ≠ none) : v < nn := by
  by_contra hge
  apply h
  rw [List.getD_eq_default]
  rw [hInv.hnl]
  omega

theorem scWeight_drop (adj : List (List Nat)) (nn : Nat) (st st' : SccSt) (v : Nat)
    (hmono : ∀ u, st.ndepth.getD u none ≠ none → st'.ndepth.getD u none ≠ none)
    (hv : st'.ndepth.getD v none ≠ none) (hv0 : st.ndepth.getD v none = none)
    (hvlt : v < nn) :
    scWeight adj nn st' + 1 + (adj.getD v []).length ≤ scWeight adj nn st := by
  have hvmem : v ∈ (Finset.range nn).filter
      (fun u => st.ndepth.getD u none = none) := by
    rw [Finset.mem_filter, Finset.mem_range]
    exact ⟨hvlt, hv0⟩
  have hsub : (Finset.range nn).filter (fun u => st'.ndepth.getD u none = none) ⊆
      ((Finset.range nn).filter (fun u => st.ndepth.getD u none = none)).erase v := by
    intro u hu
    rw [Finset.mem_filter] at hu
    rw [Finset.mem_erase, Finset.mem_filter]
    refine ⟨?_, hu.1, ?_⟩
    · intro heq
      subst heq
      exact absurd hv (by simpa using hu.2)
    · by_contra hne
      exact absurd (hmono u hne) (by simpa using hu.2)
  have h1 : scWeight adj nn st' ≤
      Finset.sum (((Finset.range nn).filter
        (fun u => st.ndepth.getD u none = none)).erase v)
        (fun u => 1 + (adj.getD u []).length) :=
    Finset.sum_le_sum_of_subset hsub
  have h2 : Finset.sum (((Finset.range nn).filter
      (fun u => st.ndepth.getD u none = none)).erase v)
      (fun u => 1 + (adj.getD u []).length) + (1 + (adj.getD v []).length) =
      scWeight adj nn st := by
    unfold scWeight
    rw [Finset.sum_erase_add _ _ hvmem]
  omega

/-- Assembling the `sc` postcondition from the successor-loop
postcondition on the pushed state: the final pop (or its absence) keeps
the invariant, and at recursion depth 0 the pop always fires. -/
theorem sc_post_assemble (adj : List (List Nat)) (nn v depth : Nat) (st st2 : SccSt)
    (hInv : ScInv nn st) (hvis : st.ndepth.getD v none = none) (hvlt : v < nn)
    (hgo : GoPost adj nn v
      ⟨v :: st.stk, st.ndepth.set v (some depth), st.back.set v (some depth),
        st.comps⟩ st2) :
    ScPost adj nn v depth st
      (if st2.back.getD v none = st2.ndepth.getD v none then
        { st2 with
          stk := (popComp v st2.stk).2
          comps := st2.comps ++ [(popComp v st2.stk).1] }
      else st2) := by
  have hvnotstk : v ∉ st.stk := fun h => (hInv.hiff v).mpr (Or.inl h) hvis
  have hvnotfl : v ∉ st.comps.flatten := fun h => (hInv.hiff v).mpr (Or.inr h) hvis
  have h1ndv : (st.ndepth.set v (some depth)).getD v none = some depth :=
    getD_set_self _ _ _ _ (by rw [hInv.hnl]; exact hvlt)
  obtain ⟨ext, hstk2r⟩ := hgo.hstk
  obtain ⟨pre, hcomps2r⟩ := hgo.hcomps
  have hstk2 : st2.stk = ext ++ v :: st.stk := hstk2r
  have hcomps2 : st2.comps = st.comps ++ pre := hcomps2r
  have h2ndv : st2.ndepth.getD v none = some depth := by
    have := hgo.ndepthPres v (by rw [h1ndv]; simp)
    rw [this, h1ndv]
  have hndPres : ∀ u, st.ndepth.getD u none ≠ none →
      st2.ndepth.getD u none = st.ndepth.getD u none := by
    intro u hu
    have huv : u ≠ v := fun h => absurd hvis (h ▸ hu)
    have h1 : (st.ndepth.set v (some depth)).getD u none = st.ndepth.getD u none :=
      getD_set_ne _ _ _ _ _ (fun h => huv h.symm)
    rw [hgo.ndepthPres u (by rw [h1]; exact hu), h1]
  have hbackPres : ∀ u, st.ndepth.getD u none ≠ none →
      st2.back.getD u none = st.back.getD u none := by
    intro u hu
    have huv : u ≠ v := fun h => absurd hvis (h ▸ hu)
    have h1 : (st.ndepth.set v (some depth)).getD u none = st.ndepth.getD u none :=
      getD_set_ne _ _ _ _ _ (fun h => huv h.symm)
    rw [hgo.backPres u (by rw [h1]; exact hu) huv]
    exact getD_set_ne _ _ _ _ _ (fun h => huv h.symm)
  have hwt : scWeight adj nn st2 + 1 + (adj.getD v []).length ≤ scWeight adj nn st := by
    apply scWeight_drop adj nn st st2 v ?_ (by rw [h2ndv]; simp) hvis hvlt
    intro u hu
    rw [hndPres u hu]
    exact hu
  by_cases hc : st2.back.getD v none = st2.ndepth.getD v none
  · rw [if_pos hc]
    have hvnotext : v ∉ ext := by
      have hnd2 := hgo.inv.hnd
      rw [hstk2] at hnd2
      rw [List.nodup_append] at hnd2
      have hS := hnd2.2.1
      rw [List.nodup_append] at hS
      intro hv
      exact hS.2.2 hv (List.mem_cons_self _ _)
    have hpopeq : popComp v st2.stk = (ext ++ [v], st.stk) := by
      rw [hstk2]
      exact popComp_spec v ext st.stk hvnotext
    have heqlist : st2.comps.flatten ++ (ext ++ [v]) ++ st.stk =
        st2.comps.flatten ++ (ext ++ v :: st.stk) := by
      simp
    refine ⟨⟨hgo.inv.hnl, hgo.inv.hbl, ?_, ?_⟩, ⟨[], by simp [hpopeq]⟩,
      ⟨pre ++ [ext ++ [v]], by simp [hpopeq, hcomps2]⟩,
      hndPres, h2ndv, hbackPres, hwt, fun _ => by simp [hpopeq]⟩
    · show ((st2.comps ++ [(popComp v st2.stk).1]).flatten ++
        (popComp v st2.stk).2).Nodup
      rw [hpopeq]
      simp only [List.flatten_append, List.flatten_cons, List.flatten_nil,
        List.append_nil]
      rw [heqlist, ← hstk2]
      exact hgo.inv.hnd
    · intro u
      rw [hgo.inv.hiff u]
      show u ∈ st2.stk ∨ u ∈ st2.comps.flatten ↔
        u ∈ (popComp v st2.stk).2 ∨ u ∈ (st2.comps ++ [(popComp v st2.stk).1]).flatten
      rw [hpopeq, hstk2]
      simp only [List.mem_append, List.mem_cons, List.flatten_append,
        List.flatten_cons, List.flatten_nil, List.append_nil, List.mem_singleton]
      tauto
  · rw [if_neg hc]
    have hd0 : depth = 0 → False := by
      intro h0
      apply hc
      have hb : st2.back.getD v none = some 0 := by
        apply hgo.backV0
        show (st.back.set v (some depth)).getD v none = some 0
        rw [getD_set_self _ _ _ _ (by rw [hInv.hbl]; exact hvlt), h0]
      rw [hb, h2ndv, h0]
    exact ⟨hgo.inv, ⟨ext ++ [v], by rw [hstk2]; simp⟩, ⟨pre, by rw [hcomps2]⟩,
      hndPres, h2ndv, hbackPres, hwt, fun h0 => (hd0 h0).elim⟩

theorem scInv_setback (nn : Nat) (st : SccSt) (v : Nat) (x : Option Nat)
    (hInv : ScInv nn st) : ScInv nn { st with back := st.back.set v x } :=
  ⟨hInv.hnl, by simpa using hInv.hbl, hInv.hnd, hInv.hiff⟩

/-- Transporting the loop postcondition back over a visited-successor
`back`-update step. -/
theorem go_step_vis (adj : List (List Nat)) (nn v w : Nat) (st st3 : SccSt)
    (hInv : ScInv nn st) (hvisv : st.ndepth.getD v none ≠ none)
    (hgo3 : GoPost adj nn v
      { st with back :=
          st.back.set v (minOpt (st.back.getD w none) (st.back.getD v none)) }
      st3) :
    GoPost adj nn v st st3 := by
  have hvlt : v < nn := vis_lt nn st hInv v hvisv
  obtain ⟨ext, hstk⟩ := hgo3.hstk
  obtain ⟨pre, hcomps⟩ := hgo3.hcomps
  refine ⟨hgo3.inv, ⟨ext, hstk⟩, ⟨pre, hcomps⟩,
    fun u hu => hgo3.ndepthPres u hu, ?_, ?_, hgo3.wt⟩
  · intro u hu huv
    rw [hgo3.backPres u hu huv]
    exact getD_set_ne _ _ _ _ _ (fun h => huv h.symm)
  · intro h0
    apply hgo3.backV0
    show (st.back.set v (minOpt (st.back.getD w none) (st.back.getD v none))).getD
      v none = some 0
    rw [getD_set_self _ _ _ _ (by rw [hInv.hbl]; exact hvlt), h0, minOpt_zero]

/-- Transporting the loop postcondition back over an unvisited-successor
recursion step. -/
theorem go_step_unvis (adj : List (List Nat)) (nn v w dw : Nat)
    (st stw st3 : SccSt)
    (hInv : ScInv nn st) (hvisv : st.ndepth.getD v none ≠ none)
    (hsc : ScPost adj nn w dw st stw)
    (hgo3 : GoPost adj nn v
      { stw with back :=
          stw.back.set v (minOpt (stw.back.getD w none) (stw.back.getD v none)) }
      st3) :
    GoPost adj nn v st st3 := by
  have hvlt : v < nn := vis_lt nn st hInv v hvisv
  obtain ⟨ext2, hstk3⟩ := hgo3.hstk
  obtain ⟨pre2, hcomps3⟩ := hgo3.hcomps
  obtain ⟨ext, hstkw⟩ := hsc.hstk
  obtain ⟨pre, hcompsw⟩ := hsc.hcomps
  have hstk3' : st3.stk = ext2 ++ stw.stk := hstk3
  have hcomps3' : st3.comps = stw.comps ++ pre2 := hcomps3
  have hndP : ∀ u, st.ndepth.getD u none ≠ none →
      st3.ndepth.getD u none = st.ndepth.getD u none := by
    intro u hu
    have h1 := hsc.ndepthPres u hu
    have h2 : stw.ndepth.getD u none ≠ none := by rw [h1]; exact hu
    have h3 := hgo3.ndepthPres u h2
    rw [h3, h1]
  refine ⟨hgo3.inv, ⟨ext2 ++ ext, by rw [hstk3', hstkw]; simp⟩,
    ⟨pre ++ pre2, by rw [hcomps3', hcompsw]; simp⟩, hndP, ?_, ?_, ?_⟩
  · intro u hu huv
    have h1 := hsc.backPres u hu
    have h2 : stw.ndepth.getD u none ≠ none := by
      rw [hsc.ndepthPres u hu]
      exact hu
    rw [hgo3.backPres u h2 huv]
    show (stw.back.set v (minOpt (stw.back.getD w none) (stw.back.getD v none))).getD
      u none = st.back.getD u none
    rw [getD_set_ne _ _ _ _ _ (fun h => huv h.symm), h1]
  · intro h0
    apply hgo3.backV0
    show (stw.back.set v (minOpt (stw.back.getD w none) (stw.back.getD v none))).getD
      v none = some 0
    rw [getD_set_self _ _ _ _ (by rw [hsc.inv.hbl]; exact hvlt),
      hsc.backPres v hvisv, h0, minOpt_zero]
  · have h1 : scWeight adj nn
        { stw with back :=
          stw.back.set v (minOpt (stw.back.getD w none) (stw.back.getD v none)) } =
        scWeight adj nn stw := rfl
    have h2 := hgo3.wt
    have h3 := hsc.wt
    omega

/-- The central mutual induction: with fuel at least the remaining work,
`sc` satisfies `ScPost` on any unvisited node and `scGo` satisfies
`GoPost` on any visited node and in-range successor list. -/
theorem sc_scGo_spec (adj : List (List Nat)) (nn : Nat)
    (hadj : ∀ u w, w ∈ adj.getD u [] → w < nn) :
    ∀ fuel : Nat,
      (∀ v depth st, ScInv nn st → st.ndepth.getD v none = none → v < nn →
        scWeight adj nn st + 1 ≤ fuel →
        ScPost adj nn v depth st (sc adj fuel v depth st)) ∧
      (∀ ws v depth st, ScInv nn st → st.ndepth.getD v none ≠ none →
        (∀ w ∈ ws, w < nn) →
        scWeight adj nn st + ws.length + 1 ≤ fuel →
        GoPost adj nn v st (scGo adj fuel ws v depth st)) := by
  intro fuel
  induction fuel with
  | zero =>
    constructor
    · intro v depth st _ _ _ hf
      exact absurd hf (by omega)
    · intro ws v depth st _ _ _ hf
      exact absurd hf (by omega)
  | succ f ihf =>
    obtain ⟨ihsc, ihgo⟩ := ihf
    constructor
    · -- sc at fuel f+1
      intro v depth st hInv hvis hvlt hfuel
      have hvnotstk : v ∉ st.stk := fun h => (hInv.hiff v).mpr (Or.inl h) hvis
      have hvnotfl : v ∉ st.comps.flatten := fun h => (hInv.hiff v).mpr (Or.inr h) hvis
      have hInv1 : ScInv nn (⟨v :: st.stk, st.ndepth.set v (some depth),
          st.back.set v (some depth), st.comps⟩ : SccSt) := by
        refine ⟨by simpa using hInv.hnl, by simpa using hInv.hbl, ?_, ?_⟩
        · show (st.comps.flatten ++ v :: st.stk).Nodup
          have h0 := hInv.hnd
          rw [List.nodup_append] at h0 ⊢
          obtain ⟨hA, hS, hD⟩ := h0
          refine ⟨hA, ?_, ?_⟩
          · rw [List.nodup_cons]
            exact ⟨hvnotstk, hS⟩
          · intro a ha hmem
            rcases List.mem_cons.mp hmem with h | h
            · exact hvnotfl (h ▸ ha)
            · exact hD ha h
        · intro u
          by_cases huv : u = v
          · subst huv
            constructor
            · intro _
              exact Or.inl (List.mem_cons_self _ _)
            · intro _
              show (st.ndepth.set u (some depth)).getD u none ≠ none
              rw [getD_set_self _ _ _ _ (by rw [hInv.hnl]; exact hvlt)]
              simp
          · show (st.ndepth.set v (some depth)).getD u none ≠ none ↔
              (u ∈ v :: st.stk ∨ u ∈ st.comps.flatten)
            rw [getD_set_ne _ _ _ _ _ (fun h => huv h.symm), hInv.hiff u]
            simp [List.mem_cons, huv]
      have hwt1 : scWeight adj nn (⟨v :: st.stk, st.ndepth.set v (some depth),
          st.back.set v (some depth), st.comps⟩ : SccSt) + 1 +
          (adj.getD v []).length ≤ scWeight adj nn st := by
        apply scWeight_drop adj nn st _ v ?_ ?_ hvis hvlt
        · intro u hu
          have huv : u ≠ v := fun h => absurd hvis (h ▸ hu)
          show (st.ndepth.set v (some depth)).getD u none ≠ none
          rw [getD_set_ne _ _ _ _ _ (fun h => huv h.symm)]
          exact hu
        · show (st.ndepth.set v (some depth)).getD v none ≠ none
          rw [getD_set_self _ _ _ _ (by rw [hInv.hnl]; exact hvlt)]
          simp
      have hgo := ihgo (adj.getD v []) v depth
        (⟨v :: st.stk, st.ndepth.set v (some depth),
          st.back.set v (some depth), st.comps⟩ : SccSt) hInv1
        (by
          show (st.ndepth.set v (some depth)).getD v none ≠ none
          rw [getD_set_self _ _ _ _ (by rw [hInv.hnl]; exact hvlt)]
          simp)
        (fun w hw => hadj v w hw)
        (by omega)
      rw [sc]
      exact sc_post_assemble adj nn v depth st _ hInv hvis hvlt hgo
    · -- scGo at fuel f+1
      intro ws v depth st hInv hvisv hws hfuel
      cases ws with
      | nil =>
        exact ⟨hInv, ⟨[], rfl⟩, ⟨[], by show st.comps = st.comps ++ []; simp⟩,
          fun u _ => rfl, fun u _ _ => rfl, fun h => h, le_refl _⟩
      | cons w ws' =>
        simp only [List.length_cons] at hfuel
        rw [scGo]
        cases hwv : st.ndepth.getD w none with
        | none =>
          simp only [hwv]
          have hsc := ihsc w (depth + 1) st hInv hwv (hws w (by simp)) (by omega)
          have hInv' : ScInv nn
              { sc adj f w (depth + 1) st with back := (sc adj f w (depth + 1) st).back.set v (minOpt ((sc adj f w (depth + 1) st).back.getD w none) ((sc adj f w (depth + 1) st).back.getD v none)) } :=
            scInv_setback nn _ v _ hsc.inv
          have hvis' : ({ sc adj f w (depth + 1) st with back := (sc adj f w (depth + 1) st).back.set v (minOpt ((sc adj f w (depth + 1) st).back.getD w none) ((sc adj f w (depth + 1) st).back.getD v none)) } :
              SccSt).ndepth.getD v none ≠ none := by
            show (sc adj f w (depth + 1) st).ndepth.getD v none ≠ none
            rw [hsc.ndepthPres v hvisv]
            exact hvisv
          have hweq : scWeight adj nn
              { sc adj f w (depth + 1) st with back := (sc adj f w (depth + 1) st).back.set v (minOpt ((sc adj f w (depth + 1) st).back.getD w none) ((sc adj f w (depth + 1) st).back.getD v none)) } =
              scWeight adj nn (sc adj f w (depth + 1) st) := rfl
          have hwt := hsc.wt
          have hgo3 := ihgo ws' v depth _ hInv' hvis'
            (fun x hx => hws x (by simp [hx])) (by omega)
          exact go_step_unvis adj nn v w (depth + 1) st _ _ hInv hvisv hsc hgo3
        | some d =>
          simp only [hwv]
          by_cases hwstk : w ∈ st.stk
          · rw [if_pos hwstk]
            have hInv' : ScInv nn
                { st with back := st.back.set v (minOpt (st.back.getD w none) (st.back.getD v none)) } :=
              scInv_setback nn st v _ hInv
            have hweq : scWeight adj nn
                { st with back := st.back.set v (minOpt (st.back.getD w none) (st.back.getD v none)) } =
                scWeight adj nn st := rfl
            have hgo3 := ihgo ws' v depth _ hInv' hvisv
              (fun x hx => hws x (by simp [hx])) (by omega)
            exact go_step_vis adj nn v w st _ hInv hvisv hgo3
          · rw [if_neg hwstk]
            exact ihgo ws' v depth st hInv hvisv
              (fun x hx => hws x (by simp [hx])) (by omega)

/-- The `for v in range(len(i2n))` driver: invariant preservation, empty
final stack (the depth-0 pop always fires), and every listed node visited. -/
theorem sccDriver_spec (adj : List (List Nat)) (nn : Nat)
    (hadj : ∀ u w, w ∈ adj.getD u [] → w < nn) :
    ∀ (L : List Nat) (st : SccSt), ScInv nn st → st.stk = [] →
      (∀ a ∈ L, a < nn) →
      ScInv nn (L.foldl (fun st v =>
        if st.ndepth.getD v none = none then sc adj (scFuel adj nn) v 0 st else st)
        st) ∧
      (L.foldl (fun st v =>
        if st.ndepth.getD v none = none then sc adj (scFuel adj nn) v 0 st else st)
        st).stk = [] ∧
      (∀ u, st.ndepth.getD u none ≠ none →
        (L.foldl (fun st v =>
          if st.ndepth.getD v none = none then sc adj (scFuel adj nn) v 0 st else st)
          st).ndepth.getD u none ≠ none) ∧
      (∀ a ∈ L,
        (L.foldl (fun st v =>
          if st.ndepth.getD v none = none then sc adj (scFuel adj nn) v 0 st else st)
          st).ndepth.getD a none ≠ none) := by
  intro L
  induction L with
  | nil =>
    intro st hInv hstk _
    exact ⟨hInv, hstk, fun u hu => hu, by simp⟩
  | cons a L ih =>
    intro st hInv hstk hlt
    rw [List.foldl_cons]
    by_cases ha : st.ndepth.getD a none = none
    · rw [if_pos ha]
      have hfuel : scWeight adj nn st + 1 ≤ scFuel adj nn := by
        have := scWeight_le_total adj nn st
        unfold scFuel
        omega
      have hpost := (sc_scGo_spec adj nn hadj (scFuel adj nn)).1 a 0 st hInv ha
        (hlt a (by simp)) hfuel
      have hstk' : (sc adj (scFuel adj nn) a 0 st).stk = [] := by
        rw [hpost.pop0 rfl, hstk]
      obtain ⟨hi, hs, hm, hall⟩ := ih (sc adj (scFuel adj nn) a 0 st) hpost.inv hstk'
        (fun x hx => hlt x (by simp [hx]))
      refine ⟨hi, hs, ?_, ?_⟩
      · intro u hu
        apply hm
        rw [hpost.ndepthPres u hu]
        exact hu
      · intro x hx
        rcases List.mem_cons.mp hx with h | h
        · subst h
          apply hm
          rw [hpost.ndepthV]
          simp
        · exact hall x h
    · rw [if_neg ha]
      obtain ⟨hi, hs, hm, hall⟩ := ih st hInv hstk (fun x hx => hlt x (by simp [hx]))
      refine ⟨hi, hs, hm, ?_⟩
      intro x hx
      rcases List.mem_cons.mp hx with h | h
      · subst h
        exact hm x ha
      · exact hall x h

/-- `sccMain` outputs pairwise-disjoint components that exactly cover
`0 .. nn-1`, with an empty final stack. -/
theorem sccMain_partition (adj : List (List Nat)) (nn : Nat)
    (hadj : ∀ u w, w ∈ adj.getD u [] → w < nn) :
    (sccMain adj nn).comps.flatten.Nodup ∧
    (∀ u, u ∈ (sccMain adj nn).comps.flatten ↔ u < nn) := by
  have hInv0 : ScInv nn (⟨[], List.replicate nn none,
      List.replicate nn none, []⟩ : SccSt) := by
    refine ⟨by simp, by simp, by simp, ?_⟩
    intro u
    show (List.replicate nn (none : Option Nat)).getD u none ≠ none ↔ _
    rw [getD_replicate]
    simp
  obtain ⟨hInvF, hstkF, _, hall⟩ :=
    sccDriver_spec adj nn hadj (List.range nn)
      ⟨[], List.replicate nn none, List.replicate nn none, []⟩ hInv0 rfl
      (by simp)
  constructor
  · have h1 := hInvF.hnd
    rw [hstkF, List.append_nil] at h1
    exact h1
  · intro u
    constructor
    · intro hu
      exact vis_lt nn _ hInvF u ((hInvF.hiff u).mpr (Or.inr hu))
    · intro hu
      have hv := hall u (by simpa using hu)
      rcases (hInvF.hiff u).mp hv with h | h
      · rw [hstkF] at h
        cases h
      · exact h

theorem getD_range (n i : Nat) (h : i < n) : (List.range n).getD i 0 = i := by
  rw [List.getD_eq_getElem _ _ (by simpa using h)]
  simp

theorem n2iOf_lt (nodesL : List Nat) (w : Nat) (h : w ∈ nodesL) :
    n2iOf nodesL w < nodesL.length := by
  unfold n2iOf
  exact List.findIdx_lt_length_of_exists ⟨w, h, by simp⟩

theorem adjRowOut_lt (G : MDiGraph) (exclude nodesL : List Nat) (v : Nat) :
    ∀ x ∈ adjRowOut G exclude nodesL v, x < nodesL.length := by
  unfold adjRowOut
  suffices h : ∀ (L : List (Nat × Nat × Nat)) (acc : List Nat × List Nat),
      (∀ x ∈ acc.2, x < nodesL.length) →
      ∀ x ∈ (L.foldl (fun (p : List Nat × List Nat) e =>
        let suc := e.2.2
        if suc ∈ p.1 then p
        else if suc ∈ nodesL ∧ e.1 ∉ exclude then
          (suc :: p.1, p.2 ++ [n2iOf nodesL suc])
        else p) acc).2, x < nodesL.length by
    exact h (MDiGraph.outEdgesOf G v) ([], []) (by simp)
  intro L
  induction L with
  | nil =>
    intro acc hacc x hx
    exact hacc x hx
  | cons e L ih =>
    intro acc hacc x hx
    rw [List.foldl_cons] at hx
    apply ih _ ?_ x hx
    intro y hy
    by_cases h1 : e.2.2 ∈ acc.1
    · simp only [if_pos h1] at hy
      exact hacc y hy
    · simp only [if_neg h1] at hy
      by_cases h2 : e.2.2 ∈ nodesL ∧ e.1 ∉ exclude
      · simp only [if_pos h2] at hy
        rcases List.mem_append.mp hy with h | h
        · exact hacc y h
        · rw [List.mem_singleton] at h
          subst h
          exact n2iOf_lt nodesL e.2.2 h2.1
      · simp only [if_neg h2] at hy
        exact hacc y hy

set_option maxHeartbeats 1000000 in
/-- C2 (amended): `scc_collect` partitions the node set — every node lies
in exactly one returned SCC.  The returned `sccOrder`, however, respects
only the RECORDED condensation edges: the `done`-flag loops of
`scc_calculation_order` record, for each SCC `i`, only the first SCC `j`
(in ascending index order) whose out-edges meet `i`'s in-edges, and that
recorded predecessor is placed in a strictly earlier level; the remaining
condensation edges are dropped and carry no ordering guarantee. -/
theorem scc_collect_amended (G : MDiGraph)
    (r : List (List Nat) × List (List Nat) × List (List Nat) × List (List Nat))
    (h : scc_collect G none = .ok r) :
    SccPartition G r.1 ∧
    (∀ li, li < r.2.2.1.length → ∀ i ∈ r.2.2.1.getD li [], ∀ j,
      firstMatchScc
        ((r.1.map (fun nset => sub_graph_edges G nset)).map (fun t => t.2.2))
        (((r.1.map (fun nset => sub_graph_edges G nset)).map
          (fun t => t.2.1)).getD i [])
        r.1.length = some j →
      ∃ lj, lj < li ∧ j ∈ r.2.2.1.getD lj []) := by
  have hadj : ∀ u w, w ∈ ((List.range G.n).map
      (adjRowOut G [] (List.range G.n))).getD u [] →
      w < (List.range G.n).length := by
    intro u w hw
    rcases Nat.lt_or_ge u
        ((List.range G.n).map (adjRowOut G [] (List.range G.n))).length with hu | hu
    · rw [List.getD_eq_getElem _ _ hu, List.getElem_map] at hw
      exact adjRowOut_lt G [] (List.range G.n) _ w hw
    · rw [List.getD_eq_default] at hw
      · cases hw
      · exact hu
  have hpart := sccMain_partition
    ((List.range G.n).map (adjRowOut G [] (List.range G.n)))
    (List.range G.n).length hadj
  have hmapid : (sccMain ((List.range G.n).map (adjRowOut G [] (List.range G.n)))
      (List.range G.n).length).comps.map
        (fun comp => comp.map (fun w => (List.range G.n).getD w 0)) =
      (sccMain ((List.range G.n).map (adjRowOut G [] (List.range G.n)))
        (List.range G.n).length).comps := by
    have hid : ∀ comp ∈ (sccMain ((List.range G.n).map
        (adjRowOut G [] (List.range G.n))) (List.range G.n).length).comps,
        comp.map (fun w => (List.range G.n).getD w 0) = id comp := by
      intro comp hcomp
      show comp.map (fun w => (List.range G.n).getD w 0) = comp
      conv_rhs => rw [← List.map_id comp]
      apply List.map_congr_left
      intro w hw
      have hwin : w ∈ (sccMain ((List.range G.n).map
          (adjRowOut G [] (List.range G.n))) (List.range G.n).length).comps.flatten :=
        List.mem_flatten.mpr ⟨comp, hcomp, hw⟩
      have hlt : w < G.n := by
        have := (hpart.2 w).mp hwin
        simpa using this
      exact getD_range G.n w hlt
    rw [List.map_congr_left hid, List.map_id]
  obtain ⟨o, hoeq, _, _, hlev⟩ := scc_calculation_order_spec
    ((sccMain ((List.range G.n).map (adjRowOut G [] (List.range G.n)))
      (List.range G.n).length).comps.map
        (fun comp => comp.map (fun w => (List.range G.n).getD w 0)))
    ((((sccMain ((List.range G.n).map (adjRowOut G [] (List.range G.n)))
      (List.range G.n).length).comps.map
        (fun comp => comp.map (fun w => (List.range G.n).getD w 0))).map
      (fun nset => sub_graph_edges G nset)).map (fun t => t.2.1))
    ((((sccMain ((List.range G.n).map (adjRowOut G [] (List.range G.n)))
      (List.range G.n).length).comps.map
        (fun comp => comp.map (fun w => (List.range G.n).getD w 0))).map
      (fun nset => sub_graph_edges G nset)).map (fun t => t.2.2))
  have h2 : (match scc_calculation_order
      ((sccMain ((List.range G.n).map (adjRowOut G [] (List.range G.n)))
        (List.range G.n).length).comps.map
          (fun comp => comp.map (fun w => (List.range G.n).getD w 0)))
      ((((sccMain ((List.range G.n).map (adjRowOut G [] (List.range G.n)))
        (List.range G.n).length).comps.map
          (fun comp => comp.map (fun w => (List.range G.n).getD w 0))).map
        (fun nset => sub_graph_edges G nset)).map (fun t => t.2.1))
      ((((sccMain ((List.range G.n).map (adjRowOut G [] (List.range G.n)))
        (List.range G.n).length).comps.map
          (fun comp => comp.map (fun w => (List.range G.n).getD w 0))).map
        (fun nset => sub_graph_edges G nset)).map (fun t => t.2.2)) with
    | Except.error e => (Except.error e :
        Except String (List (List Nat) × List (List Nat) × List (List Nat) ×
          List (List Nat)))
    | Except.ok so => Except.ok
        ((sccMain ((List.range G.n).map (adjRowOut G [] (List.range G.n)))
          (List.range G.n).length).comps.map
            (fun comp => comp.map (fun w => (List.range G.n).getD w 0)),
          (((sccMain ((List.range G.n).map (adjRowOut G [] (List.range G.n)))
            (List.range G.n).length).comps.map
              (fun comp => comp.map (fun w => (List.range G.n).getD w 0))).map
            (fun nset => sub_graph_edges G nset)).map (fun t => t.1),
          so,
          (((sccMain ((List.range G.n).map (adjRowOut G [] (List.range G.n)))
            (List.range G.n).length).comps.map
              (fun comp => comp.map (fun w => (List.range G.n).getD w 0))).map
            (fun nset => sub_graph_edges G nset)).map (fun t => t.2.2))) =
      Except.ok r := h
  rw [hoeq] at h2
  have h3 : Except.ok
      ((sccMain ((List.range G.n).map (adjRowOut G [] (List.range G.n)))
        (List.range G.n).length).comps.map
          (fun comp => comp.map (fun w => (List.range G.n).getD w 0)),
        (((sccMain ((List.range G.n).map (adjRowOut G [] (List.range G.n)))
          (List.range G.n).length).comps.map
            (fun comp => comp.map (fun w => (List.range G.n).getD w 0))).map
          (fun nset => sub_graph_edges G nset)).map (fun t => t.1),
        o,
        (((sccMain ((List.range G.n).map (adjRowOut G [] (List.range G.n)))
          (List.range G.n).length).comps.map
            (fun comp => comp.map (fun w => (List.range G.n).getD w 0))).map
          (fun nset => sub_graph_edges G nset)).map (fun t => t.2.2)) =
      Except.ok r := h2
  injection h3 with h4
  subst h4
  constructor
  · intro v hv
    show ((sccMain ((List.range G.n).map (adjRowOut G [] (List.range G.n)))
      (List.range G.n).length).comps.map
        (fun comp => comp.map (fun w => (List.range G.n).getD w 0))).flatten.count
          v = 1
    rw [hmapid]
    exact List.count_eq_one_of_mem hpart.1
      ((hpart.2 v).mpr (by simpa using hv))
  · intro li hli i hi j hfm
    exact hlev li hli i hi j hfm

/-- Witness for the amended C2 theorem on the 2-node, 1-edge graph. -/
theorem scc_collect_amended_witness :
    SccPartition ⟨2, [(0, 1)]⟩
      (([[1], [0]], [[], []], [[1], [0]], [[], [0]]) :
        List (List Nat) × List (List Nat) × List (List Nat) ×
          List (List Nat)).1 ∧
    (∀ li, li < (([[1], [0]], [[], []], [[1], [0]], [[], [0]]) :
        List (List Nat) × List (List Nat) × List (List Nat) ×
          List (List Nat)).2.2.1.length →
      ∀ i ∈ (([[1], [0]], [[], []], [[1], [0]], [[], [0]]) :
        List (List Nat) × List (List Nat) × List (List Nat) ×
          List (List Nat)).2.2.1.getD li [], ∀ j,
      firstMatchScc
        (((([[1], [0]], [[], []], [[1], [0]], [[], [0]]) :
          List (List Nat) × List (List Nat) × List (List Nat) ×
            List (List Nat)).1.map
          (fun nset => sub_graph_edges ⟨2, [(0, 1)]⟩ nset)).map (fun t => t.2.2))
        ((((([[1], [0]], [[], []], [[1], [0]], [[], [0]]) :
          List (List Nat) × List (List Nat) × List (List Nat) ×
            List (List Nat)).1.map
          (fun nset => sub_graph_edges ⟨2, [(0, 1)]⟩ nset)).map
            (fun t => t.2.1)).getD i [])
        (([[1], [0]], [[], []], [[1], [0]], [[], [0]]) :
          List (List Nat) × List (List Nat) × List (List Nat) ×
            List (List Nat)).1.length = some j →
      ∃ lj, lj < li ∧ j ∈ (([[1], [0]], [[], []], [[1], [0]], [[], [0]]) :
        List (List Nat) × List (List Nat) × List (List Nat) ×
          List (List Nat)).2.2.1.getD lj []) :=
  scc_collect_amended ⟨2, [(0, 1)]⟩
    ([[1], [0]], [[], []], [[1], [0]], [[], [0]]) rfl

/-!
## `all_cycles`: basic facts

Membership and distinctness of the multi-adjacency rows, walk/arm
conversions, the unmark loops, and the depth potential.
-/

theorem mem_adjRowOutMulti (G : MDiGraph) (v si key : Nat) :
    (si, key) ∈ adjRowOutMulti G v ↔
      key < G.edges.length ∧ G.edges.getD key (0, 0) = (v, si) := by
  unfold adjRowOutMulti MDiGraph.outEdgesOf
  rw [List.mem_map]
  constructor
  · rintro ⟨e, he, heq⟩
    rw [List.mem_filter] at he
    have h1 : G.edges[e.1]? = some e.2 := List.mem_enum_iff_getElem?.mp he.1
    have h2 : e.2.1 = v := by simpa using he.2
    have hkey : e.1 = key := congrArg Prod.snd heq
    have hsi : e.2.2 = si := congrArg Prod.fst heq
    have hlt : e.1 < G.edges.length := by
      by_contra hge
      rw [List.getElem?_eq_none (by omega)] at h1
      cases h1
    have h3 : G.edges.getD e.1 (0, 0) = e.2 := by
      rw [List.getD_eq_getElem _ _ hlt]
      have h4 : G.edges[e.1]? = some G.edges[e.1] := List.getElem?_eq_getElem hlt
      rw [h4] at h1
      injection h1
    rw [← hkey, ← hsi, ← h2]
    exact ⟨hlt, by rw [h3]⟩
  · rintro ⟨hlt, heq⟩
    refine ⟨(key, (v, si)), ?_, rfl⟩
    rw [List.mem_filter]
    constructor
    · apply List.mem_enum_iff_getElem?.mpr
      show G.edges[key]? = some (v, si)
      rw [List.getElem?_eq_getElem hlt, List.getD_eq_getElem _ _ hlt] at *
      rw [heq]
    · simp

theorem adjRowOutMulti_nodup (G : MDiGraph) (v : Nat) :
    (adjRowOutMulti G v).Nodup := by
  unfold adjRowOutMulti
  have h1 : G.edges.enum.Nodup := by
    apply List.Nodup.of_map Prod.fst
    rw [List.enum_map_fst]
    exact List.nodup_range _
  apply List.Nodup.map_on ?_ (h1.filter _)
  intro x hx y hy hxy
  rw [List.mem_filter] at hx hy
  have hk : x.1 = y.1 := congrArg Prod.snd hxy
  have h2 : G.edges[x.1]? = some x.2 := List.mem_enum_iff_getElem?.mp hx.1
  have h3 : G.edges[y.1]? = some y.2 := List.mem_enum_iff_getElem?.mp hy.1
  rw [hk] at h2
  rw [h2] at h3
  have h4 : x.2 = y.2 := by
    injection h3 with h5
  have := Prod.ext hk h4
  exact this

theorem adjRowOutMulti_tgt_lt (G : MDiGraph) (hwf : MDiGraph.WF G) (v : Nat) :
    ∀ p ∈ adjRowOutMulti G v, p.1 < G.n := by
  rintro ⟨si, key⟩ hp
  obtain ⟨hlt, heq⟩ := (mem_adjRowOutMulti G v si key).mp hp
  have hmem : (v, si) ∈ G.edges := by
    rw [← heq, List.getD_eq_getElem _ _ hlt]
    exact List.getElem_mem hlt
  exact (hwf _ hmem).2

theorem EscTo_mono (G : MDiGraph) (ni : Nat) (S S' : List Nat)
    (hsub : ∀ x ∈ S, x ∈ S') (u : Nat) (h : EscTo G ni S' u) : EscTo G ni S u := by
  induction h with
  | close v k hedge => exact EscTo.close v k hedge
  | step v w k hedge hgt hnS _ ih =>
    exact EscTo.step v w k hedge hgt (fun hw => hnS (hsub w hw)) ih

theorem Arm_congr (G : MDiGraph) (ni : Nat) :
    ∀ (q : List (Nat × Nat)) (S S' : List Nat) (v : Nat),
      (∀ x, x ∈ S ↔ x ∈ S') → Arm G ni S v q → Arm G ni S' v q := by
  intro q
  induction q with
  | nil =>
    intro S S' v _ h
    cases h
  | cons e qt ih =>
    intro S S' v hiff h
    cases h with
    | close _ _ k hedge => exact Arm.close S' v k hedge
    | step _ _ w k _ hedge hgt hnS ht =>
      exact Arm.step S' v w k qt hedge hgt (fun hw => hnS ((hiff w).mpr hw))
        (ih (w :: S) (w :: S') w (by simp [hiff]) ht)

theorem Arm_escTo (G : MDiGraph) (ni : Nat) :
    ∀ (q : List (Nat × Nat)) (S : List Nat) (v : Nat),
      Arm G ni S v q → EscTo G ni S v := by
  intro q
  induction q with
  | nil =>
    intro S v h
    cases h
  | cons e qt ih =>
    intro S v h
    cases h with
    | close _ _ k hedge => exact EscTo.close v k hedge
    | step _ _ w k _ hedge hgt hnS ht =>
      refine EscTo.step v w k hedge hgt hnS ?_
      exact EscTo_mono G ni S (w :: S) (fun x hx => List.mem_cons_of_mem _ hx) w
        (ih (w :: S) w ht)

theorem getD_set_false (m : List Bool) (i : Nat) :
    (m.set i false).getD i false = false := by
  rcases Nat.lt_or_ge i m.length with h | h
  · rw [getD_set_self _ _ _ _ h]
  · rw [List.set_eq_of_length_le (by omega), List.getD_eq_default]
    omega

theorem popMark_spec (v : Nat) :
    ∀ (A old : List Nat) (mark : List Bool), v ∉ A →
      (popMark v (A ++ v :: old) mark).1 = old ∧
      (∀ u, (popMark v (A ++ v :: old) mark).2.getD u false =
        if u ∈ A ∨ u = v then false else mark.getD u false) := by
  intro A
  induction A with
  | nil =>
    intro old mark _
    rw [List.nil_append, popMark, if_pos rfl]
    refine ⟨rfl, ?_⟩
    intro u
    by_cases hu : u = v
    · subst hu
      rw [if_pos (Or.inr rfl)]
      exact getD_set_false mark u
    · rw [if_neg (by simp [hu]), getD_set_ne _ _ _ _ _ (fun h => hu h.symm)]
  | cons a A ih =>
    intro old mark hv
    have hav : a ≠ v := fun h => hv (h ▸ List.mem_cons_self a A)
    have hvA : v ∉ A := fun h => hv (List.mem_cons_of_mem _ h)
    rw [List.cons_append, popMark, if_neg hav]
    obtain ⟨h1, h2⟩ := ih old (mark.set a false) hvA
    refine ⟨h1, ?_⟩
    intro u
    rw [h2 u]
    by_cases hu1 : u ∈ A ∨ u = v
    · have hbig : u ∈ a :: A ∨ u = v := by
        rcases hu1 with h | h
        · exact Or.inl (List.mem_cons_of_mem _ h)
        · exact Or.inr h
      rw [if_pos hu1, if_pos hbig]
    · by_cases hu2 : u = a
      · subst hu2
        rw [if_neg hu1, if_pos (Or.inl (List.mem_cons_self _ _))]
        exact getD_set_false mark u
      · have hbig : ¬(u ∈ a :: A ∨ u = v) := by
          rintro (h | h)
          · rcases List.mem_cons.mp h with h | h
            · exact hu2 h
            · exact hu1 (Or.inl h)
          · exact hu1 (Or.inr h)
        rw [if_neg hu1, if_neg hbig, getD_set_ne _ _ _ _ _ (fun h => hu2 h.symm)]

theorem drain_spec :
    ∀ (L : List Nat) (m : List Bool) (u : Nat),
      (L.foldl (fun m i => m.set i false) m).getD u false =
        if u ∈ L then false else m.getD u false := by
  intro L
  induction L with
  | nil =>
    intro m u
    simp
  | cons a L ih =>
    intro m u
    rw [List.foldl_cons, ih]
    by_cases hu : u ∈ L
    · rw [if_pos hu, if_pos (by simp [hu])]
    · by_cases hua : u = a
      · subst hua
        rw [if_neg hu, if_pos (by simp), getD_set_false]
      · rw [if_neg hu, if_neg (by simp [hua, hu]),
          getD_set_ne _ _ _ _ _ (fun h => hua h.symm)]

theorem cycPot_congr (G : MDiGraph) (S S' : List Nat)
    (h : ∀ x, x ∈ S ↔ x ∈ S') : cycPot G S = cycPot G S' := by
  unfold cycPot
  congr 1
  apply Finset.filter_congr
  intro x _
  simp [h x]

theorem cycPot_push (G : MDiGraph) (S : List Nat) (v : Nat) (hv : v < G.n)
    (hvS : v ∉ S) :
    cycPot G (v :: S) + 1 + (adjRowOutMulti G v).length ≤ cycPot G S := by
  have hvmem : v ∈ (Finset.range G.n).filter (fun u => u ∉ S) := by
    rw [Finset.mem_filter, Finset.mem_range]
    exact ⟨hv, by simpa using hvS⟩
  have hsub : (Finset.range G.n).filter (fun u => u ∉ v :: S) ⊆
      ((Finset.range G.n).filter (fun u => u ∉ S)).erase v := by
    intro u hu
    rw [Finset.mem_filter] at hu
    rw [Finset.mem_erase, Finset.mem_filter]
    have hu2 : u ∉ v :: S := by simpa using hu.2
    refine ⟨fun h => hu2 (h ▸ List.mem_cons_self v S), hu.1, ?_⟩
    exact fun h => hu2 (List.mem_cons_of_mem _ h)
  have h1 : cycPot G (v :: S) ≤
      Finset.sum (((Finset.range G.n).filter (fun u => u ∉ S)).erase v)
        (fun u => 1 + (adjRowOutMulti G u).length) :=
    Finset.sum_le_sum_of_subset hsub
  have h2 : Finset.sum (((Finset.range G.n).filter (fun u => u ∉ S)).erase v)
      (fun u => 1 + (adjRowOutMulti G u).length) +
      (1 + (adjRowOutMulti G v).length) = cycPot G S := by
    unfold cycPot
    rw [Finset.sum_erase_add _ _ hvmem]
  omega

theorem sum_outdeg_le (G : MDiGraph) :
    Finset.sum (Finset.range G.n) (fun u => (adjRowOutMulti G u).length) ≤
      G.edges.length := by
  have key : ∀ (L : List (Nat × (Nat × Nat))),
      Finset.sum (Finset.range G.n)
        (fun u => (L.filter (fun p => p.2.1 = u)).length) ≤ L.length := by
    intro L
    induction L with
    | nil => simp
    | cons e L ih =>
      have hstep : ∀ u, ((e :: L).filter (fun p => p.2.1 = u)).length =
          (L.filter (fun p => p.2.1 = u)).length +
          (if e.2.1 = u then 1 else 0) := by
        intro u
        by_cases h : e.2.1 = u
        · rw [if_pos h, List.filter_cons, if_pos (by simpa using h)]
          simp [Nat.add_comm]
        · rw [if_neg h, List.filter_cons, if_neg (by simpa using h)]
          simp
      rw [Finset.sum_congr rfl (fun u _ => hstep u), Finset.sum_add_distrib]
      have h2 : Finset.sum (Finset.range G.n)
          (fun u => if e.2.1 = u then 1 else 0) ≤ 1 := by
        have h3 : Finset.sum (Finset.range G.n)
            (fun u => if e.2.1 = u then 1 else 0) =
            Finset.sum (Finset.range G.n)
              (fun u => if u = e.2.1 then 1 else 0) := by
          apply Finset.sum_congr rfl
          intro u _
          by_cases h : e.2.1 = u
          · rw [if_pos h, if_pos h.symm]
          · rw [if_neg h, if_neg (fun hc => h hc.symm)]
        rw [h3, Finset.sum_ite_eq' (Finset.range G.n) e.2.1 (fun _ => 1)]
        split <;> omega
      rw [List.length_cons]
      omega
  have h4 : ∀ u, (adjRowOutMulti G u).length =
      (G.edges.enum.filter (fun p => p.2.1 = u)).length := by
    intro u
    unfold adjRowOutMulti MDiGraph.outEdgesOf
    rw [List.length_map]
  calc Finset.sum (Finset.range G.n) (fun u => (adjRowOutMulti G u).length)
      = Finset.sum (Finset.range G.n)
          (fun u => (G.edges.enum.filter (fun p => p.2.1 = u)).length) :=
        Finset.sum_congr rfl (fun u _ => h4 u)
    _ ≤ G.edges.enum.length := key G.edges.enum
    _ = G.edges.length := List.enum_length

theorem bool_eq_of_iff (a b : Bool) (h : a = true ↔ b = true) : a = b := by
  cases a <;> cases b <;> simp_all

theorem popMark_length (v : Nat) :
    ∀ (L : List Nat) (m : List Bool), (popMark v L m).2.length = m.length := by
  intro L
  induction L with
  | nil =>
    intro m
    rfl
  | cons a L ih =>
    intro m
    rw [popMark]
    by_cases h : a = v
    · rw [if_pos h]
      simp [h]
    · rw [if_neg h, ih]
      simp

/-- Pushing `v` onto the traversal state preserves the invariant. -/
theorem cInv_push (G : MDiGraph) (ni v : Nat) (preKey : Option Nat) (st : CycSt)
    (hInv : CInv G ni st) (hvm : st.mark.getD v false = false) (hvn : v < G.n) :
    CInv G ni (⟨st.adj, st.pointStack ++ [(v, preKey)], v :: st.markStack,
      st.mark.set v true, st.cycles⟩ : CycSt) := by
  have hvms : v ∉ st.markStack := fun h => by
    rw [(hInv.markiff v).mpr h] at hvm
    cases hvm
  refine ⟨hInv.adjsub, hInv.adjret, hInv.adjnd, by simpa using hInv.marklen,
    ?_, ?_, ?_, ?_, ?_⟩
  · intro u
    by_cases huv : u = v
    · subst huv
      show (st.mark.set u true).getD u false = true ↔ _
      rw [getD_set_self _ _ _ _ (by rw [hInv.marklen]; exact hvn)]
      simp
    · show (st.mark.set v true).getD u false = true ↔ _
      rw [getD_set_ne _ _ _ _ _ (fun h => huv h.symm), hInv.markiff u]
      simp [huv]
  · exact List.nodup_cons.mpr ⟨hvms, hInv.msnd⟩
  · intro u hu
    rcases List.mem_cons.mp hu with h | h
    · subst h
      exact hvn
    · exact hInv.mslt u h
  · intro u hu
    show u ∈ v :: st.markStack
    rw [List.map_append] at hu
    rcases List.mem_append.mp hu with h | h
    · exact List.mem_cons_of_mem _ (hInv.stacksub u h)
    · rcases List.mem_singleton.mp (by simpa using h) with h
      simp [h]
  · intro u hu hustk hesc
    show False
    have huv : u ≠ v := by
      intro h
      subst h
      apply hustk
      rw [List.map_append]
      simp
    have hum : st.mark.getD u false = true := by
      have := hu
      rwa [show (⟨st.adj, st.pointStack ++ [(v, preKey)], v :: st.markStack,
        st.mark.set v true, st.cycles⟩ : CycSt).mark = st.mark.set v true from rfl,
        getD_set_ne _ _ _ _ _ (fun h => huv h.symm)] at this
    have hup : u ∉ st.pointStack.map Prod.fst := by
      intro h
      apply hustk
      rw [show (⟨st.adj, st.pointStack ++ [(v, preKey)], v :: st.markStack,
        st.mark.set v true, st.cycles⟩ : CycSt).pointStack =
          st.pointStack ++ [(v, preKey)] from rfl, List.map_append]
      exact List.mem_append.mpr (Or.inl h)
    apply hInv.blocked u hum hup
    apply EscTo_mono G ni (st.pointStack.map Prod.fst)
      ((st.pointStack ++ [(v, preKey)]).map Prod.fst) ?_ u
    · exact hesc
    · intro x hx
      rw [List.map_append]
      exact List.mem_append.mpr (Or.inl hx)

/-- Assembling the `backtrack` postcondition from the successor-loop
postcondition on the pushed state: on success the unmark loop restores
the marks exactly; on failure the freshly marked block is soundly
blocked. -/
theorem bt_post_assemble (G : MDiGraph) (ni v : Nat) (preKey : Option Nat)
    (st : CycSt) (f : Bool) (st2 : CycSt)
    (hInv : CInv G ni st) (hvm : st.mark.getD v false = false) (hvn : v < G.n)
    (hgo : CycGoPost G ni v (st.adj.getD v [])
      (⟨st.adj, st.pointStack ++ [(v, preKey)], v :: st.markStack,
        st.mark.set v true, st.cycles⟩ : CycSt) (f, st2)) :
    CycBtPost G ni v preKey st
      (f,
        { (if f = true then
            { st2 with
              markStack := (popMark v st2.markStack st2.mark).1
              mark := (popMark v st2.markStack st2.mark).2 }
          else st2) with
          pointStack := (if f = true then
            { st2 with
              markStack := (popMark v st2.markStack st2.mark).1
              mark := (popMark v st2.markStack st2.mark).2 }
          else st2).pointStack.dropLast }) := by
  have hvms : v ∉ st.markStack := fun h => by
    rw [(hInv.markiff v).mpr h] at hvm
    cases hvm
  have hST1v : (st.mark.set v true).getD v false = true := by
    rw [getD_set_self _ _ _ _ (by rw [hInv.marklen]; exact hvn)]
  have hST1u : ∀ u, u ≠ v → (st.mark.set v true).getD u false = st.mark.getD u false :=
    fun u hu => getD_set_ne _ _ _ _ _ (fun h => hu h.symm)
  have hpstk2 : st2.pointStack = st.pointStack ++ [(v, preKey)] := hgo.pstk
  obtain ⟨A, hms, hfresh, hiff, hsucc⟩ := hgo.marks
  have hms' : st2.markStack = A ++ v :: st.markStack := hms
  have hvnotA : v ∉ A := by
    intro h
    have := hfresh v h
    rw [show (⟨st.adj, st.pointStack ++ [(v, preKey)], v :: st.markStack,
      st.mark.set v true, st.cycles⟩ : CycSt).mark = st.mark.set v true from rfl,
      hST1v] at this
    cases this
  have hAfresh : ∀ a ∈ A, a ≠ v ∧ st.mark.getD a false = false := by
    intro a ha
    have h1 := hfresh a ha
    have hav : a ≠ v := by
      intro h
      rw [show (⟨st.adj, st.pointStack ++ [(v, preKey)], v :: st.markStack,
        st.mark.set v true, st.cycles⟩ : CycSt).mark = st.mark.set v true from rfl,
        h, hST1v] at h1
      cases h1
    refine ⟨hav, ?_⟩
    rw [show (⟨st.adj, st.pointStack ++ [(v, preKey)], v :: st.markStack,
      st.mark.set v true, st.cycles⟩ : CycSt).mark = st.mark.set v true from rfl,
      hST1u a hav] at h1
    exact h1
  have hiff' : ∀ u, st2.mark.getD u false = true ↔
      (st.mark.getD u false = true ∨ u = v ∨ u ∈ A) := by
    intro u
    rw [hiff u]
    by_cases huv : u = v
    · rw [huv]
      rw [show (⟨st.adj, st.pointStack ++ [(v, preKey)], v :: st.markStack,
        st.mark.set v true, st.cycles⟩ : CycSt).mark = st.mark.set v true from rfl,
        hST1v]
      simp
    · rw [show (⟨st.adj, st.pointStack ++ [(v, preKey)], v :: st.markStack,
        st.mark.set v true, st.cycles⟩ : CycSt).mark = st.mark.set v true from rfl,
        hST1u u huv]
      simp [huv]
  have hmapeq : (st.pointStack ++ [(v, preKey)]).map Prod.fst =
      st.pointStack.map Prod.fst ++ [v] := by
    simp
  -- the recorded-cycle block, rephrased at the outer state
  have hcycout : ∃ new, st2.cycles = st.cycles ++ new ∧ new.Nodup ∧
      ∀ c ∈ new, ∃ q, Arm G ni (st.pointStack.map Prod.fst ++ [v]) v q ∧
        c = st.pointStack ++ (v, preKey) :: armE q := by
    obtain ⟨new, hn1, hn2, hn3⟩ := hgo.cyc
    refine ⟨new, hn1, hn2, ?_⟩
    intro c hc
    obtain ⟨e, qt, _, harm, hform⟩ := hn3 c hc
    refine ⟨e :: qt, ?_, ?_⟩
    · apply Arm_congr G ni (e :: qt) _ _ v ?_ harm
      intro x
      rw [show (⟨st.adj, st.pointStack ++ [(v, preKey)], v :: st.markStack,
        st.mark.set v true, st.cycles⟩ : CycSt).pointStack =
          st.pointStack ++ [(v, preKey)] from rfl, hmapeq]
    · rw [hform]
      show st.pointStack ++ [(v, preKey)] ++ armE (e :: qt) = _
      simp
  have hcompout : ∀ q, Arm G ni (st.pointStack.map Prod.fst ++ [v]) v q →
      (st.pointStack ++ (v, preKey) :: armE q) ∈ st2.cycles := by
    intro q harm
    cases harm with
    | close S _ k hedge =>
      have hmem : (ni, k) ∈ st.adj.getD v [] := hInv.adjret v (ni, k) hedge le_rfl
      have h1 := hgo.complete (ni, k) [] hmem
        (Arm_congr G ni [(ni, k)] _ _ v (fun x => by rw [hmapeq]) (Arm.close _ v k hedge))
      have h2 : st.pointStack ++ [(v, preKey)] ++ armE [(ni, k)] =
          st.pointStack ++ (v, preKey) :: armE [(ni, k)] := by simp
      rw [← h2]
      exact h1
    | step S _ w k qt hedge hgt hnS ht =>
      have hmem : (w, k) ∈ st.adj.getD v [] :=
        hInv.adjret v (w, k) hedge (Nat.le_of_lt hgt)
      have harm2 : Arm G ni ((⟨st.adj, st.pointStack ++ [(v, preKey)],
          v :: st.markStack, st.mark.set v true,
          st.cycles⟩ : CycSt).pointStack.map Prod.fst) v ((w, k) :: qt) := by
        apply Arm_congr G ni ((w, k) :: qt) (st.pointStack.map Prod.fst ++ [v]) _ v
          (fun x => by rw [hmapeq]) (Arm.step _ v w k qt hedge hgt hnS ht)
      have h1 := hgo.complete (w, k) qt hmem harm2
      have h2 : st.pointStack ++ [(v, preKey)] ++ armE ((w, k) :: qt) =
          st.pointStack ++ (v, preKey) :: armE ((w, k) :: qt) := by simp
      rw [← h2]
      exact h1
  cases f with
  | false =>
    rw [if_neg (by simp)]
    have hdrop : st2.pointStack.dropLast = st.pointStack := by
      rw [hpstk2]
      exact List.dropLast_concat
    refine ⟨?_, ?_, ?_, ?_, ?_, ?_⟩
    · -- invariant at the popped state
      refine ⟨hgo.inv.adjsub, hgo.inv.adjret, hgo.inv.adjnd, hgo.inv.marklen,
        hgo.inv.markiff, hgo.inv.msnd, hgo.inv.mslt, ?_, ?_⟩
      · intro u hu
        apply hgo.inv.stacksub
        show u ∈ st2.pointStack.map Prod.fst
        rw [hpstk2, hmapeq]
        rw [show ({ st2 with pointStack := st2.pointStack.dropLast } :
          CycSt).pointStack = st2.pointStack.dropLast from rfl, hdrop] at hu
        exact List.mem_append.mpr (Or.inl hu)
      · intro u hu hustk
        rw [show ({ st2 with pointStack := st2.pointStack.dropLast } :
          CycSt).pointStack = st2.pointStack.dropLast from rfl, hdrop] at hustk ⊢
        have hu2 : st2.mark.getD u false = true := hu
        intro hesc
        obtain ⟨hsA, hsW⟩ := hsucc rfl
        -- every node of the fresh block has dead forward edges
        have hperA : ∀ a, a = v ∨ a ∈ A →
            (∀ k, (ni, k) ∈ adjRowOutMulti G a → False) ∧
            (∀ p ∈ adjRowOutMulti G a, ni < p.1 →
              st2.mark.getD p.1 false = true) := by
          intro a ha
          rcases ha with rfl | ha
          · constructor
            · intro k hk
              have hmem : (ni, k) ∈ st.adj.getD a [] := hInv.adjret a (ni, k) hk le_rfl
              exact (hsW (ni, k) hmem).1 rfl
            · intro p hp hplt
              have hmem : p ∈ st.adj.getD a [] :=
                hInv.adjret a p hp (Nat.le_of_lt hplt)
              exact (hsW p hmem).2 hplt
          · exact hsA a ha
        have key : ∀ x, EscTo G ni (st.pointStack.map Prod.fst) x →
            (x = v ∨ x ∈ A) → False := by
          intro x hx
          induction hx with
          | close w k hedge =>
            intro hw
            exact (hperA w hw).1 k hedge
          | step w x2 k hedge hgt hnS hx2 ih =>
            intro hw
            have hxm : st2.mark.getD x2 false = true := (hperA w hw).2 (x2, k) hedge hgt
            rcases (hiff' x2).mp hxm with hstm | hrest
            · exact hInv.blocked x2 hstm hnS hx2
            · exact ih hrest
        rcases (hiff' u).mp hu2 with hstm | hrest
        · exact hInv.blocked u hstm hustk hesc
        · exact key u hesc hrest
    · show st2.pointStack.dropLast = st.pointStack
      exact hdrop
    · exact hcycout
    · intro q harm
      exact hcompout q harm
    · intro h
      cases h
    · intro _
      refine ⟨A ++ [v], ?_, by simp, ?_, ?_, ?_⟩
      · show st2.markStack = (A ++ [v]) ++ st.markStack
        rw [hms']
        simp
      · intro a ha
        rcases List.mem_append.mp ha with h | h
        · exact (hAfresh a h).2
        · rw [List.mem_singleton.mp h]
          exact hvm
      · intro u
        show st2.mark.getD u false = true ↔ _
        rw [hiff' u]
        constructor
        · rintro (h | h | h)
          · exact Or.inl h
          · exact Or.inr (List.mem_append.mpr (Or.inr (by simp [h])))
          · exact Or.inr (List.mem_append.mpr (Or.inl h))
        · rintro (h | h)
          · exact Or.inl h
          · rcases List.mem_append.mp h with h | h
            · exact Or.inr (Or.inr h)
            · exact Or.inr (Or.inl (List.mem_singleton.mp h))
      · intro a ha
        obtain ⟨hsA, hsW⟩ := hsucc rfl
        rcases List.mem_append.mp ha with h | h
        · exact hsA a h
        · rw [List.mem_singleton.mp h]
          constructor
          · intro k hk
            have hmem : (ni, k) ∈ st.adj.getD v [] := hInv.adjret v (ni, k) hk le_rfl
            exact (hsW (ni, k) hmem).1 rfl
          · intro p hp hplt
            have hmem : p ∈ st.adj.getD v [] :=
              hInv.adjret v p hp (Nat.le_of_lt hplt)
            exact (hsW p hmem).2 hplt
  | true =>
    rw [if_pos rfl]
    have hpopms : (popMark v st2.markStack st2.mark).1 = st.markStack := by
      rw [hms']
      exact (popMark_spec v A st.markStack st2.mark hvnotA).1
    have hpopmk : ∀ u, (popMark v st2.markStack st2.mark).2.getD u false =
        if u ∈ A ∨ u = v then false else st2.mark.getD u false := by
      rw [hms']
      exact (popMark_spec v A st.markStack st2.mark hvnotA).2
    have hrestore : ∀ u, (popMark v st2.markStack st2.mark).2.getD u false =
        st.mark.getD u false := by
      intro u
      rw [hpopmk u]
      by_cases hu : u ∈ A ∨ u = v
      · rw [if_pos hu]
        rcases hu with h | h
        · exact ((hAfresh u h).2).symm
        · rw [h]
          exact hvm.symm
      · rw [if_neg hu]
        apply bool_eq_of_iff
        rw [hiff' u]
        constructor
        · rintro (h | h | h)
          · exact h
          · exact absurd (Or.inr h) hu
          · exact absurd (Or.inl h) hu
        · intro h
          exact Or.inl h
    have hdrop : st2.pointStack.dropLast = st.pointStack := by
      rw [hpstk2]
      exact List.dropLast_concat
    refine ⟨?_, hdrop, hcycout, fun q harm => hcompout q harm, ?_, ?_⟩
    · refine ⟨hgo.inv.adjsub, hgo.inv.adjret, hgo.inv.adjnd, ?_, ?_, ?_, ?_, ?_, ?_⟩
      · show (popMark v st2.markStack st2.mark).2.length = G.n
        rw [popMark_length, hgo.inv.marklen]
      · intro u
        show (popMark v st2.markStack st2.mark).2.getD u false = true ↔
          u ∈ (popMark v st2.markStack st2.mark).1
        rw [hrestore u, hpopms, hInv.markiff u]
      · show (popMark v st2.markStack st2.mark).1.Nodup
        rw [hpopms]
        exact hInv.msnd
      · intro u hu
        apply hInv.mslt
        have hu2 : u ∈ (popMark v st2.markStack st2.mark).1 := hu
        rwa [hpopms] at hu2
      · intro u hu
        show u ∈ (popMark v st2.markStack st2.mark).1
        rw [hpopms]
        apply hInv.stacksub
        have hu2 : u ∈ st2.pointStack.dropLast.map Prod.fst := hu
        rwa [hdrop] at hu2
      · intro u hu hustk
        have hu2 : (popMark v st2.markStack st2.mark).2.getD u false = true := hu
        rw [hrestore u] at hu2
        have hustk2 : u ∉ st.pointStack.map Prod.fst := by
          intro h
          apply hustk
          show u ∈ st2.pointStack.dropLast.map Prod.fst
          rw [hdrop]
          exact h
        intro hesc
        apply hInv.blocked u hu2 hustk2
        exact EscTo_mono G ni (st.pointStack.map Prod.fst) _
          (fun x hx => by
            show x ∈ st2.pointStack.dropLast.map Prod.fst
            rw [hdrop]
            exact hx) u hesc
    · intro _
      exact ⟨hrestore, hpopms⟩
    · intro h
      cases h

theorem getD_append_cons {α : Type} (l1 : List α) (x : α) (l2 : List α) (d : α) :
    (l1 ++ x :: l2).getD l1.length d = x := by
  rw [List.getD_eq_getElem _ _ (by simp)]
  rw [List.getElem_append_right (by omega)]
  simp

theorem armE_cons (e : Nat × Nat) (q : List (Nat × Nat)) :
    armE (e :: q) = (e.1, some e.2) :: armE q := rfl

/-- Erasing a pruned edge (into a node `< ni`) preserves the invariant. -/
theorem cInv_erase (G : MDiGraph) (ni v si key : Nat) (st : CycSt)
    (hInv : CInv G ni st) (hlt : si < ni) :
    CInv G ni { st with adj := st.adj.set v ((st.adj.getD v []).erase (si, key)) } := by
  have hrow : ∀ u, (st.adj.set v ((st.adj.getD v []).erase (si, key))).getD u [] =
      if u = v then (st.adj.getD v []).erase (si, key) else st.adj.getD u [] := by
    intro u
    by_cases huv : u = v
    · subst huv
      rw [if_pos rfl]
      rcases Nat.lt_or_ge u st.adj.length with h | h
      · exact getD_set_self _ _ _ _ h
      · have hX : st.adj.getD u [] = [] := List.getD_eq_default _ _ (by omega)
        rw [List.set_eq_of_length_le (by omega), hX]
        rfl
    · rw [if_neg huv]
      exact getD_set_ne _ _ _ _ _ (fun h => huv h.symm)
  refine ⟨?_, ?_, ?_, hInv.marklen, hInv.markiff, hInv.msnd, hInv.mslt,
    hInv.stacksub, hInv.blocked⟩
  · intro u p hp
    rw [show ({ st with adj := st.adj.set v ((st.adj.getD v []).erase (si, key)) } :
      CycSt).adj = st.adj.set v ((st.adj.getD v []).erase (si, key)) from rfl,
      hrow u] at hp
    by_cases huv : u = v
    · rw [if_pos huv] at hp
      subst huv
      exact hInv.adjsub u p (List.mem_of_mem_erase hp)
    · rw [if_neg huv] at hp
      exact hInv.adjsub u p hp
  · intro u p hp hni
    rw [show ({ st with adj := st.adj.set v ((st.adj.getD v []).erase (si, key)) } :
      CycSt).adj = st.adj.set v ((st.adj.getD v []).erase (si, key)) from rfl,
      hrow u]
    by_cases huv : u = v
    · rw [if_pos huv]
      subst huv
      have hne : p ≠ (si, key) := by
        intro h
        rw [h] at hni
        simp at hni
        omega
      exact (List.mem_erase_of_ne hne).mpr (hInv.adjret u p hp hni)
    · rw [if_neg huv]
      exact hInv.adjret u p hp hni
  · intro u
    rw [show ({ st with adj := st.adj.set v ((st.adj.getD v []).erase (si, key)) } :
      CycSt).adj = st.adj.set v ((st.adj.getD v []).erase (si, key)) from rfl,
      hrow u]
    by_cases huv : u = v
    · rw [if_pos huv]
      exact (hInv.adjnd v).erase _
    · rw [if_neg huv]
      exact hInv.adjnd u

/-- Loop step, pruned-edge branch (`si < ni`): the edge into an earlier
start node is erased and the loop continues. -/
theorem cyc_go_step_erase (G : MDiGraph) (ni v si key : Nat)
    (rest : List (Nat × Nat)) (st : CycSt) (r2 : Bool × CycSt)
    (hlt : si < ni)
    (hgo : CycGoPost G ni v rest
      { st with adj := st.adj.set v ((st.adj.getD v []).erase (si, key)) } r2) :
    CycGoPost G ni v ((si, key) :: rest) st (false || r2.1, r2.2) := by
  refine ⟨hgo.inv, hgo.pstk, ?_, ?_, ?_⟩
  · obtain ⟨new, hn1, hn2, hn3⟩ := hgo.cyc
    refine ⟨new, hn1, hn2, ?_⟩
    intro c hc
    obtain ⟨e, qt, he, harm, hform⟩ := hn3 c hc
    exact ⟨e, qt, List.mem_cons_of_mem _ he, harm, hform⟩
  · intro e qt he harm
    rcases List.mem_cons.mp he with h | h
    · rw [h] at harm
      cases harm with
      | close _ _ k hedge => omega
      | step _ _ w k q hedge hgt hnS ht => omega
    · exact hgo.complete e qt h harm
  · obtain ⟨A, h1, h2, h3, h4⟩ := hgo.marks
    refine ⟨A, h1, h2, h3, ?_⟩
    intro hf
    obtain ⟨hA, hW⟩ := h4 hf
    refine ⟨hA, ?_⟩
    intro e he
    rcases List.mem_cons.mp he with h | h
    · rw [h]
      exact ⟨fun hh => by omega, fun hh => by omega⟩
    · exact hW e h

/-- Loop step, closing branch (`si = ni`): the stack plus the closing
edge is recorded as a new cycle and the loop continues. -/
theorem cyc_go_step_record (G : MDiGraph) (ni v key : Nat)
    (rest : List (Nat × Nat)) (st : CycSt) (r2 : Bool × CycSt)
    (horig : (ni, key) ∈ adjRowOutMulti G v)
    (hnotin : (ni, key) ∉ rest)
    (hgo : CycGoPost G ni v rest
      { st with cycles := st.cycles ++ [st.pointStack ++ [(ni, some key)]] } r2) :
    CycGoPost G ni v ((ni, key) :: rest) st (true || r2.1, r2.2) := by
  refine ⟨hgo.inv, hgo.pstk, ?_, ?_, ?_⟩
  · obtain ⟨new, hn1, hn2, hn3⟩ := hgo.cyc
    refine ⟨(st.pointStack ++ [(ni, some key)]) :: new, ?_, ?_, ?_⟩
    · have h1 : r2.2.cycles = (st.cycles ++ [st.pointStack ++ [(ni, some key)]]) ++ new :=
        hn1
      rw [h1, List.append_assoc]
      rfl
    · rw [List.nodup_cons]
      refine ⟨?_, hn2⟩
      intro hmem
      obtain ⟨e, qt, he, _, hform⟩ := hn3 _ hmem
      have hpos : (st.pointStack ++ (ni, some key) :: ([] : List (Nat × Option Nat))).getD
          st.pointStack.length (0, none) =
          (st.pointStack ++ (e.1, some e.2) :: armE qt).getD st.pointStack.length (0, none) := by
        have hf2 : st.pointStack ++ [(ni, some key)] =
            st.pointStack ++ (ni, some key) :: ([] : List (Nat × Option Nat)) := rfl
        have hf3 : (st.pointStack ++ [(ni, some key)] :
            List (Nat × Option Nat)) = st.pointStack ++ (e.1, some e.2) :: armE qt := by
          rw [hform]
          rfl
        rw [← hf2, hf3]
      rw [getD_append_cons, getD_append_cons] at hpos
      have he1 : e.1 = ni := by
        have := congrArg Prod.fst hpos
        exact this.symm
      have he2 : e.2 = key := by
        have := congrArg Prod.snd hpos
        simpa using this.symm
      apply hnotin
      have : e = (ni, key) := by
        rw [← he1, ← he2]
      rw [← this]
      exact he
    · intro c hc
      rcases List.mem_cons.mp hc with h | h
      · refine ⟨(ni, key), [], List.mem_cons_self _ _, ?_, ?_⟩
        · exact Arm.close _ v key horig
        · rw [h]
          rfl
      · obtain ⟨e, qt, he, harm, hform⟩ := hn3 c h
        exact ⟨e, qt, List.mem_cons_of_mem _ he, harm, hform⟩
  · intro e qt he harm
    rcases List.mem_cons.mp he with h | h
    · rw [h] at harm ⊢
      cases harm with
      | close _ _ k hedge =>
        have hmem : (st.pointStack ++ [(ni, some key)]) ∈ r2.2.cycles := by
          obtain ⟨new, hn1, _, _⟩ := hgo.cyc
          have h1 : r2.2.cycles =
              (st.cycles ++ [st.pointStack ++ [(ni, some key)]]) ++ new := hn1
          rw [h1]
          refine List.mem_append.mpr (Or.inl ?_)
          exact List.mem_append.mpr (Or.inr (List.mem_singleton.mpr rfl))
        exact hmem
      | step _ _ w k q hedge hgt hnS ht => omega
    · exact hgo.complete e qt h harm
  · obtain ⟨A, h1, h2, h3, _⟩ := hgo.marks
    refine ⟨A, h1, h2, h3, ?_⟩
    intro hf
    rw [Bool.true_or] at hf
    cases hf

/-- Loop step, marked-successor branch: the blocked node is skipped and
the loop continues on the unchanged state. -/
theorem cyc_go_step_skip (G : MDiGraph) (ni v si key : Nat)
    (rest : List (Nat × Nat)) (st : CycSt) (r2 : Bool × CycSt)
    (hInv : CInv G ni st)
    (hgt : ni < si)
    (hm : st.mark.getD si false = true)
    (hgo : CycGoPost G ni v rest st r2) :
    CycGoPost G ni v ((si, key) :: rest) st (false || r2.1, r2.2) := by
  refine ⟨hgo.inv, hgo.pstk, ?_, ?_, ?_⟩
  · obtain ⟨new, hn1, hn2, hn3⟩ := hgo.cyc
    refine ⟨new, hn1, hn2, ?_⟩
    intro c hc
    obtain ⟨e, qt, he, harm, hform⟩ := hn3 c hc
    exact ⟨e, qt, List.mem_cons_of_mem _ he, harm, hform⟩
  · intro e qt he harm
    rcases List.mem_cons.mp he with h | h
    · rw [h] at harm
      cases harm with
      | close _ _ k hedge => omega
      | step _ _ w k q hedge hgt2 hnS ht =>
        exfalso
        apply hInv.blocked si hm hnS
        apply EscTo_mono G ni (st.pointStack.map Prod.fst)
          (si :: st.pointStack.map Prod.fst)
          (fun x hx => List.mem_cons_of_mem _ hx) si
        exact Arm_escTo G ni qt (si :: st.pointStack.map Prod.fst) si ht
    · exact hgo.complete e qt h harm
  · obtain ⟨A, h1, h2, h3, h4⟩ := hgo.marks
    refine ⟨A, h1, h2, h3, ?_⟩
    intro hf
    obtain ⟨hA, hW⟩ := h4 hf
    refine ⟨hA, ?_⟩
    intro e he
    rcases List.mem_cons.mp he with h | h
    · rw [h]
      refine ⟨fun hh => by omega, fun _ => ?_⟩
      exact (h3 si).mpr (Or.inl hm)
    · exact hW e h

/-- Loop step, recursion branch (`ni < si`, unmarked): the recursive
`backtrack(si, key)` activation runs and the loop continues on its
state. -/
theorem cyc_go_step_rec (G : MDiGraph) (ni v si key : Nat)
    (rest : List (Nat × Nat)) (st : CycSt) (r1 r2 : Bool × CycSt)
    (hInv : CInv G ni st)
    (hgt : ni < si)
    (horig : (si, key) ∈ adjRowOutMulti G v)
    (hnotin : (si, key) ∉ rest)
    (hvm : st.mark.getD si false = false)
    (hbt : CycBtPost G ni si (some key) st r1)
    (hgo : CycGoPost G ni v rest r1.2 r2) :
    CycGoPost G ni v ((si, key) :: rest) st (r1.1 || r2.1, r2.2) := by
  have hnS : si ∉ st.pointStack.map Prod.fst := by
    intro h
    have := hInv.stacksub si h
    rw [(hInv.markiff si).mpr this] at hvm
    cases hvm
  have hsiarm : ∀ q, Arm G ni (st.pointStack.map Prod.fst ++ [si]) si q →
      Arm G ni (si :: st.pointStack.map Prod.fst) si q := by
    intro q hq
    exact Arm_congr G ni q _ _ si (fun x => by simp [or_comm]) hq
  have hsiarm' : ∀ q, Arm G ni (si :: st.pointStack.map Prod.fst) si q →
      Arm G ni (st.pointStack.map Prod.fst ++ [si]) si q := by
    intro q hq
    exact Arm_congr G ni q _ _ si (fun x => by simp [or_comm]) hq
  refine ⟨hgo.inv, hgo.pstk.trans hbt.pstk, ?_, ?_, ?_⟩
  · obtain ⟨nb, hb1, hb2, hb3⟩ := hbt.cyc
    obtain ⟨ng, hg1, hg2, hg3⟩ := hgo.cyc
    refine ⟨nb ++ ng, ?_, ?_, ?_⟩
    · show r2.2.cycles = st.cycles ++ (nb ++ ng)
      rw [hg1, hb1, List.append_assoc]
    · refine List.Nodup.append hb2 hg2 ?_
      intro a ha hag
      obtain ⟨q, _, hform⟩ := hb3 a ha
      obtain ⟨e, qt, he, _, hform2⟩ := hg3 a hag
      rw [hbt.pstk] at hform2
      have hpos : (st.pointStack ++ (si, some key) :: armE q).getD
          st.pointStack.length (0, none) =
          (st.pointStack ++ (e.1, some e.2) :: armE qt).getD
            st.pointStack.length (0, none) := by
        rw [← hform, ← show st.pointStack ++ armE (e :: qt) =
          st.pointStack ++ (e.1, some e.2) :: armE qt from rfl, ← hform2]
      rw [getD_append_cons, getD_append_cons] at hpos
      apply hnotin
      have he1 : e.1 = si := (congrArg Prod.fst hpos).symm
      have he2 : e.2 = key := by simpa using (congrArg Prod.snd hpos).symm
      have : e = (si, key) := by rw [← he1, ← he2]
      rw [← this]
      exact he
    · intro c hc
      rcases List.mem_append.mp hc with h | h
      · obtain ⟨q, harm, hform⟩ := hb3 c h
        refine ⟨(si, key), q, List.mem_cons_self _ _, ?_, hform⟩
        exact Arm.step _ v si key q horig hgt hnS (hsiarm q harm)
      · obtain ⟨e, qt, he, harm, hform⟩ := hg3 c h
        rw [hbt.pstk] at harm hform
        exact ⟨e, qt, List.mem_cons_of_mem _ he, harm, hform⟩
  · intro e qt he harm
    rcases List.mem_cons.mp he with h | h
    · rw [h] at harm ⊢
      cases harm with
      | close _ _ k hedge => omega
      | step _ _ w k q hedge hgt2 hnS2 ht =>
        have h1 := hbt.complete qt (hsiarm' qt ht)
        show st.pointStack ++ armE ((si, key) :: qt) ∈ r2.2.cycles
        obtain ⟨ng, hg1, _, _⟩ := hgo.cyc
        rw [hg1]
        exact List.mem_append.mpr (Or.inl h1)
    · have harm' : Arm G ni (r1.2.pointStack.map Prod.fst) v (e :: qt) := by
        rw [hbt.pstk]
        exact harm
      have h1 := hgo.complete e qt h harm'
      rw [hbt.pstk] at h1
      exact h1
  · obtain ⟨Ag, hg1', hg2', hg3', hg4'⟩ := hgo.marks
    cases hb1f : r1.1 with
    | true =>
      obtain ⟨hmk, hmseq⟩ := hbt.restore hb1f
      refine ⟨Ag, ?_, ?_, ?_, ?_⟩
      · rw [hg1', hmseq]
      · intro a ha
        have h5 := hg2' a ha
        rw [hmk a] at h5
        exact h5
      · intro u
        rw [hg3' u, hmk u]
      · intro hf
        have hf3 : (true || r2.1) = false := hf
        rw [Bool.true_or] at hf3
        cases hf3
    | false =>
      obtain ⟨Ab, hbms, hbsi, hbfresh, hbiff, hbdead⟩ := hbt.blockedNew hb1f
      refine ⟨Ag ++ Ab, ?_, ?_, ?_, ?_⟩
      · rw [hg1', hbms, List.append_assoc]
      · intro a ha
        rcases List.mem_append.mp ha with h | h
        · have h5 := hg2' a h
          cases hst : st.mark.getD a false with
          | false => rfl
          | true =>
            have h6 := (hbiff a).mpr (Or.inl hst)
            rw [h5] at h6
            cases h6
        · exact hbfresh a h
      · intro u
        rw [hg3' u, hbiff u]
        constructor
        · rintro ((h | h) | h)
          · exact Or.inl h
          · exact Or.inr (List.mem_append.mpr (Or.inr h))
          · exact Or.inr (List.mem_append.mpr (Or.inl h))
        · rintro (h | h)
          · exact Or.inl (Or.inl h)
          · rcases List.mem_append.mp h with h | h
            · exact Or.inr h
            · exact Or.inl (Or.inr h)
      · intro hf
        have hf3 : (false || r2.1) = false := hf
        rw [Bool.false_or] at hf3
        obtain ⟨hgA, hgW⟩ := hg4' hf3
        constructor
        · intro a ha
          rcases List.mem_append.mp ha with h | h
          · exact hgA a h
          · obtain ⟨hd1, hd2⟩ := hbdead a h
            refine ⟨hd1, ?_⟩
            intro p hp hplt
            exact (hg3' p.1).mpr (Or.inl (hd2 p hp hplt))
        · intro e he
          rcases List.mem_cons.mp he with h | h
          · rw [h]
            refine ⟨fun hh => by omega, fun _ => ?_⟩
            show r2.2.mark.getD si false = true
            apply (hg3' si).mpr
            exact Or.inl ((hbiff si).mpr (Or.inr hbsi))
          · exact hgW e h

theorem cycPot_nil_le (G : MDiGraph) :
    cycPot G [] ≤ G.n + G.edges.length := by
  unfold cycPot
  have h1 : (Finset.range G.n).filter (fun u => u ∉ ([] : List Nat)) =
      Finset.range G.n := by
    apply Finset.filter_true_of_mem
    intro x _
    simp
  rw [h1, Finset.sum_add_distrib]
  have := sum_outdeg_le G
  simp only [Finset.sum_const, Finset.card_range, smul_eq_mul, mul_one]
  omega

/-- The mutual fuel induction for the cycle enumeration: with the stack
potential below the fuel, every `backtrack` activation satisfies
`CycBtPost` and every successor loop satisfies `CycGoPost`. -/
theorem bt_btGo_spec (G : MDiGraph) (hwf : MDiGraph.WF G) (ni : Nat) :
    ∀ fuel : Nat,
      (∀ v preKey st, CInv G ni st → st.mark.getD v false = false → v < G.n →
        cycPot G (st.pointStack.map Prod.fst) + 1 ≤ fuel →
        CycBtPost G ni v preKey st (backtrack G ni fuel v preKey st)) ∧
      (∀ ws v st, CInv G ni st → (∀ e ∈ ws, e ∈ adjRowOutMulti G v) → ws.Nodup →
        cycPot G (st.pointStack.map Prod.fst) + ws.length + 1 ≤ fuel →
        CycGoPost G ni v ws st (backtrackGo G ni fuel ws v st)) := by
  intro fuel
  induction fuel with
  | zero =>
    constructor
    · intro v preKey st _ _ _ hf
      exact absurd hf (by omega)
    · intro ws v st _ _ _ hf
      exact absurd hf (by omega)
  | succ f ihf =>
    obtain ⟨ihbt, ihgo⟩ := ihf
    constructor
    · -- backtrack at fuel f+1
      intro v preKey st hInv hvm hvn hfuel
      have hvstk : v ∉ st.pointStack.map Prod.fst := by
        intro h
        have := hInv.stacksub v h
        rw [(hInv.markiff v).mpr this] at hvm
        cases hvm
      have hInv1 := cInv_push G ni v preKey st hInv hvm hvn
      have hrowlen : (st.adj.getD v []).length ≤ (adjRowOutMulti G v).length :=
        ((hInv.adjnd v).subperm (fun p hp => hInv.adjsub v p hp)).length_le
      have hpoteq : cycPot G ((st.pointStack ++ [(v, preKey)]).map Prod.fst) =
          cycPot G (v :: st.pointStack.map Prod.fst) := by
        apply cycPot_congr
        intro x
        simp [or_comm]
      have hpush := cycPot_push G (st.pointStack.map Prod.fst) v hvn hvstk
      have hgo := ihgo (st.adj.getD v []) v
        (⟨st.adj, st.pointStack ++ [(v, preKey)], v :: st.markStack,
          st.mark.set v true, st.cycles⟩ : CycSt)
        hInv1 (fun e he => hInv.adjsub v e he) (hInv.adjnd v)
        (by
          show cycPot G ((st.pointStack ++ [(v, preKey)]).map Prod.fst) +
            (st.adj.getD v []).length + 1 ≤ f
          rw [hpoteq]
          omega)
      rw [backtrack]
      exact bt_post_assemble G ni v preKey st _ _ hInv hvm hvn hgo
    · -- backtrackGo at fuel f+1
      intro ws v st hInv hws hnd hfuel
      cases ws with
      | nil =>
        show CycGoPost G ni v [] st (false, st)
        refine ⟨hInv, rfl, ⟨[], by simp, List.nodup_nil,
            fun c hc => absurd hc (List.not_mem_nil c)⟩,
          fun e qt he _ => absurd he (List.not_mem_nil e),
          ⟨[], by simp, fun a ha => absurd ha (List.not_mem_nil a),
            fun u => by simp, fun _ =>
              ⟨fun a ha => absurd ha (List.not_mem_nil a),
               fun e he => absurd he (List.not_mem_nil e)⟩⟩⟩
      | cons e0 rest =>
        obtain ⟨si, key⟩ := e0
        have hnotin : (si, key) ∉ rest := (List.nodup_cons.mp hnd).1
        have hndr : rest.Nodup := (List.nodup_cons.mp hnd).2
        have horig : (si, key) ∈ adjRowOutMulti G v :=
          hws _ (List.mem_cons_self _ _)
        have hwsr : ∀ e ∈ rest, e ∈ adjRowOutMulti G v :=
          fun e he => hws e (List.mem_cons_of_mem _ he)
        simp only [List.length_cons] at hfuel
        rw [backtrackGo]
        by_cases hlt : si < ni
        · rw [if_pos hlt]
          have hInvE := cInv_erase G ni v si key st hInv hlt
          have hgo2 := ihgo rest v
            { st with adj := st.adj.set v ((st.adj.getD v []).erase (si, key)) }
            hInvE hwsr hndr
            (by
              show cycPot G (st.pointStack.map Prod.fst) + rest.length + 1 ≤ f
              omega)
          exact cyc_go_step_erase G ni v si key rest st _ hlt hgo2
        · rw [if_neg hlt]
          by_cases heq : si = ni
          · rw [if_pos heq]
            rw [heq] at horig hnotin ⊢
            have hInvR : CInv G ni
                { st with cycles := st.cycles ++ [st.pointStack ++ [(ni, some key)]] } :=
              ⟨hInv.adjsub, hInv.adjret, hInv.adjnd, hInv.marklen, hInv.markiff,
               hInv.msnd, hInv.mslt, hInv.stacksub, hInv.blocked⟩
            have hgo2 := ihgo rest v
              { st with cycles := st.cycles ++ [st.pointStack ++ [(ni, some key)]] }
              hInvR hwsr hndr
              (by
                show cycPot G (st.pointStack.map Prod.fst) + rest.length + 1 ≤ f
                omega)
            exact cyc_go_step_record G ni v key rest st _ horig hnotin hgo2
          · rw [if_neg heq]
            have hgt : ni < si := by omega
            by_cases hm : st.mark.getD si false = true
            · rw [if_neg (not_not_intro hm)]
              have hgo2 := ihgo rest v st hInv hwsr hndr (by omega)
              exact cyc_go_step_skip G ni v si key rest st _ hInv hgt hm hgo2
            · rw [if_pos hm]
              have hvm2 : st.mark.getD si false = false := by
                cases h : st.mark.getD si false with
                | false => rfl
                | true => exact absurd h hm
              have hsin : si < G.n := adjRowOutMulti_tgt_lt G hwf v (si, key) horig
              have hbt := ihbt si (some key) st hInv hvm2 hsin (by omega)
              have hgo2 := ihgo rest v (backtrack G ni f si (some key) st).2
                hbt.inv hwsr hndr
                (by
                  rw [hbt.pstk]
                  omega)
              exact cyc_go_step_rec G ni v si key rest st _ _ hInv hgt horig
                hnotin hvm2 hbt hgo2

theorem adj_lists_multi_getD (G : MDiGraph) (v : Nat) (hv : v < G.n) :
    (adj_lists_multi G).getD v [] = adjRowOutMulti G v := by
  unfold adj_lists_multi
  rw [List.getD_eq_getElem _ _ (by simpa using hv)]
  simp

theorem drain_length :
    ∀ (L : List Nat) (m : List Bool),
      (L.foldl (fun m i => m.set i false) m).length = m.length := by
  intro L
  induction L with
  | nil =>
    intro m
    rfl
  | cons a L ih =>
    intro m
    rw [List.foldl_cons, ih]
    simp

/-- The driver invariant implies the traversal invariant (on drained
marks the blocking clause is vacuous). -/
theorem cInv_of_dInv (G : MDiGraph) (ni : Nat) (st : CycSt)
    (hD : CycDInv G ni st) : CInv G ni st := by
  refine ⟨hD.adjsub, hD.adjret, hD.adjnd, hD.marklen, ?_, ?_, ?_, ?_, ?_⟩
  · intro u
    rw [hD.allfalse u, hD.ms]
    simp
  · rw [hD.ms]
    exact List.nodup_nil
  · intro u hu
    rw [hD.ms] at hu
    exact absurd hu (List.not_mem_nil u)
  · intro u hu
    rw [hD.ps] at hu
    exact absurd hu (List.not_mem_nil u)
  · intro u hu
    rw [hD.allfalse u] at hu
    cases hu

/-- One driver step: processing start node `ni` re-establishes the
driver invariant at `ni + 1` and appends exactly the root arms of `ni`
as recorded cycles. -/
theorem cyc_root_step (G : MDiGraph) (hwf : MDiGraph.WF G) (ni : Nat) (st : CycSt)
    (hD : CycDInv G ni st) (hni : ni < G.n) :
    CycDInv G (ni + 1)
      { (backtrack G ni (cycFuel G) ni none st).2 with
        mark := (backtrack G ni (cycFuel G) ni none st).2.markStack.foldl (fun m i => m.set i false) (backtrack G ni (cycFuel G) ni none st).2.mark
        markStack := [] } ∧
    (∃ new, (backtrack G ni (cycFuel G) ni none st).2.cycles = st.cycles ++ new ∧
      new.Nodup ∧
      (∀ c ∈ new, ∃ q, Arm G ni [ni] ni q ∧ c = (ni, none) :: armE q) ∧
      (∀ q, Arm G ni [ni] ni q →
        ((ni, none) :: armE q) ∈ (backtrack G ni (cycFuel G) ni none st).2.cycles)) := by
  have hInv : CInv G ni st := cInv_of_dInv G ni st hD
  have hvm : st.mark.getD ni false = false := hD.allfalse ni
  have hfuel : cycPot G (st.pointStack.map Prod.fst) + 1 ≤ cycFuel G := by
    have h1 : cycPot G (st.pointStack.map Prod.fst) = cycPot G [] := by
      rw [hD.ps]
      rfl
    have h2 := cycPot_nil_le G
    unfold cycFuel
    omega
  have hbt := (bt_btGo_spec G hwf ni (cycFuel G)).1 ni none st hInv hvm hni hfuel
  constructor
  · refine ⟨hbt.inv.adjsub, ?_, hbt.inv.adjnd, ?_, ?_, rfl, ?_⟩
    · intro v p hp hni1
      exact hbt.inv.adjret v p hp (by omega)
    · show ((backtrack G ni (cycFuel G) ni none st).2.markStack.foldl
        (fun m i => m.set i false) (backtrack G ni (cycFuel G) ni none st).2.mark).length = G.n
      rw [drain_length]
      exact hbt.inv.marklen
    · intro u
      show ((backtrack G ni (cycFuel G) ni none st).2.markStack.foldl
        (fun m i => m.set i false) (backtrack G ni (cycFuel G) ni none st).2.mark).getD u false = false
      rw [drain_spec]
      by_cases hu : u ∈ (backtrack G ni (cycFuel G) ni none st).2.markStack
      · rw [if_pos hu]
      · rw [if_neg hu]
        cases hmu : (backtrack G ni (cycFuel G) ni none st).2.mark.getD u false with
        | false => rfl
        | true => exact absurd ((hbt.inv.markiff u).mp hmu) hu
    · show (backtrack G ni (cycFuel G) ni none st).2.pointStack = []
      rw [hbt.pstk]
      exact hD.ps
  · obtain ⟨new, hn1, hn2, hn3⟩ := hbt.cyc
    refine ⟨new, hn1, hn2, ?_, ?_⟩
    · intro c hc
      obtain ⟨q, harm, hform⟩ := hn3 c hc
      rw [hD.ps] at harm hform
      exact ⟨q, harm, hform⟩
    · intro q harm
      have harm' : Arm G ni (st.pointStack.map Prod.fst ++ [ni]) ni q := by
        rw [hD.ps]
        exact harm
      have h1 := hbt.complete q harm'
      rw [hD.ps] at h1
      exact h1

/-- The driver across start nodes `ni, ni+1, ...`: the invariant is
maintained and the recorded cycles grow by exactly the root arms of
those start nodes, without duplicates. -/
theorem cyc_driver_spec (G : MDiGraph) (hwf : MDiGraph.WF G) :
    ∀ (k ni : Nat) (st : CycSt), CycDInv G ni st → ni + k ≤ G.n →
      CycDInv G (ni + k) ((List.range' ni k).foldl (cycStep G) st) ∧
      (∃ new, ((List.range' ni k).foldl (cycStep G) st).cycles = st.cycles ++ new ∧
        new.Nodup ∧
        (∀ c ∈ new, ∃ r q, ni ≤ r ∧ r < ni + k ∧ Arm G r [r] r q ∧
          c = (r, none) :: armE q) ∧
        (∀ r q, ni ≤ r → r < ni + k → Arm G r [r] r q →
          ((r, none) :: armE q) ∈ ((List.range' ni k).foldl (cycStep G) st).cycles)) := by
  intro k
  induction k with
  | zero =>
    intro ni st hD _
    refine ⟨hD, [], by simp, List.nodup_nil, ?_, ?_⟩
    · intro c hc
      exact absurd hc (List.not_mem_nil c)
    · intro r q h1 h2 _
      omega
  | succ k ih =>
    intro ni st hD hle
    have hni : ni < G.n := by omega
    obtain ⟨hD1, new0, hc0, hnd0, hform0, hcomp0⟩ := cyc_root_step G hwf ni st hD hni
    have hst1c : (cycStep G st ni).cycles =
        (backtrack G ni (cycFuel G) ni none st).2.cycles := rfl
    obtain ⟨hDF, new1, hc1, hnd1, hform1, hcomp1⟩ :=
      ih (ni + 1) (cycStep G st ni) hD1 (by omega)
    have hrange : List.range' ni (k + 1) = ni :: List.range' (ni + 1) k :=
      List.range'_succ ni k 1
    have hfold : (List.range' ni (k + 1)).foldl (cycStep G) st =
        (List.range' (ni + 1) k).foldl (cycStep G) (cycStep G st ni) := by
      rw [hrange, List.foldl_cons]
    have hadd : ni + 1 + k = ni + (k + 1) := by omega
    rw [hfold]
    constructor
    · rw [← hadd]
      exact hDF
    · refine ⟨new0 ++ new1, ?_, ?_, ?_, ?_⟩
      · rw [hc1, hst1c, hc0, List.append_assoc]
      · refine List.Nodup.append hnd0 hnd1 ?_
        intro a ha hag
        obtain ⟨q, _, hform⟩ := hform0 a ha
        obtain ⟨r, q', hr1, _, _, hform'⟩ := hform1 a hag
        rw [hform] at hform'
        have hhead : ((ni, (none : Option Nat)) :: armE q).getD 0 (0, none) =
            ((r, (none : Option Nat)) :: armE q').getD 0 (0, none) := by
          rw [hform']
        simp only [List.getD_cons_zero] at hhead
        have : ni = r := congrArg Prod.fst hhead
        omega
      · intro c hc
        rcases List.mem_append.mp hc with h | h
        · obtain ⟨q, harm, hform⟩ := hform0 c h
          exact ⟨ni, q, le_refl ni, by omega, harm, hform⟩
        · obtain ⟨r, q, hr1, hr2, harm, hform⟩ := hform1 c h
          exact ⟨r, q, by omega, by omega, harm, hform⟩
      · intro r q hr1 hr2 harm
        by_cases hrn : r = ni
        · subst hrn
          have h1 := hcomp0 q harm
          rw [← hst1c] at h1
          rw [hc1]
          exact List.mem_append.mpr (Or.inl h1)
        · exact hcomp1 r q (by omega) (by omega) harm

theorem cycDInv_init (G : MDiGraph) (hwf : MDiGraph.WF G) :
    CycDInv G 0
      (⟨adj_lists_multi G, [], [], List.replicate G.n false, []⟩ : CycSt) := by
  have hadjlen : (adj_lists_multi G).length = G.n := by
    unfold adj_lists_multi
    simp
  have hrow : ∀ v, (⟨adj_lists_multi G, [], [], List.replicate G.n false,
      []⟩ : CycSt).adj.getD v [] =
      if v < G.n then adjRowOutMulti G v else [] := by
    intro v
    by_cases hv : v < G.n
    · rw [if_pos hv]
      exact adj_lists_multi_getD G v hv
    · rw [if_neg hv]
      apply List.getD_eq_default
      show (adj_lists_multi G).length ≤ v
      omega
  refine ⟨?_, ?_, ?_, by simp, ?_, rfl, rfl⟩
  · intro v p hp
    rw [hrow v] at hp
    by_cases hv : v < G.n
    · rwa [if_pos hv] at hp
    · rw [if_neg hv] at hp
      exact absurd hp (List.not_mem_nil p)
  · intro v p hp _
    obtain ⟨si, key⟩ := p
    obtain ⟨hk, he⟩ := (mem_adjRowOutMulti G v si key).mp hp
    have hmem : (v, si) ∈ G.edges := by
      rw [← he, List.getD_eq_getElem _ _ hk]
      exact List.getElem_mem hk
    have hv : v < G.n := (hwf _ hmem).1
    rw [hrow v, if_pos hv]
    exact hp
  · intro v
    rw [hrow v]
    by_cases hv : v < G.n
    · rw [if_pos hv]
      exact adjRowOutMulti_nodup G v
    · rw [if_neg hv]
      exact List.nodup_nil
  · intro u
    exact getD_replicate G.n false u

/-- The recorded raw cycles of `all_cycles`: exactly the root arms, one
per simple closing walk from each start node, without duplicates; the
two output components are their node and edge-key projections. -/
theorem all_cycles_cycles_spec (G : MDiGraph) (hwf : MDiGraph.WF G) :
    ∃ C : List (List (Nat × Option Nat)),
      (all_cycles G).1 = C.map (fun cyc => (cyc.map Prod.fst).dropLast) ∧
      (all_cycles G).2 = C.map (fun cyc => (cyc.drop 1).map (fun p => p.2.getD 0)) ∧
      C.Nodup ∧
      (∀ c ∈ C, ∃ r q, r < G.n ∧ Arm G r [r] r q ∧ c = (r, none) :: armE q) ∧
      (∀ r q, r < G.n → Arm G r [r] r q → ((r, none) :: armE q) ∈ C) := by
  obtain ⟨hDF, new, hc, hnd, hform, hcomp⟩ :=
    cyc_driver_spec G hwf G.n 0
      (⟨adj_lists_multi G, [], [], List.replicate G.n false, []⟩ : CycSt)
      (cycDInv_init G hwf) (by omega)
  have hfold : ((List.range G.n).foldl (cycStep G)
        (⟨adj_lists_multi G, [], [], List.replicate G.n false, []⟩ : CycSt)) =
      ((List.range' 0 G.n).foldl (cycStep G)
        (⟨adj_lists_multi G, [], [], List.replicate G.n false, []⟩ : CycSt)) := by
    rw [List.range_eq_range']
  refine ⟨((List.range' 0 G.n).foldl (cycStep G)
    (⟨adj_lists_multi G, [], [], List.replicate G.n false, []⟩ : CycSt)).cycles,
    ?_, ?_, ?_, ?_, ?_⟩
  · show ((List.range G.n).foldl (cycStep G)
      (⟨adj_lists_multi G, [], [], List.replicate G.n false, []⟩ : CycSt)).cycles.map
        (fun cyc => (cyc.map Prod.fst).dropLast) = _
    rw [hfold]
  · show ((List.range G.n).foldl (cycStep G)
      (⟨adj_lists_multi G, [], [], List.replicate G.n false, []⟩ : CycSt)).cycles.map
        (fun cyc => (cyc.drop 1).map (fun p => p.2.getD 0)) = _
    rw [hfold]
  · rw [show ((List.range' 0 G.n).foldl (cycStep G)
      (⟨adj_lists_multi G, [], [], List.replicate G.n false, []⟩ : CycSt)).cycles =
        new from hc]
    exact hnd
  · intro c hcm
    rw [show ((List.range' 0 G.n).foldl (cycStep G)
      (⟨adj_lists_multi G, [], [], List.replicate G.n false, []⟩ : CycSt)).cycles =
        new from hc] at hcm
    obtain ⟨r, q, _, hr2, harm, hf⟩ := hform c hcm
    exact ⟨r, q, by omega, harm, hf⟩
  · intro r q hr harm
    exact hcomp r q (by omega) (by omega) harm

theorem getD_map_lt {α β : Type} (f : α → β) (l : List α) (i : Nat) (d : β)
    (d' : α) (h : i < l.length) : (l.map f).getD i d = f (l.getD i d') := by
  rw [List.getD_eq_getElem _ _ (by simpa using h), List.getD_eq_getElem _ _ h]
  simp

theorem getD_dropLast {α : Type} (l : List α) (i : Nat) (d : α)
    (h : i + 1 < l.length) : l.dropLast.getD i d = l.getD i d := by
  rw [List.getD_eq_getElem _ _ (by rw [List.length_dropLast]; omega),
    List.getD_eq_getElem _ _ (by omega)]
  exact List.getElem_dropLast _ _ _

theorem getD_mem {α : Type} (l : List α) (i : Nat) (d : α) (h : i < l.length) :
    l.getD i d ∈ l := by
  rw [List.getD_eq_getElem _ _ h]
  exact List.getElem_mem h

/-- Structural facts about a recorded arm: edge keys in range with the
listed targets, the source chain descending from `v`, the last target
`r`, and intermediate targets above `r`, distinct, and outside `S`. -/
theorem arm_edges_spec (G : MDiGraph) (r : Nat) :
    ∀ (q : List (Nat × Nat)) (S : List Nat) (v : Nat), Arm G r S v q →
      q ≠ [] ∧
      (∀ e ∈ q, e.2 < G.edges.length ∧ (G.edges.getD e.2 (0, 0)).2 = e.1) ∧
      q.map (fun e => (G.edges.getD e.2 (0, 0)).1) = v :: q.dropLast.map Prod.fst ∧
      (q.getD (q.length - 1) (0, 0)).1 = r ∧
      (∀ e ∈ q.dropLast, r < e.1 ∧ e.1 ∉ S) ∧
      (q.dropLast.map Prod.fst).Nodup := by
  intro q
  induction q with
  | nil =>
    intro S v h
    cases h
  | cons e qt ih =>
    intro S v h
    cases h with
    | close _ _ k hedge =>
      obtain ⟨hk, he⟩ := (mem_adjRowOutMulti G v r k).mp hedge
      refine ⟨by simp, ?_, ?_, ?_, ?_, ?_⟩
      · intro a ha
        rcases List.mem_cons.mp ha with h | h
        · rw [h, he]
          exact ⟨hk, rfl⟩
        · exact absurd h (List.not_mem_nil a)
      · show [(G.edges.getD k (0, 0)).1] = [v]
        rw [he]
      · rfl
      · intro a ha
        exact absurd ha (List.not_mem_nil a)
      · exact List.nodup_nil
    | step _ _ w k q hedge hgt hnS ht =>
      obtain ⟨hne, hmem, hsrcs, hlast, hmid, hnd⟩ := ih (w :: S) w ht
      obtain ⟨hk, he⟩ := (mem_adjRowOutMulti G v w k).mp hedge
      obtain ⟨b, t, rfl⟩ : ∃ b t, qt = b :: t := by
        cases qt with
        | nil => exact absurd rfl hne
        | cons b t => exact ⟨b, t, rfl⟩
      refine ⟨by simp, ?_, ?_, ?_, ?_, ?_⟩
      · intro a ha
        rcases List.mem_cons.mp ha with h | h
        · rw [h, he]
          exact ⟨hk, rfl⟩
        · exact hmem a h
      · show (G.edges.getD k (0, 0)).1 ::
          (b :: t).map (fun e => (G.edges.getD e.2 (0, 0)).1) =
          v :: w :: (b :: t).dropLast.map Prod.fst
        rw [he, hsrcs]
      · show (((w, k) :: b :: t).getD ((b :: t).length) (0, 0)).1 = r
        have hlen : (b :: t).length = ((b :: t).length - 1) + 1 := by
          simp
        rw [hlen, List.getD_cons_succ]
        exact hlast
      · intro a ha
        have ha2 : a ∈ (w, k) :: (b :: t).dropLast := ha
        rcases List.mem_cons.mp ha2 with h | h
        · rw [h]
          exact ⟨hgt, hnS⟩
        · obtain ⟨h1, h2⟩ := hmid a h
          exact ⟨h1, fun hx => h2 (List.mem_cons_of_mem _ hx)⟩
      · show ((w, k) :: (b :: t).dropLast).map Prod.fst |>.Nodup
        rw [List.map_cons, List.nodup_cons]
        refine ⟨?_, hnd⟩
        intro hw
        obtain ⟨a, ha, ha2⟩ := List.mem_map.mp hw
        have := (hmid a ha).2
        rw [ha2] at this
        exact this (List.mem_cons_self _ _)

/-- A root arm yields a canonical elementary cycle: its key list is in
range, chained, closing, with distinct sources and a minimal start. -/
theorem arm_canon (G : MDiGraph) (r : Nat) (q : List (Nat × Nat))
    (h : Arm G r [r] r q) : CanonCycle G (q.map Prod.snd) := by
  obtain ⟨hne, hmem, hsrcs, hlast, hmid, hnd⟩ := arm_edges_spec G r q [r] r h
  have hql : 0 < q.length := List.length_pos.mpr hne
  have hsrc0 : (G.edges.getD ((q.map Prod.snd).getD 0 0) (0, 0)).1 = r := by
    rw [getD_map_lt Prod.snd q 0 0 (0, 0) hql]
    have h4 : (q.map (fun e => (G.edges.getD e.2 (0, 0)).1)).getD 0 0 =
        (G.edges.getD (q.getD 0 (0, 0)).2 (0, 0)).1 :=
      getD_map_lt _ q 0 0 (0, 0) hql
    rw [hsrcs, List.getD_cons_zero] at h4
    exact h4.symm
  refine ⟨?_, ?_, ?_, ?_, ?_, ?_⟩
  · intro hmap
    apply hne
    cases q with
    | nil => rfl
    | cons a t => cases hmap
  · intro e he
    obtain ⟨a, ha, rfl⟩ := List.mem_map.mp he
    exact (hmem a ha).1
  · intro i hi
    rw [List.length_map] at hi
    rw [getD_map_lt Prod.snd q i 0 (0, 0) (by omega),
      getD_map_lt Prod.snd q (i + 1) 0 (0, 0) hi,
      (hmem _ (getD_mem q i (0, 0) (by omega))).2]
    have h4 : (q.map (fun e => (G.edges.getD e.2 (0, 0)).1)).getD (i + 1) 0 =
        (G.edges.getD (q.getD (i + 1) (0, 0)).2 (0, 0)).1 :=
      getD_map_lt _ q (i + 1) 0 (0, 0) hi
    rw [hsrcs] at h4
    rw [← h4, List.getD_cons_succ,
      getD_map_lt Prod.fst q.dropLast i 0 (0, 0)
        (by rw [List.length_dropLast]; omega),
      getD_dropLast q i (0, 0) (by omega)]
  · rw [List.length_map,
      getD_map_lt Prod.snd q (q.length - 1) 0 (0, 0) (by omega),
      (hmem _ (getD_mem q (q.length - 1) (0, 0) (by omega))).2, hlast, hsrc0]
  · have h8 : (q.map Prod.snd).map (fun e => (G.edges.getD e (0, 0)).1) =
        q.map (fun e => (G.edges.getD e.2 (0, 0)).1) := by
      rw [List.map_map]
      rfl
    rw [h8, hsrcs, List.nodup_cons]
    refine ⟨?_, hnd⟩
    intro hr
    obtain ⟨a, ha, ha2⟩ := List.mem_map.mp hr
    have := (hmid a ha).1
    omega
  · intro e he
    rw [hsrc0]
    obtain ⟨a, ha, rfl⟩ := List.mem_map.mp he
    have h9 : (G.edges.getD a.2 (0, 0)).1 ∈
        q.map (fun e => (G.edges.getD e.2 (0, 0)).1) :=
      List.mem_map_of_mem _ ha
    rw [hsrcs] at h9
    rcases List.mem_cons.mp h9 with h | h
    · omega
    · obtain ⟨b, hb, hb2⟩ := List.mem_map.mp h
      have := (hmid b hb).1
      omega

/-- Rebuilding an arm from a chained, closing, source-distinct key list:
the inductive core of completeness. -/
theorem canon_arm_aux (G : MDiGraph) (r : Nat) :
    ∀ (ks : List Nat) (v : Nat) (S : List Nat),
      ks ≠ [] →
      (∀ k ∈ ks, k < G.edges.length) →
      (G.edges.getD (ks.getD 0 0) (0, 0)).1 = v →
      (∀ i, i + 1 < ks.length →
        (G.edges.getD (ks.getD i 0) (0, 0)).2 =
          (G.edges.getD (ks.getD (i + 1) 0) (0, 0)).1) →
      (G.edges.getD (ks.getD (ks.length - 1) 0) (0, 0)).2 = r →
      (∀ k ∈ ks.drop 1, r < (G.edges.getD k (0, 0)).1) →
      ((ks.drop 1).map (fun k => (G.edges.getD k (0, 0)).1)).Nodup →
      (∀ k ∈ ks.drop 1, (G.edges.getD k (0, 0)).1 ∉ S) →
      Arm G r S v (ks.map (fun k => ((G.edges.getD k (0, 0)).2, k))) := by
  intro ks
  induction ks with
  | nil =>
    intro v S hne
    exact absurd rfl hne
  | cons k ks' ih =>
    intro v S _ hlt hsrc0 hchain hlast hmidgt hnodup havoid
    cases ks' with
    | nil =>
      have hlast' : (G.edges.getD k (0, 0)).2 = r := hlast
      have hsrc0' : (G.edges.getD k (0, 0)).1 = v := hsrc0
      have hedge : (r, k) ∈ adjRowOutMulti G v := by
        rw [mem_adjRowOutMulti]
        refine ⟨hlt k (List.mem_cons_self _ _), ?_⟩
        rw [Prod.ext_iff]
        exact ⟨hsrc0', hlast'⟩
      show Arm G r S v [((G.edges.getD k (0, 0)).2, k)]
      rw [hlast']
      exact Arm.close S v k hedge
    | cons k2 t =>
      have htgtk : (G.edges.getD k (0, 0)).2 = (G.edges.getD k2 (0, 0)).1 := by
        have := hchain 0 (by simp)
        rwa [List.getD_cons_zero, List.getD_cons_succ, List.getD_cons_zero] at this
      have hk2d : k2 ∈ (k :: k2 :: t).drop 1 := List.mem_cons_self _ _
      have hgtw : r < (G.edges.getD k2 (0, 0)).1 := hmidgt k2 hk2d
      have hnSw : (G.edges.getD k2 (0, 0)).1 ∉ S := havoid k2 hk2d
      have hedge : ((G.edges.getD k2 (0, 0)).1, k) ∈ adjRowOutMulti G v := by
        rw [mem_adjRowOutMulti]
        refine ⟨hlt k (List.mem_cons_self _ _), ?_⟩
        rw [Prod.ext_iff]
        exact ⟨hsrc0, htgtk⟩
      have hnodup' : ((k2 :: t).map
          (fun k => (G.edges.getD k (0, 0)).1)).Nodup := hnodup
      rw [List.map_cons, List.nodup_cons] at hnodup'
      have htail : Arm G r ((G.edges.getD k2 (0, 0)).1 :: S)
          ((G.edges.getD k2 (0, 0)).1)
          ((k2 :: t).map (fun k => ((G.edges.getD k (0, 0)).2, k))) := by
        apply ih
        · simp
        · intro a ha
          exact hlt a (List.mem_cons_of_mem _ ha)
        · rw [List.getD_cons_zero]
        · intro i hi
          have h5 := hchain (i + 1) (by simp at hi ⊢; omega)
          rwa [List.getD_cons_succ, List.getD_cons_succ] at h5
        · have hlen1 : (k :: k2 :: t).length - 1 = t.length + 1 := by simp
          rw [hlen1, List.getD_cons_succ] at hlast
          have hlen2 : (k2 :: t).length - 1 = t.length := by simp
          rw [hlen2]
          exact hlast
        · intro a ha
          exact hmidgt a (List.mem_cons_of_mem _ ha)
        · exact hnodup'.2
        · intro a ha hmem
          rcases List.mem_cons.mp hmem with h | h
          · apply hnodup'.1
            rw [← h]
            exact List.mem_map_of_mem _ ha
          · exact havoid a (List.mem_cons_of_mem _ ha) h
      show Arm G r S v (((G.edges.getD k (0, 0)).2, k) ::
        (k2 :: t).map (fun k => ((G.edges.getD k (0, 0)).2, k)))
      rw [htgtk]
      exact Arm.step S v _ k _ hedge hgtw hnSw htail

/-- Every canonical elementary cycle is realized by a root arm at its
minimal node. -/
theorem canon_arm (G : MDiGraph) (es : List Nat) (h : CanonCycle G es) :
    Arm G ((G.edges.getD (es.getD 0 0) (0, 0)).1)
      [(G.edges.getD (es.getD 0 0) (0, 0)).1]
      ((G.edges.getD (es.getD 0 0) (0, 0)).1)
      (es.map (fun k => ((G.edges.getD k (0, 0)).2, k))) := by
  obtain ⟨hne, hlt, hchain, hclose, hnd, hmin⟩ := h
  have hlen : 0 < es.length := List.length_pos.mpr hne
  have hdecomp : es = es.getD 0 0 :: es.drop 1 := by
    cases es with
    | nil => exact absurd rfl hne
    | cons a t => rfl
  have hndsplit : ((G.edges.getD (es.getD 0 0) (0, 0)).1 ∉
      (es.drop 1).map (fun k => (G.edges.getD k (0, 0)).1)) ∧
      ((es.drop 1).map (fun k => (G.edges.getD k (0, 0)).1)).Nodup := by
    have h2 := hnd
    rw [hdecomp, List.map_cons, List.nodup_cons] at h2
    exact h2
  apply canon_arm_aux G _ es _ _ hne hlt rfl hchain hclose
  · intro k hk
    have h3 := hmin k (by rw [hdecomp]; exact List.mem_cons_of_mem _ hk)
    have h4 : (G.edges.getD k (0, 0)).1 ≠ (G.edges.getD (es.getD 0 0) (0, 0)).1 := by
      intro h5
      apply hndsplit.1
      rw [← h5]
      exact List.mem_map_of_mem _ hk
    omega
  · exact hndsplit.2
  · intro k hk hmem
    rcases List.mem_singleton.mp hmem with h5
    apply hndsplit.1
    rw [← h5]
    exact List.mem_map_of_mem _ hk

/-- Two root arms with the same key list are the same arm from the same
start node: the recorded raw cycles are determined by their key lists. -/
theorem root_arm_inj (G : MDiGraph) (r1 r2 : Nat) (q1 q2 : List (Nat × Nat))
    (h1 : Arm G r1 [r1] r1 q1) (h2 : Arm G r2 [r2] r2 q2)
    (heq : q1.map Prod.snd = q2.map Prod.snd) : r1 = r2 ∧ q1 = q2 := by
  have hrec : ∀ (r : Nat) (q : List (Nat × Nat)), Arm G r [r] r q →
      q = (q.map Prod.snd).map (fun k => ((G.edges.getD k (0, 0)).2, k)) := by
    intro r q h
    obtain ⟨_, hmem, _, _, _, _⟩ := arm_edges_spec G r q [r] r h
    rw [List.map_map]
    have hcg : q.map ((fun k => ((G.edges.getD k (0, 0)).2, k)) ∘ Prod.snd) =
        q.map id := by
      apply List.map_congr_left
      intro a ha
      show ((G.edges.getD a.2 (0, 0)).2, a.2) = a
      rw [Prod.ext_iff]
      exact ⟨(hmem a ha).2, rfl⟩
    rw [hcg, List.map_id]
  have hq : q1 = q2 := by
    rw [hrec r1 q1 h1, hrec r2 q2 h2, heq]
  have hrdet : ∀ (r : Nat) (q : List (Nat × Nat)), Arm G r [r] r q →
      r = (G.edges.getD ((q.map Prod.snd).getD (q.length - 1) 0) (0, 0)).2 := by
    intro r q h
    obtain ⟨hne, hmem, _, hlast, _, _⟩ := arm_edges_spec G r q [r] r h
    have hlen : 0 < q.length := List.length_pos.mpr hne
    rw [getD_map_lt Prod.snd q (q.length - 1) 0 (0, 0) (by omega),
      (hmem _ (getD_mem q (q.length - 1) (0, 0) (by omega))).2, hlast]
  have hr : r1 = r2 := by
    rw [hrdet r1 q1 h1, hrdet r2 q2 h2, heq, hq]
  exact ⟨hr, hq⟩

/-- C7: on a well-formed multigraph, `all_cycles` enumerates exactly the
elementary cycles — every output edge-index list is a canonical
elementary cycle (with the closing return edge to its start included,
self-loops counting as length-1 cycles), and every canonical elementary
cycle appears in the output exactly once. -/
theorem all_cycles_enumeration (G : MDiGraph) (hwf : MDiGraph.WF G) :
    (∀ es ∈ (all_cycles G).2, CanonCycle G es) ∧
    (all_cycles G).2.Nodup ∧
    (∀ es, CanonCycle G es → es ∈ (all_cycles G).2) := by
  obtain ⟨C, hC1, hC2, hCnd, hCform, hCcomp⟩ := all_cycles_cycles_spec G hwf
  have hproj : ∀ (r : Nat) (q : List (Nat × Nat)),
      ((((r, (none : Option Nat)) :: armE q).drop 1).map (fun p => p.2.getD 0)) =
        q.map Prod.snd := by
    intro r q
    show (armE q).map (fun p => p.2.getD 0) = q.map Prod.snd
    unfold armE
    rw [List.map_map]
    apply List.map_congr_left
    intro a _
    rfl
  constructor
  · intro es hes
    rw [hC2] at hes
    obtain ⟨c, hcC, rfl⟩ := List.mem_map.mp hes
    obtain ⟨r, q, hr, harm, rfl⟩ := hCform c hcC
    rw [hproj r q]
    exact arm_canon G r q harm
  refine ⟨?_, ?_⟩
  · rw [hC2]
    apply List.Nodup.map_on ?_ hCnd
    intro c1 hm1 c2 hm2 heq
    obtain ⟨r1, q1, _, ha1, rfl⟩ := hCform c1 hm1
    obtain ⟨r2, q2, _, ha2, rfl⟩ := hCform c2 hm2
    rw [hproj, hproj] at heq
    obtain ⟨hreq, hqeq⟩ := root_arm_inj G r1 r2 q1 q2 ha1 ha2 heq
    rw [hreq, hqeq]
  · intro es hcanon
    have hne := hcanon.1
    have hr0n : (G.edges.getD (es.getD 0 0) (0, 0)).1 < G.n := by
      have hk : es.getD 0 0 ∈ es := getD_mem es 0 0 (List.length_pos.mpr hne)
      have hklt := hcanon.2.1 _ hk
      have hmem2 : G.edges.getD (es.getD 0 0) (0, 0) ∈ G.edges := by
        rw [List.getD_eq_getElem _ _ hklt]
        exact List.getElem_mem hklt
      exact (hwf _ hmem2).1
    have harm := canon_arm G es hcanon
    have hmemC := hCcomp _ _ hr0n harm
    have hesrec : (es.map (fun k => ((G.edges.getD k (0, 0)).2, k))).map
        Prod.snd = es := by
      rw [List.map_map]
      have h6 : es.map (Prod.snd ∘ fun k => ((G.edges.getD k (0, 0)).2, k)) =
          es.map id := List.map_congr_left (fun a _ => rfl)
      rw [h6, List.map_id]
    rw [hC2]
    refine List.mem_map.mpr ⟨_, hmemC, ?_⟩
    rw [hproj, hesrec]

/-- Witness for C7 on the 2-cycle graph. -/
theorem all_cycles_enumeration_witness :
    MDiGraph.WF ⟨2, [(0, 1), (1, 0)]⟩ ∧
    ((∀ es ∈ (all_cycles ⟨2, [(0, 1), (1, 0)]⟩).2,
        CanonCycle ⟨2, [(0, 1), (1, 0)]⟩ es) ∧
      (all_cycles ⟨2, [(0, 1), (1, 0)]⟩).2.Nodup ∧
      (∀ es, CanonCycle ⟨2, [(0, 1), (1, 0)]⟩ es →
        es ∈ (all_cycles ⟨2, [(0, 1), (1, 0)]⟩).2)) :=
  ⟨by unfold MDiGraph.WF; decide,
   all_cycles_enumeration ⟨2, [(0, 1), (1, 0)]⟩ (by unfold MDiGraph.WF; decide)⟩

end SeqDecomp
